import Mathlib

/-!
# OSG-Chessboard: the board model and its move generator

A shallow embedding of `Chessboard` (src/Chessboard.h, src/Chessboard.cpp).

* C++ `int` rows, columns and loop counters are `Int`.
* `board[row][col]` is a checked read: an index outside `0..7` is a read outside the
  `Cell board[8][8]` array and makes the whole computation `none`.
* A target identifier `"Marker.<kind>.<row>.<col>"` is kept as the triple it is printed
  from (`Target`); `Target.name` is the printed text.
* `Point center` and `float facing` only feed the renderer and are left out.
-/

namespace OSGChess

/-- The `Chessboard::Side` enumeration. -/
inductive Side where
  | Black
  | White
deriving DecidableEq, Repr

/-- The `Chessboard::Piece::Rank` enumeration. -/
inductive Rank where
  | Empty
  | Rook
  | Knight
  | Bishop
  | King
  | Queen
  | Pawn
deriving DecidableEq, Repr

/-- The data members of `Chessboard::Piece` (without `facing`). -/
structure Piece where
  rank : Rank := Rank.Empty
  side : Side := Side.White
  row : Int := 0
  col : Int := 0
  captured : Bool := false
  first_move : Bool := true
  in_check : Bool := false
  name : String := ""
deriving DecidableEq, Repr

/-- The accessor `Piece::has_moved`. -/
def Piece.has_moved (p : Piece) : Bool := !p.first_move

/-- The accessor `Piece::is_checked`. -/
def Piece.is_checked (p : Piece) : Bool := p.in_check

/-- The accessor `Piece::is_empty`. -/
def Piece.is_empty (p : Piece) : Bool := decide (p.rank = Rank.Empty)

/-- The `Chessboard::Cell::Type` enumeration. -/
inductive CellType where
  | Invalid
  | Board
  | Holding
deriving DecidableEq, Repr

/-- The data members of `Chessboard::Cell` (without `center`). -/
structure Cell where
  type : CellType
  piece : Piece
  row : Int
  col : Int
deriving DecidableEq, Repr

/-- The accessor `Cell::has_piece`. -/
def Cell.has_piece (c : Cell) : Bool := !c.piece.is_empty

/-- The data members of `Chessboard`. `board r c` is `board[r][c]`; only the
indices `0..7` belong to the array, and only those are ever handed out by `cell`. -/
structure Chessboard where
  board : Int → Int → Cell
  white_capture_index : Int
  white_capture : Int → Cell
  black_capture_index : Int
  black_capture : Int → Cell
  this_side : Side
  selected : Int × Int

/-- Both indices lie inside `Cell board[8][8]`. -/
def inRange (row col : Int) : Prop := 0 ≤ row ∧ row < 8 ∧ 0 ≤ col ∧ col < 8

instance (row col : Int) : Decidable (inRange row col) := by
  unfold inRange; exact inferInstance

/-- The read `board[row][col]`: `none` when an index is outside the array. -/
def Chessboard.cell (cb : Chessboard) (row col : Int) : Option Cell :=
  if inRange row col then some (cb.board row col) else none

/-- The two kinds of marker a generator can name. -/
inductive Marker where
  | Move
  | Attack
deriving DecidableEq, Repr

/-- A target identifier: the kind and the two numbers streamed into the name. -/
structure Target where
  kind : Marker
  row : Int
  col : Int
deriving DecidableEq, Repr

/-- The word streamed after `"Marker."`. -/
def Marker.text : Marker → String
  | Marker.Move => "Move"
  | Marker.Attack => "Attack"

/-- The identifier text `"Marker.<kind>.<row>.<col>"`. -/
def Target.name (t : Target) : String :=
  "Marker." ++ t.kind.text ++ "." ++ toString t.row ++ "." ++ toString t.col

/-- One path, a `StringList`. -/
abbrev Path := List Target

/-- The result of a generator, a `ListStringList`. -/
abbrev Paths := List Path

/-- The `opponent` local every generator computes from the moving piece's side. -/
def opponentOf (side : Side) : Side :=
  if side = Side.White then Side.Black else Side.White

/-- One of the eight blocks of `calc_knight_moves`: read the destination, and push a
single-target path when it is empty or held by the opponent. -/
def knight_probe (cb : Chessboard) (opponent : Side) (r c : Int) (paths : Paths) :
    Option Paths :=
  (cb.cell r c).bind fun target =>
    let target_rank := target.piece.rank
    let target_side := target.piece.side
    if target_rank = Rank.Empty ∨ target_side = opponent then
      some (paths ++ [[Target.mk
        (if target_rank = Rank.Empty ∨ target_side ≠ opponent then Marker.Move else Marker.Attack)
        r c]])
    else some paths

/-- The generator `Chessboard::calc_knight_moves`. -/
def Chessboard.calc_knight_moves (cb : Chessboard) (row col : Int) : Option Paths :=
  (cb.cell row col).bind fun here =>
    let piece := here.piece
    let side := piece.side
    let opponent := opponentOf side
    let paths : Paths := []
    -- up one, over two
    (if row < 7 then
      (if col < 6 then knight_probe cb opponent (row + 1) (col + 2) paths else some paths).bind
        fun paths =>
      (if col > 1 then knight_probe cb opponent (row + 1) (col - 2) paths else some paths)
     else some paths).bind fun paths =>
    -- up two, over one
    (if row < 6 then
      (if col < 7 then knight_probe cb opponent (row + 2) (col + 1) paths else some paths).bind
        fun paths =>
      (if col > 0 then knight_probe cb opponent (row + 2) (col - 1) paths else some paths)
     else some paths).bind fun paths =>
    -- back one, over two
    (if row > 0 then
      (if col < 6 then knight_probe cb opponent (row - 1) (col + 2) paths else some paths).bind
        fun paths =>
      (if col > 1 then knight_probe cb opponent (row - 1) (col - 2) paths else some paths)
     else some paths).bind fun paths =>
    -- back two, over one
    (if row > 1 then
      (if col < 7 then knight_probe cb opponent (row - 2) (col + 1) paths else some paths).bind
        fun paths =>
      (if col > 0 then knight_probe cb opponent (row - 2) (col - 1) paths else some paths)
     else some paths)

/-- The short-circuit test `guard && test(board[r][c].piece)`: the cell is read only
when the guard holds. -/
def Chessboard.probe (cb : Chessboard) (guard : Bool) (r c : Int) (test : Piece → Bool) :
    Option Bool :=
  if guard then (cb.cell r c).bind fun sq => some (test sq.piece) else some false

/-- The block that pushes a fresh one-target path when `ok` holds. -/
def push_single (ok : Bool) (t : Target) (paths : Paths) : Paths :=
  if ok then paths ++ [[t]] else paths

/-- The generator `Chessboard::calc_pawn_moves`. -/
def Chessboard.calc_pawn_moves (cb : Chessboard) (row col : Int) : Option Paths :=
  (cb.cell row col).bind fun here =>
    let piece := here.piece
    let side := piece.side
    let paths : Paths := []
    if side = Side.White then
      -- check forward progress
      (cb.probe (decide (row < 7)) (row + 1) col
          (fun p => decide (p.rank = Rank.Empty))).bind fun first_square_clear =>
      let paths := push_single first_square_clear (Target.mk Marker.Move (row + 1) col) paths
      (cb.probe (first_square_clear && !piece.has_moved) (row + 2) col
          (fun p => decide (p.rank = Rank.Empty))).bind fun second_square_clear =>
      let paths := push_single second_square_clear (Target.mk Marker.Move (row + 2) col) paths
      -- attack possibilities
      (cb.probe (decide (col > 0) && decide (row < 7)) (row + 1) (col - 1)
          (fun p => decide (p.rank ≠ Rank.Empty) && decide (p.side = Side.Black))).bind fun a1 =>
      let paths := push_single a1 (Target.mk Marker.Attack (row + 1) (col - 1)) paths
      (cb.probe (decide (col < 7) && decide (row < 7)) (row + 1) (col + 1)
          (fun p => decide (p.rank ≠ Rank.Empty) && decide (p.side = Side.Black))).bind fun a2 =>
      let paths := push_single a2 (Target.mk Marker.Attack (row + 1) (col + 1)) paths
      some paths
    else
      -- check forward progress
      (cb.probe (decide (row > 0)) (row - 1) col
          (fun p => decide (p.rank = Rank.Empty))).bind fun first_square_clear =>
      let paths := push_single first_square_clear (Target.mk Marker.Move (row - 1) col) paths
      (cb.probe (!piece.has_moved) (row - 2) col
          (fun p => decide (p.rank = Rank.Empty))).bind fun second_square_clear =>
      let paths := push_single second_square_clear (Target.mk Marker.Move (row - 2) col) paths
      -- attack possibilities
      (cb.probe (decide (col < 7) && decide (row > 0)) (row - 1) (col + 1)
          (fun p => decide (p.rank ≠ Rank.Empty) && decide (p.side = Side.White))).bind fun a1 =>
      let paths := push_single a1 (Target.mk Marker.Attack (row - 1) (col + 1)) paths
      (cb.probe (decide (col > 0) && decide (row > 0)) (row - 1) (col - 1)
          (fun p => decide (p.rank ≠ Rank.Empty) && decide (p.side = Side.White))).bind fun a2 =>
      let paths := push_single a2 (Target.mk Marker.Attack (row - 1) (col - 1)) paths
      some paths

/-- One sliding loop of the rook, bishop and queen generators, started at `(i, j)`
with the loop condition `cond` and the per-iteration step `(di, dj)`:
an empty square is pushed as a Move target and the loop goes on; the first
non-empty square is pushed as an Attack target when the opponent holds it, and the
loop breaks. The C++ loop has no bound of its own; `fuel` counts iterations, and
`none` is also the answer when it runs out. -/
def Chessboard.scan (cb : Chessboard) (opponent : Side) (cond : Int → Int → Bool)
    (di dj : Int) : Nat → Int → Int → Path → Option Path
  | 0, _, _, _ => none
  | fuel + 1, i, j, target_squares =>
    if cond i j then
      (cb.cell i j).bind fun sq =>
        if sq.piece.rank = Rank.Empty then
          cb.scan opponent cond di dj fuel (i + di) (j + dj)
            (target_squares ++ [Target.mk Marker.Move i j])
        else if sq.piece.side = opponent then
          some (target_squares ++ [Target.mk Marker.Attack i j])
        else some target_squares
    else some target_squares

/-- Iterations granted to every loop over a row, column or diagonal: eight squares
and the final failing test. -/
def loopFuel : Nat := 9

/-- The block after each loop: `if (target_squares.size()) { paths.push_back(target_squares);
target_squares.clear(); }`, on the pair (paths, target_squares). -/
def flush (paths : Paths) (target_squares : Path) : Paths × Path :=
  if target_squares.length ≠ 0 then (paths ++ [target_squares], []) else (paths, target_squares)

/-- The first castling loop of `calc_rook_moves` (towards lower columns): the result
is `found_the_king` and `target_squares`. -/
def Chessboard.castle_left (cb : Chessboard) (side : Side) (row : Int) :
    Nat → Int → Path → Option (Bool × Path)
  | 0, _, _ => none
  | fuel + 1, i, target_squares =>
    if i ≥ 0 then
      (cb.cell row i).bind fun sq =>
        if sq.piece.rank ≠ Rank.Empty then
          if sq.piece.rank = Rank.King ∧ sq.piece.side = side ∧ !sq.piece.has_moved then
            some (true, target_squares ++ [Target.mk Marker.Move row (i + 1)])
          else some (false, target_squares)
        else cb.castle_left side row fuel (i - 1) target_squares
    else some (false, target_squares)

/-- The second castling loop of `calc_rook_moves` (towards higher columns). -/
def Chessboard.castle_right (cb : Chessboard) (side : Side) (row : Int) :
    Nat → Int → Path → Option Path
  | 0, _, _ => none
  | fuel + 1, i, target_squares =>
    if i < 8 then
      (cb.cell row i).bind fun sq =>
        if sq.piece.rank ≠ Rank.Empty then
          if sq.piece.rank = Rank.King ∧ sq.piece.side = side ∧ !sq.piece.has_moved then
            some (target_squares ++ [Target.mk Marker.Move row (i - 1)])
          else some target_squares
        else cb.castle_right side row fuel (i + 1) target_squares
    else some target_squares

/-- The castling block of `calc_rook_moves`, `if (!piece.has_moved()) { ... }`: the
loop towards lower columns, then, when it did not find the king, the loop towards
higher columns. The result is `target_squares`. -/
def Chessboard.castle_scan (cb : Chessboard) (piece : Piece) (row col : Int)
    (target_squares : Path) : Option Path :=
  let side := piece.side
  if !piece.has_moved then
    (cb.castle_left side row loopFuel (col - 1) target_squares).bind fun res =>
      if !res.1 then cb.castle_right side row loopFuel (col + 1) res.2
      else some res.2
  else some target_squares

/-- The generator `Chessboard::calc_rook_moves`. -/
def Chessboard.calc_rook_moves (cb : Chessboard) (row col : Int) : Option Paths :=
  (cb.cell row col).bind fun here =>
    let piece := here.piece
    let side := piece.side
    let opponent := opponentOf side
    let paths : Paths := []
    let target_squares : Path := []
    (cb.scan opponent (fun i _ => decide (i < 8)) 1 0 loopFuel (row + 1) col
        target_squares).bind fun target_squares =>
    let st := flush paths target_squares
    (cb.scan opponent (fun i _ => decide (i ≥ 0)) (-1) 0 loopFuel (row - 1) col
        st.2).bind fun target_squares =>
    let st := flush st.1 target_squares
    (cb.scan opponent (fun _ i => decide (i < 8)) 0 1 loopFuel row (col + 1)
        st.2).bind fun target_squares =>
    let st := flush st.1 target_squares
    (cb.scan opponent (fun _ i => decide (i ≥ 0)) 0 (-1) loopFuel row (col - 1)
        st.2).bind fun target_squares =>
    let st := flush st.1 target_squares
    (cb.castle_scan piece row col st.2).bind fun target_squares =>
    let st := flush st.1 target_squares
    some st.1

/-- The generator `Chessboard::calc_bishop_moves`. -/
def Chessboard.calc_bishop_moves (cb : Chessboard) (row col : Int) : Option Paths :=
  (cb.cell row col).bind fun here =>
    let piece := here.piece
    let side := piece.side
    let opponent := opponentOf side
    let paths : Paths := []
    let target_squares : Path := []
    (cb.scan opponent (fun i j => decide (i < 8) && decide (j < 8)) 1 1 loopFuel
        (row + 1) (col + 1) target_squares).bind fun target_squares =>
    let st := flush paths target_squares
    (cb.scan opponent (fun i j => decide (i < 8) && decide (j ≥ 0)) 1 (-1) loopFuel
        (row + 1) (col - 1) st.2).bind fun target_squares =>
    let st := flush st.1 target_squares
    (cb.scan opponent (fun i j => decide (i ≥ 0) && decide (j < 8)) (-1) 1 loopFuel
        (row - 1) (col + 1) st.2).bind fun target_squares =>
    let st := flush st.1 target_squares
    (cb.scan opponent (fun i j => decide (i ≥ 0) && decide (j ≥ 0)) (-1) (-1) loopFuel
        (row - 1) (col - 1) st.2).bind fun target_squares =>
    let st := flush st.1 target_squares
    some st.1

/-- The body of the `for` loop of `calc_king_moves`, run over the rest of the
`squares` table. -/
def Chessboard.king_loop (cb : Chessboard) (opponent : Side) :
    List (Int × Int) → Paths → Option Paths
  | [], paths => some paths
  | (r, c) :: rest, paths =>
    if r < 0 ∨ r > 7 ∨ c < 0 ∨ c > 7 then cb.king_loop opponent rest paths
    else
      (cb.cell r c).bind fun sq =>
        if sq.piece.rank = Rank.Empty then
          cb.king_loop opponent rest (paths ++ [[Target.mk Marker.Move r c]])
        else if sq.piece.side = opponent then
          cb.king_loop opponent rest (paths ++ [[Target.mk Marker.Attack r c]])
        else cb.king_loop opponent rest paths

/-- The `squares` table of `calc_king_moves`. -/
def king_squares (row col : Int) : List (Int × Int) :=
  [(row - 1, col), (row - 1, col - 1), (row - 1, col + 1), (row, col - 1),
   (row, col + 1), (row + 1, col), (row + 1, col - 1), (row + 1, col + 1)]

/-- The generator `Chessboard::calc_king_moves`. -/
def Chessboard.calc_king_moves (cb : Chessboard) (row col : Int) : Option Paths :=
  (cb.cell row col).bind fun here =>
    let piece := here.piece
    let side := piece.side
    let opponent := opponentOf side
    let paths : Paths := []
    if piece.is_checked then some paths
    else cb.king_loop opponent (king_squares row col) paths

/-- The generator `Chessboard::calc_queen_moves`. -/
def Chessboard.calc_queen_moves (cb : Chessboard) (row col : Int) : Option Paths :=
  (cb.cell row col).bind fun here =>
    let piece := here.piece
    let side := piece.side
    let opponent := opponentOf side
    let paths : Paths := []
    let target_squares : Path := []
    (cb.scan opponent (fun i j => decide (i < 8) && decide (j < 8)) 1 1 loopFuel
        (row + 1) (col + 1) target_squares).bind fun target_squares =>
    let st := flush paths target_squares
    (cb.scan opponent (fun i _ => decide (i < 8)) 1 0 loopFuel (row + 1) col
        st.2).bind fun target_squares =>
    let st := flush st.1 target_squares
    (cb.scan opponent (fun i j => decide (i < 8) && decide (j ≥ 0)) 1 (-1) loopFuel
        (row + 1) (col - 1) st.2).bind fun target_squares =>
    let st := flush st.1 target_squares
    (cb.scan opponent (fun _ j => decide (j ≥ 0)) 0 (-1) loopFuel row (col - 1)
        st.2).bind fun target_squares =>
    let st := flush st.1 target_squares
    (cb.scan opponent (fun _ j => decide (j < 8)) 0 1 loopFuel row (col + 1)
        st.2).bind fun target_squares =>
    let st := flush st.1 target_squares
    (cb.scan opponent (fun i j => decide (i ≥ 0) && decide (j < 8)) (-1) 1 loopFuel
        (row - 1) (col + 1) st.2).bind fun target_squares =>
    let st := flush st.1 target_squares
    (cb.scan opponent (fun i _ => decide (i ≥ 0)) (-1) 0 loopFuel (row - 1) col
        st.2).bind fun target_squares =>
    let st := flush st.1 target_squares
    (cb.scan opponent (fun i j => decide (i ≥ 0) && decide (j ≥ 0)) (-1) (-1) loopFuel
        (row - 1) (col - 1) st.2).bind fun target_squares =>
    let st := flush st.1 target_squares
    some st.1

/-- The dispatch `Chessboard::calc_valid_paths`. -/
def Chessboard.calc_valid_paths (cb : Chessboard) (row col : Int) : Option Paths :=
  (cb.cell row col).bind fun here =>
    match here.piece.rank with
    | Rank.Rook => cb.calc_rook_moves row col
    | Rank.Knight => cb.calc_knight_moves row col
    | Rank.Bishop => cb.calc_bishop_moves row col
    | Rank.King => cb.calc_king_moves row col
    | Rank.Queen => cb.calc_queen_moves row col
    | Rank.Pawn => cb.calc_pawn_moves row col
    | Rank.Empty => some []

/-- The query `Chessboard::valid_paths(int row, int col)`. -/
def Chessboard.valid_paths (cb : Chessboard) (row col : Int) : Option Paths :=
  (cb.cell row col).bind fun here =>
    if here.type ≠ CellType.Board ∨ here.piece.rank = Rank.Empty then some []
    else cb.calc_valid_paths row col

/-- The result as the program hands it out: the identifier texts. -/
def Chessboard.valid_path_names (cb : Chessboard) (row col : Int) : Option (List (List String)) :=
  (cb.valid_paths row col).map fun paths => paths.map fun p => p.map Target.name

/-! ## Concrete boards -/

/-- A board cell at `(r, c)` holding no piece, as the constructor leaves it. -/
def emptyCell (r c : Int) : Cell :=
  { type := CellType.Board, piece := {}, row := r, col := c }

/-- A holding cell with no piece in it. -/
def emptyHolding : Cell :=
  { type := CellType.Holding, piece := {}, row := 0, col := 0 }

/-- A board without any piece, White to move, nothing selected. -/
def emptyBoard : Chessboard :=
  { board := fun r c => emptyCell r c
    white_capture_index := 0
    white_capture := fun _ => emptyHolding
    black_capture_index := 0
    black_capture := fun _ => emptyHolding
    this_side := Side.White
    selected := (-1, -1) }

/-- The board with the piece of cell `(r, c)` replaced by `p`. -/
def Chessboard.place (cb : Chessboard) (r c : Int) (p : Piece) : Chessboard :=
  { cb with board := fun i j =>
      if i = r ∧ j = c then { cb.board i j with piece := p } else cb.board i j }

/-! ## Specification side -/

/-- What the specification offers a one-step mover of side `mover` at the destination
`(r, c)`: nothing off the board, a Move target on an empty square, an Attack target
on a square held by the other side, nothing on a square held by the own side. -/
def offer (cb : Chessboard) (mover : Side) (r c : Int) : Option Target :=
  if inRange r c then
    if (cb.board r c).piece.rank = Rank.Empty then some (Target.mk Marker.Move r c)
    else if (cb.board r c).piece.side ≠ mover then some (Target.mk Marker.Attack r c)
    else none
  else none

/-- The eight knight offsets `(±1, ±2)`, `(±2, ±1)`. -/
def knightOffsets : List (Int × Int) :=
  [(1, 2), (1, -2), (2, 1), (2, -1), (-1, 2), (-1, -2), (-2, 1), (-2, -1)]

/-- The single-target paths the specification lists for the destinations `(r, c) + d`,
`d` running over `offsets`. -/
def singlePaths (cb : Chessboard) (mover : Side) (r c : Int) (offsets : List (Int × Int)) :
    Paths :=
  (offsets.filterMap fun d => offer cb mover (r + d.1) (c + d.2)).map fun t => [t]

/-- A White knight on (3,3) with a Black pawn on (4,5) and a White pawn on (5,4). -/
def knightBoard : Chessboard :=
  ((emptyBoard.place 3 3 { rank := Rank.Knight, side := Side.White }).place 4 5
    { rank := Rank.Pawn, side := Side.Black }).place 5 4
    { rank := Rank.Pawn, side := Side.White }

/-- The Move targets for the first `n` squares outward from `(r, c)` in the direction
`(dr, dc)`. -/
def runMoves (r c dr dc : Int) (n : Nat) : Path :=
  (List.range n).map fun (k : Nat) =>
    Target.mk Marker.Move (r + ((k : Int) + 1) * dr) (c + ((k : Int) + 1) * dc)

/-- The specification of one direction run of a piece of side `mover` standing on
`(r, c)`: for some `n`, the squares at distance `1..n` in the direction `(dr, dc)` are on
the board and empty and are listed as Move targets in that order; the square at
distance `n + 1` is off the board (nothing more is listed), or holds a piece of the
other side (it is listed as the final Attack target), or holds an own piece (nothing
more is listed). -/
def IsRun (cb : Chessboard) (mover : Side) (r c dr dc : Int) (run : Path) : Prop :=
  ∃ n : Nat,
    (∀ k : Nat, 1 ≤ k → k ≤ n →
      inRange (r + (k : Int) * dr) (c + (k : Int) * dc) ∧
        (cb.board (r + (k : Int) * dr) (c + (k : Int) * dc)).piece.rank = Rank.Empty) ∧
    ((¬ inRange (r + ((n : Int) + 1) * dr) (c + ((n : Int) + 1) * dc) ∧
        run = runMoves r c dr dc n) ∨
     (inRange (r + ((n : Int) + 1) * dr) (c + ((n : Int) + 1) * dc) ∧
        (cb.board (r + ((n : Int) + 1) * dr) (c + ((n : Int) + 1) * dc)).piece.rank ≠ Rank.Empty ∧
        (cb.board (r + ((n : Int) + 1) * dr) (c + ((n : Int) + 1) * dc)).piece.side ≠ mover ∧
        run = runMoves r c dr dc n ++
          [Target.mk Marker.Attack (r + ((n : Int) + 1) * dr) (c + ((n : Int) + 1) * dc)]) ∨
     (inRange (r + ((n : Int) + 1) * dr) (c + ((n : Int) + 1) * dc) ∧
        (cb.board (r + ((n : Int) + 1) * dr) (c + ((n : Int) + 1) * dc)).piece.rank ≠ Rank.Empty ∧
        (cb.board (r + ((n : Int) + 1) * dr) (c + ((n : Int) + 1) * dc)).piece.side = mover ∧
        run = runMoves r c dr dc n))

/-- The runs that are not empty, in the given order. -/
def nonEmptyRuns (runs : List Path) : Paths :=
  runs.filter fun run => !run.isEmpty

/-- The directions a sliding piece scans. -/
def IsDir (dr dc : Int) : Prop :=
  (dr = 1 ∨ dr = 0 ∨ dr = -1) ∧ (dc = 1 ∨ dc = 0 ∨ dc = -1) ∧ (dr ≠ 0 ∨ dc ≠ 0)

/-- Square `(r, k)` is the first non-empty square met going from `(r, c)` towards
lower columns. -/
def FirstPieceLeft (cb : Chessboard) (r c k : Int) : Prop :=
  0 ≤ k ∧ k < c ∧ (cb.board r k).piece.rank ≠ Rank.Empty ∧
    ∀ j : Int, k < j → j < c → (cb.board r j).piece.rank = Rank.Empty

/-- Square `(r, k)` is the first non-empty square met going from `(r, c)` towards
higher columns. -/
def FirstPieceRight (cb : Chessboard) (r c k : Int) : Prop :=
  c < k ∧ k < 8 ∧ (cb.board r k).piece.rank ≠ Rank.Empty ∧
    ∀ j : Int, c < j → j < k → (cb.board r j).piece.rank = Rank.Empty

/-- Square `(r, k)` holds a King of side `s` that has never moved. -/
def UnmovedKing (cb : Chessboard) (s : Side) (r k : Int) : Prop :=
  (cb.board r k).piece.rank = Rank.King ∧ (cb.board r k).piece.side = s ∧
    (cb.board r k).piece.has_moved = false

/-- The first non-empty square towards lower columns holds the own unmoved King. -/
def KingLeft (cb : Chessboard) (s : Side) (r c : Int) : Prop :=
  ∃ k : Int, FirstPieceLeft cb r c k ∧ UnmovedKing cb s r k

/-- The first non-empty square towards higher columns holds the own unmoved King. -/
def KingRight (cb : Chessboard) (s : Side) (r c : Int) : Prop :=
  ∃ k : Int, FirstPieceRight cb r c k ∧ UnmovedKing cb s r k

/-- What the castling block of the rook generator leaves in `target_squares` for the
rook `piece` standing on `(r, c)`: the square next to the King on the rook's side when
the rook has never moved and the first non-empty square towards lower columns, or
failing that towards higher columns, holds the own unmoved King; nothing otherwise. -/
def CastleOutcome (cb : Chessboard) (piece : Piece) (r c : Int) (ts : Path) : Prop :=
  (piece.has_moved = false ∧ ∃ k : Int, FirstPieceLeft cb r c k ∧
      UnmovedKing cb piece.side r k ∧ ts = [Target.mk Marker.Move r (k + 1)]) ∨
  (piece.has_moved = false ∧ ¬ KingLeft cb piece.side r c ∧ ∃ k : Int,
      FirstPieceRight cb r c k ∧ UnmovedKing cb piece.side r k ∧
      ts = [Target.mk Marker.Move r (k - 1)]) ∨
  ((piece.has_moved = true ∨ (¬ KingLeft cb piece.side r c ∧ ¬ KingRight cb piece.side r c)) ∧
      ts = [])

/-- A White piece `p` on (3,3), a Black pawn on (5,3) and on (5,5), a White pawn on
(3,1) and on (1,1). -/
def sliderBoard (p : Piece) : Chessboard :=
  ((((emptyBoard.place 3 3 p).place 5 3 { rank := Rank.Pawn, side := Side.Black }).place 5 5
    { rank := Rank.Pawn, side := Side.Black }).place 3 1
    { rank := Rank.Pawn, side := Side.White }).place 1 1
    { rank := Rank.Pawn, side := Side.White }

/-- A White rook that has already moved. -/
def movedRook : Piece := { rank := Rank.Rook, side := Side.White, first_move := false }

/-- A White bishop. -/
def whiteBishop : Piece := { rank := Rank.Bishop, side := Side.White }

/-- A White queen. -/
def whiteQueen : Piece := { rank := Rank.Queen, side := Side.White }

/-- The offsets of the `squares` table of `calc_king_moves`, in its order. -/
def kingOffsets : List (Int × Int) :=
  [(-1, 0), (-1, -1), (-1, 1), (0, -1), (0, 1), (1, 0), (1, -1), (1, 1)]

/-- A White king on (0,3) with the given in-check flag, a Black pawn on (1,3), a White
pawn on (1,4). -/
def kingBoard (checked : Bool) : Chessboard :=
  ((emptyBoard.place 0 3 { rank := Rank.King, side := Side.White, in_check := checked }).place 1 3
    { rank := Rank.Pawn, side := Side.Black }).place 1 4
    { rank := Rank.Pawn, side := Side.White }

/-- A White rook that has never moved. -/
def unmovedRook : Piece := { rank := Rank.Rook, side := Side.White }

/-- A White king that has never moved. -/
def unmovedKing : Piece := { rank := Rank.King, side := Side.White }

/-- An unmoved White rook on (0,0) and an unmoved White king on (0,3), nothing between
them. -/
def castleBoard : Chessboard :=
  (emptyBoard.place 0 0 unmovedRook).place 0 3 unmovedKing

/-- An unmoved White rook on (0,4) right next to an unmoved White king on (0,3). -/
def rookKingBoard : Chessboard :=
  (emptyBoard.place 0 4 unmovedRook).place 0 3 unmovedKing

/-- Every pawn on the board that has never moved stands on its start row: row 1 for
White, row 6 for Black. -/
def PawnsOnStartRows (cb : Chessboard) : Prop :=
  ∀ r c : Int, inRange r c → (cb.board r c).piece.rank = Rank.Pawn →
    (cb.board r c).piece.has_moved = false →
    ((cb.board r c).piece.side = Side.White → r = 1) ∧
      ((cb.board r c).piece.side = Side.Black → r = 6)

/-- Target `t` is offered by the result `paths`: it occurs in one of the paths. -/
def Offered (paths : Paths) (t : Target) : Prop :=
  ∃ p ∈ paths, t ∈ p

/-- The row one step forward for a pawn of side `s` standing on row `r`. -/
def pawnForward (s : Side) (r : Int) : Int :=
  if s = Side.White then r + 1 else r - 1

/-- A White pawn on (1,2) that has never moved, a Black pawn on (2,3), a White pawn on
(2,1). -/
def pawnBoard : Chessboard :=
  ((emptyBoard.place 1 2 { rank := Rank.Pawn, side := Side.White }).place 2 3
    { rank := Rank.Pawn, side := Side.Black, first_move := false }).place 2 1
    { rank := Rank.Pawn, side := Side.White, first_move := false }

/-- A Black pawn on (6,0) that has never moved, with a White knight right in front of it
on (5,0) and (4,0) empty. -/
def blockedPawnBoard : Chessboard :=
  (emptyBoard.place 6 0 { rank := Rank.Pawn, side := Side.Black }).place 5 0
    { rank := Rank.Knight, side := Side.White, first_move := false }

/-- No Rook that has never moved stands right next, on its row, to a King of its own
side that has never moved. -/
def RooksApartFromKings (cb : Chessboard) : Prop :=
  ∀ r c k : Int, inRange r c → inRange r k →
    (cb.board r c).piece.rank = Rank.Rook → (cb.board r c).piece.has_moved = false →
    (k = c + 1 ∨ k = c - 1) → ¬ UnmovedKing cb (cb.board r c).piece.side r k

/-- Target `t` fits the present occupancy for a mover of side `mover`: its square is on
the board, a Move target names an empty square, an Attack target names a square held
by the other side. -/
def ValidTarget (cb : Chessboard) (mover : Side) (t : Target) : Prop :=
  inRange t.row t.col ∧
    (t.kind = Marker.Move → (cb.board t.row t.col).piece.rank = Rank.Empty) ∧
    (t.kind = Marker.Attack → (cb.board t.row t.col).piece.rank ≠ Rank.Empty ∧
      (cb.board t.row t.col).piece.side ≠ mover)

/-! ## Board state, selection and move commit -/

/-- The mutator `Piece::clear`: only the rank and the side are reset. -/
def Piece.clear (p : Piece) : Piece :=
  { p with rank := Rank.Empty, side := Side.White }

/-- The mutator `Piece::move_to`. -/
def Piece.move_to (p : Piece) (row_ col_ : Int) : Piece :=
  { p with row := row_, col := col_, first_move := false }

/-- The mutator `Piece::capture`. -/
def Piece.capture (p : Piece) : Piece :=
  { p with captured := true, row := -1, col := -1 }

/-- The accessor `Piece::is_captured`. -/
def Piece.is_captured (p : Piece) : Bool := p.captured

/-- The accessor `Piece::get_position`. -/
def Piece.get_position (p : Piece) : Int × Int := (p.row, p.col)

/-- The accessor `Cell::get_position`. -/
def Cell.get_position (c : Cell) : Int × Int := (c.row, c.col)

/-- The index list `Game::one_rank`. -/
def one_rank : List Int := [0, 1, 2, 3, 4, 5, 6, 7]

/-- The index list `Game::one_side`. -/
def one_side : List Int := [0, 1, 2, 3, 4, 5, 6, 7, 8, 9, 10, 11, 12, 13, 14, 15]

/-- The index list `Game::white_ranks`. -/
def white_ranks : List Int := [0, 1]

/-- The index list `Game::center_ranks`, as Game.cpp spells it. -/
def center_ranks : List Int := [2, 3, 4, 6]

/-- The index list `Game::black_ranks`. -/
def black_ranks : List Int := [6, 7]

/-- The table `white_major_type`, indexed by column. -/
def white_major_type (col : Int) : Rank :=
  [Rank.Rook, Rank.Knight, Rank.Bishop, Rank.King,
   Rank.Queen, Rank.Bishop, Rank.Knight, Rank.Rook].getD col.toNat Rank.Empty

/-- The table `white_major_name`, indexed by column. -/
def white_major_name (col : Int) : String :=
  ["WKR", "WKK", "WKB", "WKING", "WQUEEN", "WQB", "WQK", "WQR"].getD col.toNat ""

/-- The table `white_minor_name`, indexed by column. -/
def white_minor_name (col : Int) : String :=
  ["WP1", "WP2", "WP3", "WP4", "WP5", "WP6", "WP7", "WP8"].getD col.toNat ""

/-- The table `black_major_type`, indexed by column. -/
def black_major_type (col : Int) : Rank :=
  [Rank.Rook, Rank.Knight, Rank.Bishop, Rank.Queen,
   Rank.King, Rank.Bishop, Rank.Knight, Rank.Rook].getD col.toNat Rank.Empty

/-- The table `black_major_name`, indexed by column. -/
def black_major_name (col : Int) : String :=
  ["BQR", "BQK", "BQB", "BQUEEN", "BKING", "BKB", "BKK", "BKR"].getD col.toNat ""

/-- The table `black_minor_name`, indexed by column. -/
def black_minor_name (col : Int) : String :=
  ["BP1", "BP2", "BP3", "BP4", "BP5", "BP6", "BP7", "BP8"].getD col.toNat ""

/-- A statement `board[r][c].piece.<mutator>(...)`: the piece of the cell is replaced by
its image under `f`. -/
def Chessboard.modify_piece (cb : Chessboard) (r c : Int) (f : Piece → Piece) : Chessboard :=
  cb.place r c (f (cb.board r c).piece)

/-- The nested loops `for (auto row : rows) for (auto col : cols) body(row, col)`. -/
def for_cells (rows cols : List Int) (body : Int → Int → Chessboard → Chessboard)
    (cb : Chessboard) : Chessboard :=
  rows.foldl (fun st row => cols.foldl (fun st col => body row col st) st) cb

/-- The method `Chessboard::reset`: the center rows are cleared, then the White rows and
the Black rows get rank, name and side (the mesh and the facing belong to the
renderer). -/
def Chessboard.reset (cb : Chessboard) : Chessboard :=
  let cb := for_cells center_ranks one_rank
    (fun row col st => st.modify_piece row col Piece.clear) cb
  let cb := for_cells white_ranks one_rank
    (fun row col st =>
      let st :=
        if row = 0 then
          st.modify_piece row col fun p =>
            { p with rank := white_major_type col, name := white_major_name col }
        else
          st.modify_piece row col fun p =>
            { p with rank := Rank.Pawn, name := white_minor_name col }
      st.modify_piece row col fun p => { p with side := Side.White }) cb
  for_cells black_ranks one_rank
    (fun row col st =>
      let st :=
        if row = 6 then
          st.modify_piece row col fun p =>
            { p with rank := Rank.Pawn, name := black_minor_name col }
        else
          st.modify_piece row col fun p =>
            { p with rank := black_major_type col, name := black_major_name col }
      st.modify_piece row col fun p => { p with side := Side.Black }) cb

/-- The constructor `Chessboard::Chessboard`. Every `Cell` starts from `Cell()`, whose
piece is the default `Piece`; the board cells get their type and position; the holding
cells keep whatever `type`, `row` and `col` they happen to have, taken here from
`white_hold` and `black_hold`; both cursors start at 0, the side is White, `selected` is
the value-initialised tuple; then `reset()` runs. -/
def Chessboard.construct (white_hold black_hold : Int → Cell) : Chessboard :=
  Chessboard.reset
    { board := fun row col => { type := CellType.Board, piece := {}, row := row, col := col }
      white_capture_index := 0
      white_capture := fun i => { white_hold i with piece := {} }
      black_capture_index := 0
      black_capture := fun i => { black_hold i with piece := {} }
      this_side := Side.White
      selected := (0, 0) }

/-- The accessor `Chessboard::local_side`. -/
def Chessboard.local_side (cb : Chessboard) : Side := cb.this_side

/-- The method `Chessboard::clear_selection`. -/
def Chessboard.clear_selection (cb : Chessboard) : Chessboard :=
  { cb with selected := (-1, -1) }

/-- The accessor `Chessboard::get_selected`. -/
def Chessboard.get_selected (cb : Chessboard) : Int × Int := cb.selected

/-- The method `Chessboard::select(Cell &cell)`: the return value and the state after
the call. -/
def Chessboard.select (cb : Chessboard) (cell : Cell) : Option (Bool × Chessboard) :=
  (cb.cell cell.row cell.col).bind fun target =>
    if !target.has_piece then some (false, cb)
    else some (true, { cb with selected := (cell.row, cell.col) })

/-- The method `Chessboard::select(Piece &piece)`. -/
def Chessboard.select_piece (cb : Chessboard) (piece : Piece) : Bool × Chessboard :=
  if piece.is_captured then (false, cb)
  else (true, { cb with selected := piece.get_position })

/-- The statement `white_capture[white_capture_index++].piece = p`: `none` when the
cursor is outside the sixteen slots. -/
def Chessboard.push_white_capture (cb : Chessboard) (p : Piece) : Option Chessboard :=
  if 0 ≤ cb.white_capture_index ∧ cb.white_capture_index < 16 then
    some { cb with
      white_capture := fun i =>
        if i = cb.white_capture_index then { cb.white_capture i with piece := p }
        else cb.white_capture i
      white_capture_index := cb.white_capture_index + 1 }
  else none

/-- The statement `black_capture[black_capture_index++].piece = p`: `none` when the
cursor is outside the sixteen slots. -/
def Chessboard.push_black_capture (cb : Chessboard) (p : Piece) : Option Chessboard :=
  if 0 ≤ cb.black_capture_index ∧ cb.black_capture_index < 16 then
    some { cb with
      black_capture := fun i =>
        if i = cb.black_capture_index then { cb.black_capture i with piece := p }
        else cb.black_capture i
      black_capture_index := cb.black_capture_index + 1 }
  else none

/-- The capture block of `move_selected_to`, `if (board[row][col].has_piece()) { ... }`:
the occupant is copied to the next holding slot of `this_side` and the board cell is
cleared. -/
def Chessboard.capture_at (cb : Chessboard) (row col : Int) : Option Chessboard :=
  if (cb.board row col).has_piece then
    (if cb.this_side = Side.White then cb.push_white_capture (cb.board row col).piece
      else cb.push_black_capture (cb.board row col).piece).bind fun st =>
      some (st.modify_piece row col Piece.clear)
  else some cb

/-- The statements of `move_selected_to` after the capture block: copy the selected
piece to the destination, `move_to` it, clear the source, flip `this_side`. -/
def Chessboard.commit (cb : Chessboard) (selected_row selected_col row col : Int) :
    Chessboard :=
  let st := cb.place row col (cb.board selected_row selected_col).piece
  let st := st.modify_piece row col fun p => p.move_to row col
  let st := st.modify_piece selected_row selected_col Piece.clear
  { st with this_side := if st.this_side = Side.White then Side.Black else Side.White }

/-- The method `Chessboard::move_selected_to`: the return value and the state after the
call. The two reads that come first are checked; the later statements use the same two
index pairs. -/
def Chessboard.move_selected_to (cb : Chessboard) (row col : Int) :
    Option (Bool × Chessboard) :=
  let selected_row := cb.selected.1
  let selected_col := cb.selected.2
  (cb.cell selected_row selected_col).bind fun source =>
    if !source.has_piece then some (false, cb)
    else
      (cb.cell row col).bind fun _ =>
        (cb.capture_at row col).bind fun st =>
          some (true, st.commit selected_row selected_col row col)

/-- The overload `Chessboard::valid_paths(Cell &cell)`. -/
def Chessboard.valid_paths_cell (cb : Chessboard) (cell : Cell) : Option Paths :=
  let row := cell.get_position.1
  let col := cell.get_position.2
  (cb.cell row col).bind fun here =>
    if here.type ≠ CellType.Board ∨ here.piece.rank = Rank.Empty then some []
    else cb.calc_valid_paths row col

/-- The overload `Chessboard::valid_paths(Piece &piece)`. -/
def Chessboard.valid_paths_piece (cb : Chessboard) (piece : Piece) : Option Paths :=
  let row := piece.get_position.1
  let col := piece.get_position.2
  (cb.cell row col).bind fun here =>
    if here.type ≠ CellType.Board ∨ here.piece.rank = Rank.Empty then some []
    else cb.calc_valid_paths row col

/-- The cell a `Cell &` result refers to. -/
inductive CellRef where
  | Board (row col : Int)
  | BlackCapture (i : Int)
  | WhiteCapture (i : Int)
deriving DecidableEq, Repr

/-- The board positions in the order the two loops of `find_piece` visit them. -/
def board_positions : List (Int × Int) :=
  one_rank.flatMap fun row => one_rank.map fun col => (row, col)

/-- The method `Chessboard::find_piece`: the cell it returns a reference to, `none` for
the `throw`. -/
def Chessboard.find_piece (cb : Chessboard) (name : String) : Option CellRef :=
  match board_positions.find? fun rc =>
      (cb.board rc.1 rc.2).has_piece && decide ((cb.board rc.1 rc.2).piece.name = name) with
  | some rc => some (CellRef.Board rc.1 rc.2)
  | none =>
    match one_side.find? fun i =>
        (cb.black_capture i).has_piece && decide ((cb.black_capture i).piece.name = name) with
    | some i => some (CellRef.BlackCapture i)
    | none =>
      match one_side.find? fun i =>
          (cb.white_capture i).has_piece && decide ((cb.white_capture i).piece.name = name) with
      | some i => some (CellRef.WhiteCapture i)
      | none => none

/-- A freshly constructed board, the holding cells being plain holding cells. -/
def freshBoard : Chessboard :=
  Chessboard.construct (fun _ => emptyHolding) (fun _ => emptyHolding)

/-- The facts about a `Chessboard` object that its constructor sets up and that no
method changes: each board cell is of type Board and records its own position, and
neither cursor is negative. -/
def WellFormed (cb : Chessboard) : Prop :=
  (∀ r c : Int, inRange r c →
    (cb.board r c).type = CellType.Board ∧ (cb.board r c).row = r ∧ (cb.board r c).col = c) ∧
  0 ≤ cb.white_capture_index ∧ 0 ≤ cb.black_capture_index

/-- The states reachable from a freshly constructed board by `select` on a board cell,
`select` on the piece of a board cell, `clear_selection`, and `move_selected_to` with a
destination on the board. -/
inductive Reachable : Chessboard → Prop where
  | fresh (white_hold black_hold : Int → Cell) :
      Reachable (Chessboard.construct white_hold black_hold)
  | select (cb cb2 : Chessboard) (r c : Int) (b : Bool) :
      Reachable cb → inRange r c → cb.select (cb.board r c) = some (b, cb2) → Reachable cb2
  | select_piece (cb : Chessboard) (r c : Int) :
      Reachable cb → inRange r c → Reachable (cb.select_piece (cb.board r c).piece).2
  | clear_selection (cb : Chessboard) :
      Reachable cb → Reachable cb.clear_selection
  | move_selected_to (cb cb2 : Chessboard) (row col : Int) (b : Bool) :
      Reachable cb → inRange row col → cb.move_selected_to row col = some (b, cb2) →
      Reachable cb2

/-- The holding cursor of side `s`. -/
def Chessboard.cursor (cb : Chessboard) (s : Side) : Int :=
  if s = Side.White then cb.white_capture_index else cb.black_capture_index

/-- The holding area of side `s`. -/
def Chessboard.holding (cb : Chessboard) (s : Side) : Int → Cell :=
  if s = Side.White then cb.white_capture else cb.black_capture

/-- No two occupied board cells hold pieces of the same name. -/
def DistinctNames (cb : Chessboard) : Prop :=
  ∀ r1 c1 r2 c2 : Int, inRange r1 c1 → inRange r2 c2 →
    (cb.board r1 c1).has_piece = true → (cb.board r2 c2).has_piece = true →
    (cb.board r1 c1).piece.name = (cb.board r2 c2).piece.name → r1 = r2 ∧ c1 = c2

/-- Every piece record stored in a board cell, whatever its rank, records a position on
the board. -/
def PiecePositionsOnBoard (cb : Chessboard) : Prop :=
  ∀ r c : Int, inRange r c →
    inRange (cb.board r c).piece.get_position.1 (cb.board r c).piece.get_position.2

/-- The fresh board after `select` on the cell (1,0), which holds the White pawn WP1. -/
def pawnSelectedBoard : Chessboard :=
  { freshBoard with selected := (1, 0) }

/-- The state after `move_selected_to(2, 0)` on `pawnSelectedBoard`. -/
def pawnMovedBoard : Chessboard :=
  pawnSelectedBoard.commit 1 0 2 0

/-- A White pawn WP1 on (1,0), selected, and a Black pawn BP2 on (2,1); White to move,
both holding areas empty. -/
def duelBoard : Chessboard :=
  { (emptyBoard.place 1 0 { rank := Rank.Pawn, side := Side.White, name := "WP1" }).place 2 1
      { rank := Rank.Pawn, side := Side.Black, name := "BP2" } with selected := (1, 0) }

/-! ## Sequences of calls, cell references, marker names -/

/-- One call of the selection and commit interface, on a board cell or with a
destination. -/
inductive Op where
  | select (r c : Int)
  | select_piece (r c : Int)
  | clear_selection
  | move_selected_to (row col : Int)
deriving DecidableEq, Repr

/-- The state after one call: `select` on the board cell (r,c), `select` on the piece of
that cell, `clear_selection`, or `move_selected_to` with a destination on the board;
`none` when the cell or destination is not on the board or the call reads outside an
array. -/
def Chessboard.apply (cb : Chessboard) : Op → Option Chessboard
  | Op.select r c =>
    if inRange r c then (cb.select (cb.board r c)).map Prod.snd else none
  | Op.select_piece r c =>
    if inRange r c then some (cb.select_piece (cb.board r c).piece).2 else none
  | Op.clear_selection => some cb.clear_selection
  | Op.move_selected_to row col =>
    if inRange row col then (cb.move_selected_to row col).map Prod.snd else none

/-- The state after a sequence of calls. -/
def Chessboard.play (cb : Chessboard) : List Op → Option Chessboard
  | [] => some cb
  | op :: ops => (cb.apply op).bind fun st => st.play ops

/-- The cell a reference returned by `find_piece` stands for. -/
def Chessboard.deref (cb : Chessboard) : CellRef → Cell
  | CellRef.Board row col => cb.board row col
  | CellRef.BlackCapture i => cb.black_capture i
  | CellRef.WhiteCapture i => cb.white_capture i

/-- The test of `find_piece` on one cell: it has a piece and the piece has the name. -/
def Cell.holds (c : Cell) (name : String) : Bool :=
  c.has_piece && decide (c.piece.name = name)

/-- Position `a` comes before position `b` in the row-major order of the two loops. -/
def rowMajorLt (a b : Int × Int) : Prop :=
  a.1 < b.1 ∨ (a.1 = b.1 ∧ a.2 < b.2)

instance (a b : Int × Int) : Decidable (rowMajorLt a b) := by
  unfold rowMajorLt; exact inferInstance

/-- The names `Game::construct_move_squares` and `Game::construct_capture_squares` give
to the switch nodes they create, in creation order. -/
def marker_node_names : List String :=
  (one_rank.flatMap fun row => one_rank.map fun col =>
    "Marker.Move." ++ toString row ++ "." ++ toString col) ++
  (one_rank.flatMap fun row => one_rank.map fun col =>
    "Marker.Attack." ++ toString row ++ "." ++ toString col)

/-- The call `s.substr(pos, n)` for `pos` inside the string. -/
def substr (s : List Char) (pos n : Nat) : List Char :=
  (s.drop pos).take n

/-- The call `s.find(".")`: the index of the first dot, `none` for `npos`. -/
def find_dot : List Char → Option Nat
  | [] => none
  | ch :: rest => if ch = '.' then some 0 else (find_dot rest).map fun i => i + 1

/-- The test `isspace` of the C locale. -/
def is_space (ch : Char) : Bool :=
  decide (ch.toNat = 32) || (decide (9 ≤ ch.toNat) && decide (ch.toNat ≤ 13))

/-- The call `std::stoi(s)`: leading white space, an optional sign, then as many decimal
digits as there are; `none` for the exceptions (no digit, or a value outside `int`). -/
def stoi (s : List Char) : Option Int :=
  let s := s.dropWhile is_space
  let signed : Bool × List Char :=
    match s with
    | '-' :: rest => (true, rest)
    | '+' :: rest => (false, rest)
    | _ => (false, s)
  let digits := signed.2.takeWhile Char.isDigit
  if digits.isEmpty then none
  else
    let magnitude : Nat := digits.foldl (fun acc d => 10 * acc + (d.toNat - 48)) 0
    let value : Int := if signed.1 then -(magnitude : Int) else (magnitude : Int)
    if -2147483648 ≤ value ∧ value ≤ 2147483647 then some value else none

/-- The marker branch of `SelectionHandler::process_pick`: the (row, col) handed to
`move_selected_to` for the node name `node_id`; `none` when `stoi` throws. -/
def parse_marker (node_id : String) : Option (Int × Int) :=
  let id := node_id.data
  let square_str : List Char :=
    if substr id 0 12 = "Marker.Move.".data then substr id 12 id.length
    else if substr id 0 14 = "Marker.Attack.".data then substr id 14 id.length
    else []
  let row_str : List Char :=
    match find_dot square_str with
    | some index => substr square_str 0 index
    | none => square_str
  let col_str : List Char :=
    match find_dot square_str with
    | some index => substr square_str (index + 1) square_str.length
    | none => square_str
  (stoi row_str).bind fun row => (stoi col_str).bind fun col => some (row, col)

/-- A short legal game: White's pawn of column 4 two steps, Black's pawn of column 3 two
steps, pawn takes pawn. -/
def captureGame : List Op :=
  [Op.select 1 4, Op.move_selected_to 3 4, Op.select 6 3, Op.move_selected_to 4 3,
   Op.select 3 4, Op.move_selected_to 4 3]

/-- The state `captureGame` leads to from the fresh board. -/
def capturedBoard : Chessboard :=
  (freshBoard.play captureGame).getD freshBoard

/-- Black's pawn of column 0 steps from (6,0) to (5,0). -/
def stepGame : List Op :=
  [Op.select 6 0, Op.move_selected_to 5 0]

/-- The state `stepGame` leads to from the fresh board. -/
def steppedBoard : Chessboard :=
  (freshBoard.play stepGame).getD freshBoard

/-- White's knight goes from (0,1) to (2,2) and back. -/
def knightGame : List Op :=
  [Op.select 0 1, Op.move_selected_to 2 2, Op.select 2 2, Op.move_selected_to 0 1]

/-- The state `knightGame` leads to from the fresh board. -/
def knightBackBoard : Chessboard :=
  (freshBoard.play knightGame).getD freshBoard

/-- A White pawn that has never moved on (6,0) of an otherwise empty board. -/
def farPawnBoard : Chessboard :=
  emptyBoard.place 6 0 { rank := Rank.Pawn, side := Side.White }

/-- No piece, on the board or in a holding area, has the captured flag set. -/
def NoCapturedFlag (cb : Chessboard) : Prop :=
  (∀ r c : Int, (cb.board r c).piece.captured = false) ∧
  (∀ i : Int, (cb.white_capture i).piece.captured = false) ∧
  (∀ i : Int, (cb.black_capture i).piece.captured = false)

/-! ## Boards with one piece, counts of pieces, play by the rules -/

/-- The piece on (r, c) is the only one on the board: every other square is empty. -/
def OnlyPieceAt (cb : Chessboard) (r c : Int) : Prop :=
  ∀ i j : Int, inRange i j → ¬ (i = r ∧ j = c) → (cb.board i j).piece.rank = Rank.Empty

/-- The number of targets over all the paths of a result. -/
def target_count (paths : Paths) : Nat :=
  (paths.map List.length).sum

/-- The number of directions, out of the four of a rook on (r, c), in which the board has
at least one more square. -/
def open_directions (r c : Int) : Nat :=
  (if r < 7 then 1 else 0) + (if 0 < r then 1 else 0) +
    (if c < 7 then 1 else 0) + (if 0 < c then 1 else 0)

/-- A White rook that has never moved on (0,0) of an otherwise empty board. -/
def cornerRookBoard : Chessboard :=
  emptyBoard.place 0 0 unmovedRook

/-- Square (r, c) is on the board and holds a Black piece. -/
def HoldsBlack (cb : Chessboard) (r c : Int) : Prop :=
  inRange r c ∧ (cb.board r c).piece.rank ≠ Rank.Empty ∧
    (cb.board r c).piece.side = Side.Black

instance (cb : Chessboard) (r c : Int) : Decidable (HoldsBlack cb r c) := by
  unfold HoldsBlack; exact inferInstance

/-- A White pawn that has never moved on (1,2), a Black pawn on (2,1), a White pawn on
(2,3). -/
def pawnAttackBoard : Chessboard :=
  ((emptyBoard.place 1 2 { rank := Rank.Pawn, side := Side.White }).place 2 1
    { rank := Rank.Pawn, side := Side.Black, first_move := false }).place 2 3
    { rank := Rank.Pawn, side := Side.White, first_move := false }

/-- The number of occupied board cells. -/
def Chessboard.board_pieces (cb : Chessboard) : Nat :=
  board_positions.countP fun rc => (cb.board rc.1 rc.2).has_piece

/-- The number of occupied cells among the sixteen of a holding area. -/
def holding_pieces (hold : Int → Cell) : Nat :=
  one_side.countP fun i => (hold i).has_piece

/-- The number of pieces: occupied board cells and occupied holding cells of both
sides. -/
def Chessboard.total_pieces (cb : Chessboard) : Nat :=
  cb.board_pieces + holding_pieces cb.white_capture + holding_pieces cb.black_capture

/-- The number of board cells occupied by a piece of side `s`. -/
def Chessboard.pieces_of (cb : Chessboard) (s : Side) : Nat :=
  board_positions.countP fun rc =>
    (cb.board rc.1 rc.2).has_piece && decide ((cb.board rc.1 rc.2).piece.side = s)

/-- Every piece on the board that has never moved has the rank and the side the fresh
board has on that square. -/
def UnmovedAtHome (cb : Chessboard) : Prop :=
  ∀ r c : Int, inRange r c → (cb.board r c).piece.rank ≠ Rank.Empty →
    (cb.board r c).piece.has_moved = false →
    (cb.board r c).piece.rank = (freshBoard.board r c).piece.rank ∧
      (cb.board r c).piece.side = (freshBoard.board r c).piece.side

/-- The states reachable from a freshly constructed board by `select`, `clear_selection`,
`reset` and `move_selected_to` with a destination on the board. -/
inductive ReachableWithReset : Chessboard → Prop where
  | fresh (white_hold black_hold : Int → Cell) :
      ReachableWithReset (Chessboard.construct white_hold black_hold)
  | select (cb cb2 : Chessboard) (r c : Int) (b : Bool) :
      ReachableWithReset cb → inRange r c → cb.select (cb.board r c) = some (b, cb2) →
      ReachableWithReset cb2
  | select_piece (cb : Chessboard) (r c : Int) :
      ReachableWithReset cb → inRange r c →
      ReachableWithReset (cb.select_piece (cb.board r c).piece).2
  | clear_selection (cb : Chessboard) :
      ReachableWithReset cb → ReachableWithReset cb.clear_selection
  | reset (cb : Chessboard) :
      ReachableWithReset cb → ReachableWithReset cb.reset
  | move_selected_to (cb cb2 : Chessboard) (row col : Int) (b : Bool) :
      ReachableWithReset cb → inRange row col →
      cb.move_selected_to row col = some (b, cb2) → ReachableWithReset cb2

/-- One move of regular play from `cb`: the piece on (r, c) belongs to the side to move,
it is selected, and the destination `t` is one of the targets `valid_paths` returns for
it. -/
def RegularChoice (cb : Chessboard) (r c : Int) (t : Target) : Prop :=
  inRange r c ∧ (cb.board r c).has_piece = true ∧
    (cb.board r c).piece.side = cb.local_side ∧
    ∃ paths : Paths, cb.valid_paths r c = some paths ∧ Offered paths t

/-- The states reachable from a freshly constructed board by committed moves of regular
play: `select` on the cell of a piece of the side to move, then `move_selected_to` with
one of the targets `valid_paths` returns for that piece. -/
inductive RegularPlay : Chessboard → Prop where
  | fresh (white_hold black_hold : Int → Cell) :
      RegularPlay (Chessboard.construct white_hold black_hold)
  | move (cb cb1 cb2 : Chessboard) (r c : Int) (t : Target) :
      RegularPlay cb → RegularChoice cb r c t →
      cb.select (cb.board r c) = some (true, cb1) →
      cb1.move_selected_to t.row t.col = some (true, cb2) → RegularPlay cb2

/-- The board whose only piece is `p`, standing on (r, c). -/
def loneBoard (r c : Int) (p : Piece) : Chessboard :=
  emptyBoard.place r c p

/-- Each side's holding cursor and the pieces of the other side still on the board come
to 16 at most. -/
def CapturesBounded (cb : Chessboard) : Prop :=
  ∀ s : Side, cb.cursor s + (cb.pieces_of (opponentOf s) : Int) ≤ 16

/-! ## Basic facts -/

theorem cell_eq_some (cb : Chessboard) {r c : Int} (h : inRange r c) :
    cb.cell r c = some (cb.board r c) := by
  simp [Chessboard.cell, h]

theorem eq_opponentOf_iff (t s : Side) : t = opponentOf s ↔ t ≠ s := by
  cases t <;> cases s <;> simp [opponentOf]

theorem opponentOf_ne_self (s : Side) : opponentOf s ≠ s := by
  cases s <;> simp [opponentOf]

theorem offer_of_not_inRange (cb : Chessboard) (s : Side) {r c : Int} (h : ¬ inRange r c) :
    offer cb s r c = none := by
  simp [offer, h]

theorem filterMap_cons_toList {α β : Type} (f : α → Option β) (x : α) (xs : List α) :
    (x :: xs).filterMap f = (f x).toList ++ xs.filterMap f := by
  cases h : f x <;> simp [List.filterMap_cons, h]

theorem singlePaths_cons (cb : Chessboard) (s : Side) (r c : Int) (d : Int × Int)
    (ds : List (Int × Int)) :
    singlePaths cb s r c (d :: ds) =
      (offer cb s (r + d.1) (c + d.2)).toList.map (fun t => [t]) ++ singlePaths cb s r c ds := by
  simp [singlePaths, filterMap_cons_toList]

theorem singlePaths_nil (cb : Chessboard) (s : Side) (r c : Int) :
    singlePaths cb s r c [] = [] := rfl

/-! ## Knight -/

theorem knight_probe_eq (cb : Chessboard) (s : Side) {r c : Int} (h : inRange r c)
    (paths : Paths) :
    knight_probe cb (opponentOf s) r c paths =
      some (paths ++ (offer cb s r c).toList.map fun t => [t]) := by
  simp only [knight_probe, cell_eq_some cb h, Option.some_bind, offer, h, if_true]
  by_cases he : (cb.board r c).piece.rank = Rank.Empty
  · simp [he]
  · by_cases hs : (cb.board r c).piece.side = s
    · have ho : ¬ (cb.board r c).piece.side = opponentOf s := by
        rw [eq_opponentOf_iff]; exact fun hn => hn hs
      simp [he, hs, (opponentOf_ne_self s).symm]
    · have ho : (cb.board r c).piece.side = opponentOf s := (eq_opponentOf_iff _ _).mpr hs
      simp [he, ho, opponentOf_ne_self]

theorem knight_guarded (cb : Chessboard) (s : Side) (r c : Int) (g : Prop) [Decidable g]
    (hg : g ↔ inRange r c) (paths : Paths) :
    (if g then knight_probe cb (opponentOf s) r c paths else some paths) =
      some (paths ++ (offer cb s r c).toList.map fun t => [t]) := by
  by_cases h : g
  · rw [if_pos h, knight_probe_eq cb s (hg.mp h)]
  · rw [if_neg h, offer_of_not_inRange cb s (fun hr => h (hg.mpr hr))]
    simp

theorem knight_block (cb : Chessboard) (s : Side) (r1 c1 r2 c2 : Int) (g g1 g2 : Prop)
    [Decidable g] [Decidable g1] [Decidable g2]
    (h1 : (g ∧ g1) ↔ inRange r1 c1) (h2 : (g ∧ g2) ↔ inRange r2 c2) (paths : Paths) :
    (if g then
      (if g1 then knight_probe cb (opponentOf s) r1 c1 paths else some paths).bind
        fun paths =>
      (if g2 then knight_probe cb (opponentOf s) r2 c2 paths else some paths)
     else some paths) =
      some (paths ++ ((offer cb s r1 c1).toList.map fun t => [t]) ++
        ((offer cb s r2 c2).toList.map fun t => [t])) := by
  by_cases h : g
  · rw [if_pos h, knight_guarded cb s r1 c1 g1 (by rw [← h1]; simp [h]),
      Option.some_bind, knight_guarded cb s r2 c2 g2 (by rw [← h2]; simp [h])]
  · rw [if_neg h, offer_of_not_inRange cb s (fun hr => h (h1.mpr hr).1),
      offer_of_not_inRange cb s (fun hr => h (h2.mpr hr).1)]
    simp

theorem calc_knight_moves_eq (cb : Chessboard) {r c : Int} (h : inRange r c) :
    cb.calc_knight_moves r c =
      some (singlePaths cb (cb.board r c).piece.side r c knightOffsets) := by
  have hr := h
  unfold inRange at hr
  simp only [Chessboard.calc_knight_moves, cell_eq_some cb h, Option.some_bind]
  rw [knight_block cb _ (r + 1) (c + 2) (r + 1) (c - 2) (r < 7) (c < 6) (c > 1)
      (by unfold inRange; omega) (by unfold inRange; omega), Option.some_bind,
    knight_block cb _ (r + 2) (c + 1) (r + 2) (c - 1) (r < 6) (c < 7) (c > 0)
      (by unfold inRange; omega) (by unfold inRange; omega), Option.some_bind,
    knight_block cb _ (r - 1) (c + 2) (r - 1) (c - 2) (r > 0) (c < 6) (c > 1)
      (by unfold inRange; omega) (by unfold inRange; omega), Option.some_bind,
    knight_block cb _ (r - 2) (c + 1) (r - 2) (c - 1) (r > 1) (c < 7) (c > 0)
      (by unfold inRange; omega) (by unfold inRange; omega)]
  simp only [knightOffsets, singlePaths_cons, singlePaths_nil, List.nil_append,
    List.append_nil, List.append_assoc, Int.sub_eq_add_neg]

theorem valid_paths_eq_calc (cb : Chessboard) {r c : Int} (h : inRange r c)
    (hb : (cb.board r c).type = CellType.Board)
    (he : (cb.board r c).piece.rank ≠ Rank.Empty) :
    cb.valid_paths r c = cb.calc_valid_paths r c := by
  simp [Chessboard.valid_paths, cell_eq_some cb h, hb, he]

theorem offer_congr (cb cb' : Chessboard) (s : Side) (r c : Int)
    (h : inRange r c → cb'.board r c = cb.board r c) :
    offer cb' s r c = offer cb s r c := by
  by_cases hr : inRange r c
  · simp [offer, hr, h hr]
  · simp [offer, hr]

theorem singlePaths_congr (cb cb' : Chessboard) (s : Side) (r c : Int)
    (ds : List (Int × Int))
    (h : ∀ d ∈ ds, inRange (r + d.1) (c + d.2) →
      cb'.board (r + d.1) (c + d.2) = cb.board (r + d.1) (c + d.2)) :
    singlePaths cb' s r c ds = singlePaths cb s r c ds := by
  induction ds with
  | nil => rfl
  | cons d ds ih =>
    rw [singlePaths_cons, singlePaths_cons,
      offer_congr cb cb' s _ _ (h d (List.mem_cons_self d ds)),
      ih (fun e he => h e (List.mem_cons_of_mem d he))]

/-- C1: on a board square holding a Knight, `valid_paths` is exactly the list of
single-target paths for the eight offsets whose destination is on the board and is
empty (Move) or held by the other side (Attack); own-piece and off-board destinations
contribute nothing, and the result is the same on every board that agrees on the
knight's cell and on the on-board destination cells. -/
theorem C1_knight_paths (cb : Chessboard) (r c : Int) (h : inRange r c)
    (hb : (cb.board r c).type = CellType.Board)
    (hk : (cb.board r c).piece.rank = Rank.Knight) :
    cb.valid_paths r c =
        some (singlePaths cb (cb.board r c).piece.side r c knightOffsets) ∧
      ∀ cb2 : Chessboard, cb2.board r c = cb.board r c →
        (∀ d ∈ knightOffsets, inRange (r + d.1) (c + d.2) →
          cb2.board (r + d.1) (c + d.2) = cb.board (r + d.1) (c + d.2)) →
        cb2.valid_paths r c = cb.valid_paths r c := by
  have key : ∀ b : Chessboard, b.board r c = cb.board r c →
      b.valid_paths r c = some (singlePaths b (cb.board r c).piece.side r c knightOffsets) := by
    intro b hbc
    rw [valid_paths_eq_calc b h (by rw [hbc]; exact hb) (by rw [hbc, hk]; decide)]
    simp only [Chessboard.calc_valid_paths, cell_eq_some b h, Option.some_bind, hbc, hk]
    rw [calc_knight_moves_eq b h, hbc]
  refine ⟨key cb rfl, ?_⟩
  intro cb2 h0 hd
  rw [key cb2 h0, key cb rfl, singlePaths_congr cb cb2 _ r c knightOffsets hd]

theorem C1_knight_paths_witness :
    knightBoard.valid_paths 3 3 =
        some (singlePaths knightBoard (knightBoard.board 3 3).piece.side 3 3 knightOffsets) ∧
      ∀ cb2 : Chessboard, cb2.board 3 3 = knightBoard.board 3 3 →
        (∀ d ∈ knightOffsets, inRange (3 + d.1) (3 + d.2) →
          cb2.board (3 + d.1) (3 + d.2) = knightBoard.board (3 + d.1) (3 + d.2)) →
        cb2.valid_paths 3 3 = knightBoard.valid_paths 3 3 :=
  C1_knight_paths knightBoard 3 3 (by decide) (by decide) (by decide)


/-! ## Sliding runs -/

theorem runMoves_succ (r c dr dc : Int) (n : Nat) :
    runMoves r c dr dc (n + 1) =
      runMoves r c dr dc n ++
        [Target.mk Marker.Move (r + ((n : Int) + 1) * dr) (c + ((n : Int) + 1) * dc)] := by
  simp [runMoves, List.range_succ]

theorem scan_isRun_aux (cb : Chessboard) (s : Side) (cond : Int → Int → Bool)
    (r c dr dc : Int)
    (hcond : ∀ k : Nat, 1 ≤ k →
      cond (r + (k : Int) * dr) (c + (k : Int) * dc) =
        decide (inRange (r + (k : Int) * dr) (c + (k : Int) * dc)))
    (hbound : ∀ k : Nat, inRange (r + (k : Int) * dr) (c + (k : Int) * dc) → k ≤ 7) :
    ∀ (fuel n : Nat), 9 ≤ n + 1 + fuel →
      (∀ k : Nat, 1 ≤ k → k ≤ n →
        inRange (r + (k : Int) * dr) (c + (k : Int) * dc) ∧
          (cb.board (r + (k : Int) * dr) (c + (k : Int) * dc)).piece.rank = Rank.Empty) →
      ∃ run, cb.scan (opponentOf s) cond dr dc fuel
          (r + ((n : Int) + 1) * dr) (c + ((n : Int) + 1) * dc) (runMoves r c dr dc n) =
            some run ∧ IsRun cb s r c dr dc run := by
  intro fuel
  induction fuel with
  | zero =>
    intro n hn hall
    have h8 := hbound 8 (hall 8 (by omega) (by omega)).1
    omega
  | succ fuel ih =>
    intro n hn hall
    have hc := hcond (n + 1) (by omega)
    push_cast at hc
    unfold Chessboard.scan
    rw [hc]
    by_cases hin : inRange (r + ((n : Int) + 1) * dr) (c + ((n : Int) + 1) * dc)
    · simp only [hin, decide_True, if_true, cell_eq_some cb hin, Option.some_bind]
      by_cases he : (cb.board (r + ((n : Int) + 1) * dr) (c + ((n : Int) + 1) * dc)).piece.rank
          = Rank.Empty
      · rw [if_pos he, ← runMoves_succ]
        have hpos : ∀ x d : Int, x + ((n : Int) + 1) * d + d = x + (((n + 1 : Nat) : Int) + 1) * d := by
          intro x d; push_cast; ring
        rw [hpos r dr, hpos c dc]
        apply ih (n + 1) (by omega)
        intro k hk1 hk2
        by_cases hk : k ≤ n
        · exact hall k hk1 hk
        · have hkn : k = n + 1 := by omega
          subst hkn
          push_cast
          exact ⟨hin, he⟩
      · rw [if_neg he]
        by_cases hs : (cb.board (r + ((n : Int) + 1) * dr) (c + ((n : Int) + 1) * dc)).piece.side
            = opponentOf s
        · rw [if_pos hs]
          exact ⟨_, rfl, n, hall, Or.inr (Or.inl ⟨hin, he, (eq_opponentOf_iff _ _).mp hs, rfl⟩)⟩
        · rw [if_neg hs]
          refine ⟨_, rfl, n, hall, Or.inr (Or.inr ⟨hin, he, ?_, rfl⟩)⟩
          by_contra hne
          exact hs ((eq_opponentOf_iff _ _).mpr hne)
    · simp only [hin, decide_False, Bool.false_eq_true, if_false]
      exact ⟨_, rfl, n, hall, Or.inl ⟨hin, rfl⟩⟩

theorem scan_isRun (cb : Chessboard) (s : Side) (cond : Int → Int → Bool)
    {r c : Int} (h : inRange r c) (dr dc : Int) (hd : IsDir dr dc)
    (hcond : ∀ k : Nat, 1 ≤ k →
      cond (r + (k : Int) * dr) (c + (k : Int) * dc) =
        decide (inRange (r + (k : Int) * dr) (c + (k : Int) * dc))) :
    ∃ run, cb.scan (opponentOf s) cond dr dc loopFuel (r + dr) (c + dc) [] = some run ∧
      IsRun cb s r c dr dc run := by
  have hb : ∀ k : Nat, inRange (r + (k : Int) * dr) (c + (k : Int) * dc) → k ≤ 7 := by
    intro k hk
    unfold inRange at h hk
    unfold IsDir at hd
    rcases hd with ⟨h1 | h1 | h1, h2 | h2 | h2, h3⟩ <;> subst h1 <;> subst h2 <;>
      simp at h3 <;> omega
  have := scan_isRun_aux cb s cond r c dr dc hcond hb loopFuel 0 (by simp [loopFuel])
    (by intro k h1 h2; omega)
  simpa [runMoves] using this

theorem flush_eq (paths : Paths) (ts : Path) :
    flush paths ts = (paths ++ nonEmptyRuns [ts], []) := by
  cases ts <;> simp [flush, nonEmptyRuns]

theorem nonEmptyRuns_append (xs ys : List Path) :
    nonEmptyRuns (xs ++ ys) = nonEmptyRuns xs ++ nonEmptyRuns ys := by
  simp [nonEmptyRuns]

/-! ## Castling scan -/

theorem firstPieceLeft_unique (cb : Chessboard) {r c k k2 : Int}
    (h1 : FirstPieceLeft cb r c k) (h2 : FirstPieceLeft cb r c k2) : k = k2 := by
  obtain ⟨a1, a2, a3, a4⟩ := h1
  obtain ⟨b1, b2, b3, b4⟩ := h2
  rcases lt_trichotomy k k2 with hlt | heq | hgt
  · exact absurd (a4 k2 hlt b2) b3
  · exact heq
  · exact absurd (b4 k hgt a2) a3

theorem firstPieceRight_unique (cb : Chessboard) {r c k k2 : Int}
    (h1 : FirstPieceRight cb r c k) (h2 : FirstPieceRight cb r c k2) : k = k2 := by
  obtain ⟨a1, a2, a3, a4⟩ := h1
  obtain ⟨b1, b2, b3, b4⟩ := h2
  rcases lt_trichotomy k k2 with hlt | heq | hgt
  · exact absurd (b4 k a1 hlt) a3
  · exact heq
  · exact absurd (a4 k2 b1 hgt) b3

theorem castle_left_aux (cb : Chessboard) (s : Side) (r c : Int) (hr : 0 ≤ r ∧ r < 8)
    (hc : c < 8) (ts : Path) :
    ∀ (fuel : Nat) (i : Int), -1 ≤ i → i < c → i + 2 ≤ (fuel : Int) →
      (∀ j : Int, i < j → j < c → (cb.board r j).piece.rank = Rank.Empty) →
      (∃ k : Int, FirstPieceLeft cb r c k ∧ UnmovedKing cb s r k ∧
          cb.castle_left s r fuel i ts = some (true, ts ++ [Target.mk Marker.Move r (k + 1)])) ∨
        (¬ KingLeft cb s r c ∧ cb.castle_left s r fuel i ts = some (false, ts)) := by
  intro fuel
  induction fuel with
  | zero => intro i h1 _ h3 _; simp at h3; omega
  | succ fuel ih =>
    intro i h1 h2 h3 hall
    unfold Chessboard.castle_left
    by_cases hi : i ≥ 0
    · have hin : inRange r i := by unfold inRange; omega
      simp only [hi, if_true, cell_eq_some cb hin, Option.some_bind]
      by_cases he : (cb.board r i).piece.rank = Rank.Empty
      · simp only [he, ne_eq, not_true_eq_false, if_false]
        apply ih (i - 1) (by omega) (by omega) (by push_cast at h3; omega)
        intro j hj1 hj2
        by_cases hji : j = i
        · rw [hji]; exact he
        · exact hall j (by omega) hj2
      · have hfp : FirstPieceLeft cb r c i := ⟨by omega, h2, he, hall⟩
        simp only [ne_eq, he, not_false_eq_true, if_true]
        by_cases hk : (cb.board r i).piece.rank = Rank.King ∧ (cb.board r i).piece.side = s ∧
            (!(cb.board r i).piece.has_moved) = true
        · left
          refine ⟨i, hfp, ⟨hk.1, hk.2.1, by simpa using hk.2.2⟩, ?_⟩
          rw [if_pos hk]
        · right
          refine ⟨?_, by rw [if_neg hk]⟩
          rintro ⟨k, hk1, hk2, hk3, hk4⟩
          have := firstPieceLeft_unique cb hk1 hfp
          subst this
          exact hk ⟨hk2, hk3, by simp [hk4]⟩
    · right
      refine ⟨?_, by simp [hi]⟩
      rintro ⟨k, ⟨a1, a2, a3, a4⟩, _⟩
      exact a3 (hall k (by omega) a2)

theorem castle_right_aux (cb : Chessboard) (s : Side) (r c : Int) (hr : 0 ≤ r ∧ r < 8)
    (hc : 0 ≤ c) (ts : Path) :
    ∀ (fuel : Nat) (i : Int), c < i → i ≤ 8 → 9 - i ≤ (fuel : Int) →
      (∀ j : Int, c < j → j < i → (cb.board r j).piece.rank = Rank.Empty) →
      (∃ k : Int, FirstPieceRight cb r c k ∧ UnmovedKing cb s r k ∧
          cb.castle_right s r fuel i ts = some (ts ++ [Target.mk Marker.Move r (k - 1)])) ∨
        (¬ KingRight cb s r c ∧ cb.castle_right s r fuel i ts = some ts) := by
  intro fuel
  induction fuel with
  | zero => intro i _ h2 h3 _; simp at h3; omega
  | succ fuel ih =>
    intro i h1 h2 h3 hall
    unfold Chessboard.castle_right
    by_cases hi : i < 8
    · have hin : inRange r i := by unfold inRange; omega
      simp only [hi, if_true, cell_eq_some cb hin, Option.some_bind]
      by_cases he : (cb.board r i).piece.rank = Rank.Empty
      · simp only [he, ne_eq, not_true_eq_false, if_false]
        apply ih (i + 1) (by omega) (by omega) (by push_cast at h3; omega)
        intro j hj1 hj2
        by_cases hji : j = i
        · rw [hji]; exact he
        · exact hall j hj1 (by omega)
      · have hfp : FirstPieceRight cb r c i := ⟨h1, hi, he, hall⟩
        simp only [ne_eq, he, not_false_eq_true, if_true]
        by_cases hk : (cb.board r i).piece.rank = Rank.King ∧ (cb.board r i).piece.side = s ∧
            (!(cb.board r i).piece.has_moved) = true
        · left
          refine ⟨i, hfp, ⟨hk.1, hk.2.1, by simpa using hk.2.2⟩, ?_⟩
          rw [if_pos hk]
        · right
          refine ⟨?_, by rw [if_neg hk]⟩
          rintro ⟨k, hk1, hk2, hk3, hk4⟩
          have := firstPieceRight_unique cb hk1 hfp
          subst this
          exact hk ⟨hk2, hk3, by simp [hk4]⟩
    · right
      refine ⟨?_, by simp [hi]⟩
      rintro ⟨k, ⟨a1, a2, a3, a4⟩, _⟩
      exact a3 (hall k a1 (by omega))

theorem nonEmptyRuns_cons (x : Path) (xs : List Path) :
    nonEmptyRuns (x :: xs) = nonEmptyRuns [x] ++ nonEmptyRuns xs :=
  nonEmptyRuns_append [x] xs

theorem castle_scan_spec (cb : Chessboard) (piece : Piece) {r c : Int} (h : inRange r c) :
    ∃ ts, cb.castle_scan piece r c [] = some ts ∧ CastleOutcome cb piece r c ts := by
  have hr := h
  unfold inRange at hr
  unfold Chessboard.castle_scan
  by_cases hm : piece.has_moved = true
  · refine ⟨[], by simp [hm], Or.inr (Or.inr ⟨Or.inl hm, rfl⟩)⟩
  · have hm2 : piece.has_moved = false := by simpa using hm
    simp only [hm2, Bool.not_false, if_true]
    rcases castle_left_aux cb piece.side r c ⟨hr.1, hr.2.1⟩ hr.2.2.2 [] loopFuel (c - 1)
        (by omega) (by omega) (by simp [loopFuel]; omega) (by intro j h1 h2; omega) with
      ⟨k, hk1, hk2, hk3⟩ | ⟨hno, hres⟩
    · refine ⟨[Target.mk Marker.Move r (k + 1)], ?_, Or.inl ⟨hm2, k, hk1, hk2, rfl⟩⟩
      rw [hk3]; simp
    · rw [hres]
      simp only [Option.some_bind, Bool.not_false, if_true]
      rcases castle_right_aux cb piece.side r c ⟨hr.1, hr.2.1⟩ hr.2.2.1 [] loopFuel (c + 1)
          (by omega) (by omega) (by simp [loopFuel]; omega) (by intro j h1 h2; omega) with
        ⟨k, hk1, hk2, hk3⟩ | ⟨hno2, hres2⟩
      · refine ⟨[Target.mk Marker.Move r (k - 1)], ?_, Or.inr (Or.inl ⟨hm2, hno, k, hk1, hk2, rfl⟩)⟩
        rw [hk3]; simp
      · exact ⟨[], hres2, Or.inr (Or.inr ⟨Or.inr ⟨hno, hno2⟩, rfl⟩)⟩

theorem scan_isRun_at (cb : Chessboard) (s : Side) (cond : Int → Int → Bool)
    {r c : Int} (h : inRange r c) (dr dc : Int) (hd : IsDir dr dc)
    (hcond : ∀ k : Nat, 1 ≤ k →
      cond (r + (k : Int) * dr) (c + (k : Int) * dc) =
        decide (inRange (r + (k : Int) * dr) (c + (k : Int) * dc)))
    (i0 j0 : Int) (hi : i0 = r + dr) (hj : j0 = c + dc) :
    ∃ run, cb.scan (opponentOf s) cond dr dc loopFuel i0 j0 [] = some run ∧
      IsRun cb s r c dr dc run := by
  subst hi; subst hj
  exact scan_isRun cb s cond h dr dc hd hcond

/-- The four orthogonal runs and the castling block, as `calc_rook_moves` chains them. -/
theorem calc_rook_moves_eq (cb : Chessboard) {r c : Int} (h : inRange r c) :
    ∃ up down right left ts : Path,
      IsRun cb (cb.board r c).piece.side r c 1 0 up ∧
      IsRun cb (cb.board r c).piece.side r c (-1) 0 down ∧
      IsRun cb (cb.board r c).piece.side r c 0 1 right ∧
      IsRun cb (cb.board r c).piece.side r c 0 (-1) left ∧
      CastleOutcome cb (cb.board r c).piece r c ts ∧
      cb.calc_rook_moves r c =
        some (nonEmptyRuns [up, down, right, left] ++ nonEmptyRuns [ts]) := by
  have hr := h
  unfold inRange at hr
  obtain ⟨up, hup, hup2⟩ := scan_isRun_at cb (cb.board r c).piece.side
    (fun i _ => decide (i < 8)) h 1 0 (by unfold IsDir; decide)
    (by intro k hk; rw [Bool.eq_iff_iff]; simp only [decide_eq_true_eq, inRange]; omega)
    (r + 1) c (by ring) (by ring)
  obtain ⟨down, hdown, hdown2⟩ := scan_isRun_at cb (cb.board r c).piece.side
    (fun i _ => decide (i ≥ 0)) h (-1) 0 (by unfold IsDir; decide)
    (by intro k hk; rw [Bool.eq_iff_iff]; simp only [decide_eq_true_eq, inRange]; omega)
    (r - 1) c (by ring) (by ring)
  obtain ⟨right, hright, hright2⟩ := scan_isRun_at cb (cb.board r c).piece.side
    (fun _ i => decide (i < 8)) h 0 1 (by unfold IsDir; decide)
    (by intro k hk; rw [Bool.eq_iff_iff]; simp only [decide_eq_true_eq, inRange]; omega)
    r (c + 1) (by ring) (by ring)
  obtain ⟨left, hleft, hleft2⟩ := scan_isRun_at cb (cb.board r c).piece.side
    (fun _ i => decide (i ≥ 0)) h 0 (-1) (by unfold IsDir; decide)
    (by intro k hk; rw [Bool.eq_iff_iff]; simp only [decide_eq_true_eq, inRange]; omega)
    r (c - 1) (by ring) (by ring)
  obtain ⟨ts, hts, hts2⟩ := castle_scan_spec cb (cb.board r c).piece h
  refine ⟨up, down, right, left, ts, hup2, hdown2, hright2, hleft2, hts2, ?_⟩
  simp only [Chessboard.calc_rook_moves, cell_eq_some cb h, Option.some_bind, hup, flush_eq,
    hdown, hright, hleft, hts]
  rw [nonEmptyRuns_cons up [down, right, left], nonEmptyRuns_cons down [right, left],
    nonEmptyRuns_cons right [left]]
  simp only [List.nil_append, List.append_assoc]

/-! ## Rook, bishop and queen -/

theorem castleOutcome_moved (cb : Chessboard) (piece : Piece) (r c : Int) (ts : Path)
    (hm : piece.has_moved = true) (h : CastleOutcome cb piece r c ts) : ts = [] := by
  rcases h with ⟨h1, _⟩ | ⟨h1, _⟩ | ⟨_, h2⟩
  · rw [hm] at h1; exact absurd h1 (by decide)
  · rw [hm] at h1; exact absurd h1 (by decide)
  · exact h2

theorem calc_valid_paths_rook (cb : Chessboard) {r c : Int} (h : inRange r c)
    (hk : (cb.board r c).piece.rank = Rank.Rook) :
    cb.calc_valid_paths r c = cb.calc_rook_moves r c := by
  simp only [Chessboard.calc_valid_paths, cell_eq_some cb h, Option.some_bind, hk]

theorem calc_valid_paths_bishop (cb : Chessboard) {r c : Int} (h : inRange r c)
    (hk : (cb.board r c).piece.rank = Rank.Bishop) :
    cb.calc_valid_paths r c = cb.calc_bishop_moves r c := by
  simp only [Chessboard.calc_valid_paths, cell_eq_some cb h, Option.some_bind, hk]

theorem calc_valid_paths_queen (cb : Chessboard) {r c : Int} (h : inRange r c)
    (hk : (cb.board r c).piece.rank = Rank.Queen) :
    cb.calc_valid_paths r c = cb.calc_queen_moves r c := by
  simp only [Chessboard.calc_valid_paths, cell_eq_some cb h, Option.some_bind, hk]

/-- C2: on a board square holding a Rook that has already moved, `valid_paths` is
exactly the list of the non-empty direction runs, in the order rows r+1.., rows r-1..,
columns c+1.., columns c-1..; each run is Move targets for the consecutive empty squares
outward, closed by an Attack target on the first non-empty square only when the other
side holds it, and nothing beyond that square. -/
theorem C2_moved_rook_paths (cb : Chessboard) (r c : Int) (h : inRange r c)
    (hb : (cb.board r c).type = CellType.Board)
    (hk : (cb.board r c).piece.rank = Rank.Rook)
    (hm : (cb.board r c).piece.has_moved = true) :
    ∃ up down right left : Path,
      IsRun cb (cb.board r c).piece.side r c 1 0 up ∧
      IsRun cb (cb.board r c).piece.side r c (-1) 0 down ∧
      IsRun cb (cb.board r c).piece.side r c 0 1 right ∧
      IsRun cb (cb.board r c).piece.side r c 0 (-1) left ∧
      cb.valid_paths r c = some (nonEmptyRuns [up, down, right, left]) := by
  obtain ⟨up, down, right, left, ts, h1, h2, h3, h4, h5, h6⟩ := calc_rook_moves_eq cb h
  refine ⟨up, down, right, left, h1, h2, h3, h4, ?_⟩
  rw [valid_paths_eq_calc cb h hb (by rw [hk]; decide), calc_valid_paths_rook cb h hk, h6,
    castleOutcome_moved cb _ r c ts hm h5]
  simp [nonEmptyRuns]

theorem C2_moved_rook_paths_witness :
    ∃ up down right left : Path,
      IsRun (sliderBoard movedRook) ((sliderBoard movedRook).board 3 3).piece.side 3 3 1 0 up ∧
      IsRun (sliderBoard movedRook) ((sliderBoard movedRook).board 3 3).piece.side 3 3 (-1) 0 down ∧
      IsRun (sliderBoard movedRook) ((sliderBoard movedRook).board 3 3).piece.side 3 3 0 1 right ∧
      IsRun (sliderBoard movedRook) ((sliderBoard movedRook).board 3 3).piece.side 3 3 0 (-1) left ∧
      (sliderBoard movedRook).valid_paths 3 3 = some (nonEmptyRuns [up, down, right, left]) :=
  C2_moved_rook_paths (sliderBoard movedRook) 3 3 (by decide) (by decide) (by decide) (by decide)

/-- The four diagonal runs, as `calc_bishop_moves` chains them. -/
theorem calc_bishop_moves_eq (cb : Chessboard) {r c : Int} (h : inRange r c) :
    ∃ d1 d2 d3 d4 : Path,
      IsRun cb (cb.board r c).piece.side r c 1 1 d1 ∧
      IsRun cb (cb.board r c).piece.side r c 1 (-1) d2 ∧
      IsRun cb (cb.board r c).piece.side r c (-1) 1 d3 ∧
      IsRun cb (cb.board r c).piece.side r c (-1) (-1) d4 ∧
      cb.calc_bishop_moves r c = some (nonEmptyRuns [d1, d2, d3, d4]) := by
  have hr := h
  unfold inRange at hr
  obtain ⟨d1, hd1, hd1r⟩ := scan_isRun_at cb (cb.board r c).piece.side
    (fun i j => decide (i < 8) && decide (j < 8)) h 1 1 (by unfold IsDir; decide)
    (by intro k hk; rw [Bool.eq_iff_iff]
        simp only [Bool.and_eq_true, decide_eq_true_eq, inRange]; omega)
    (r + 1) (c + 1) (by ring) (by ring)
  obtain ⟨d2, hd2, hd2r⟩ := scan_isRun_at cb (cb.board r c).piece.side
    (fun i j => decide (i < 8) && decide (j ≥ 0)) h 1 (-1) (by unfold IsDir; decide)
    (by intro k hk; rw [Bool.eq_iff_iff]
        simp only [Bool.and_eq_true, decide_eq_true_eq, inRange]; omega)
    (r + 1) (c - 1) (by ring) (by ring)
  obtain ⟨d3, hd3, hd3r⟩ := scan_isRun_at cb (cb.board r c).piece.side
    (fun i j => decide (i ≥ 0) && decide (j < 8)) h (-1) 1 (by unfold IsDir; decide)
    (by intro k hk; rw [Bool.eq_iff_iff]
        simp only [Bool.and_eq_true, decide_eq_true_eq, inRange]; omega)
    (r - 1) (c + 1) (by ring) (by ring)
  obtain ⟨d4, hd4, hd4r⟩ := scan_isRun_at cb (cb.board r c).piece.side
    (fun i j => decide (i ≥ 0) && decide (j ≥ 0)) h (-1) (-1) (by unfold IsDir; decide)
    (by intro k hk; rw [Bool.eq_iff_iff]
        simp only [Bool.and_eq_true, decide_eq_true_eq, inRange]; omega)
    (r - 1) (c - 1) (by ring) (by ring)
  refine ⟨d1, d2, d3, d4, hd1r, hd2r, hd3r, hd4r, ?_⟩
  simp only [Chessboard.calc_bishop_moves, cell_eq_some cb h, Option.some_bind, hd1, flush_eq,
    hd2, hd3, hd4]
  rw [nonEmptyRuns_cons d1 [d2, d3, d4], nonEmptyRuns_cons d2 [d3, d4],
    nonEmptyRuns_cons d3 [d4]]
  simp only [List.nil_append, List.append_assoc]

/-- C3: on a board square holding a Bishop, `valid_paths` is exactly the list of the
non-empty diagonal runs in the order (+1,+1), (+1,-1), (-1,+1), (-1,-1), each built by
the rule of a rook run. -/
theorem C3_bishop_paths (cb : Chessboard) (r c : Int) (h : inRange r c)
    (hb : (cb.board r c).type = CellType.Board)
    (hk : (cb.board r c).piece.rank = Rank.Bishop) :
    ∃ d1 d2 d3 d4 : Path,
      IsRun cb (cb.board r c).piece.side r c 1 1 d1 ∧
      IsRun cb (cb.board r c).piece.side r c 1 (-1) d2 ∧
      IsRun cb (cb.board r c).piece.side r c (-1) 1 d3 ∧
      IsRun cb (cb.board r c).piece.side r c (-1) (-1) d4 ∧
      cb.valid_paths r c = some (nonEmptyRuns [d1, d2, d3, d4]) := by
  obtain ⟨d1, d2, d3, d4, h1, h2, h3, h4, h5⟩ := calc_bishop_moves_eq cb h
  refine ⟨d1, d2, d3, d4, h1, h2, h3, h4, ?_⟩
  rw [valid_paths_eq_calc cb h hb (by rw [hk]; decide), calc_valid_paths_bishop cb h hk, h5]

theorem C3_bishop_paths_witness :
    ∃ d1 d2 d3 d4 : Path,
      IsRun (sliderBoard whiteBishop) ((sliderBoard whiteBishop).board 3 3).piece.side 3 3 1 1 d1 ∧
      IsRun (sliderBoard whiteBishop) ((sliderBoard whiteBishop).board 3 3).piece.side 3 3 1 (-1) d2 ∧
      IsRun (sliderBoard whiteBishop) ((sliderBoard whiteBishop).board 3 3).piece.side 3 3 (-1) 1 d3 ∧
      IsRun (sliderBoard whiteBishop) ((sliderBoard whiteBishop).board 3 3).piece.side 3 3 (-1) (-1) d4 ∧
      (sliderBoard whiteBishop).valid_paths 3 3 = some (nonEmptyRuns [d1, d2, d3, d4]) :=
  C3_bishop_paths (sliderBoard whiteBishop) 3 3 (by decide) (by decide) (by decide)

theorem isRun_unique (cb : Chessboard) (s : Side) (r c dr dc : Int) (run1 run2 : Path)
    (h1 : IsRun cb s r c dr dc run1) (h2 : IsRun cb s r c dr dc run2) : run1 = run2 := by
  obtain ⟨n1, a1, b1⟩ := h1
  obtain ⟨n2, a2, b2⟩ := h2
  have key : ∀ (n m : Nat) (x : Path), n < m →
      (∀ k : Nat, 1 ≤ k → k ≤ m →
        inRange (r + (k : Int) * dr) (c + (k : Int) * dc) ∧
          (cb.board (r + (k : Int) * dr) (c + (k : Int) * dc)).piece.rank = Rank.Empty) →
      ((¬ inRange (r + ((n : Int) + 1) * dr) (c + ((n : Int) + 1) * dc) ∧
          x = runMoves r c dr dc n) ∨
       (inRange (r + ((n : Int) + 1) * dr) (c + ((n : Int) + 1) * dc) ∧
          (cb.board (r + ((n : Int) + 1) * dr) (c + ((n : Int) + 1) * dc)).piece.rank ≠ Rank.Empty ∧
          (cb.board (r + ((n : Int) + 1) * dr) (c + ((n : Int) + 1) * dc)).piece.side ≠ s ∧
          x = runMoves r c dr dc n ++
            [Target.mk Marker.Attack (r + ((n : Int) + 1) * dr) (c + ((n : Int) + 1) * dc)]) ∨
       (inRange (r + ((n : Int) + 1) * dr) (c + ((n : Int) + 1) * dc) ∧
          (cb.board (r + ((n : Int) + 1) * dr) (c + ((n : Int) + 1) * dc)).piece.rank ≠ Rank.Empty ∧
          (cb.board (r + ((n : Int) + 1) * dr) (c + ((n : Int) + 1) * dc)).piece.side = s ∧
          x = runMoves r c dr dc n)) → False := by
    intro n m x hlt hall hx
    have hk := hall (n + 1) (by omega) (by omega)
    push_cast at hk
    rcases hx with ⟨h, _⟩ | ⟨_, h, _⟩ | ⟨_, h, _⟩
    · exact h hk.1
    · exact h hk.2
    · exact h hk.2
  rcases lt_trichotomy n1 n2 with hlt | heq | hgt
  · exact (key n1 n2 run1 hlt a2 b1).elim
  · subst heq
    rcases b1 with ⟨p1, q1⟩ | ⟨p1, p2, p3, q1⟩ | ⟨p1, p2, p3, q1⟩ <;>
      rcases b2 with ⟨p4, q2⟩ | ⟨p4, p5, p6, q2⟩ | ⟨p4, p5, p6, q2⟩ <;>
      first
        | exact absurd p1 p4
        | exact absurd p4 p1
        | exact absurd p6 p3
        | exact absurd p3 p6
        | (rw [q1, q2])
  · exact (key n2 n1 run2 hgt a1 b2).elim

/-! ### Replacing the moving piece does not change what its loops read -/

theorem place_board_self (cb : Chessboard) (r c : Int) (p : Piece) :
    (cb.place r c p).board r c = { cb.board r c with piece := p } := by
  simp [Chessboard.place]

theorem place_board_other (cb : Chessboard) (r c : Int) (p : Piece) (i j : Int)
    (h : ¬ (i = r ∧ j = c)) : (cb.place r c p).board i j = cb.board i j := by
  simp [Chessboard.place, h]

theorem scan_place_aux (cb : Chessboard) (r c : Int) (p : Piece) (opp : Side)
    (cond : Int → Int → Bool) (di dj : Int) :
    ∀ (fuel : Nat) (i j : Int) (acc : Path),
      (∀ k : Nat, ¬ (i + (k : Int) * di = r ∧ j + (k : Int) * dj = c)) →
      (cb.place r c p).scan opp cond di dj fuel i j acc = cb.scan opp cond di dj fuel i j acc := by
  intro fuel
  induction fuel with
  | zero => intro i j acc _; rfl
  | succ fuel ih =>
    intro i j acc hk
    have h0 : ¬ (i = r ∧ j = c) := by simpa using hk 0
    have hcell : (cb.place r c p).cell i j = cb.cell i j := by
      simp only [Chessboard.cell, place_board_other cb r c p i j h0]
    have hnext : ∀ k : Nat, ¬ (i + di + (k : Int) * di = r ∧ j + dj + (k : Int) * dj = c) := by
      intro k hh
      apply hk (k + 1)
      push_cast
      constructor
      · rw [← hh.1]; ring
      · rw [← hh.2]; ring
    unfold Chessboard.scan
    rw [hcell]
    simp only [ih (i + di) (j + dj) _ hnext]

theorem scan_place (cb : Chessboard) (r c : Int) (p : Piece) (opp : Side)
    (cond : Int → Int → Bool) (di dj : Int) (hd : IsDir di dj) (i0 j0 : Int)
    (hi : i0 = r + di) (hj : j0 = c + dj) (acc : Path) :
    (cb.place r c p).scan opp cond di dj loopFuel i0 j0 acc =
      cb.scan opp cond di dj loopFuel i0 j0 acc := by
  apply scan_place_aux
  intro k hh
  subst hi; subst hj
  unfold IsDir at hd
  rcases hd with ⟨h1 | h1 | h1, h2 | h2 | h2, h3⟩ <;> subst h1 <;> subst h2 <;>
    simp at h3 <;> omega

theorem nonEmptyRuns_cons_cons (x y : Path) (xs : List Path) :
    nonEmptyRuns (x :: y :: xs) = nonEmptyRuns [x] ++ nonEmptyRuns (y :: xs) :=
  nonEmptyRuns_append [x] (y :: xs)

theorem mem_nonEmptyRuns (p : Path) (runs : List Path) :
    p ∈ nonEmptyRuns runs ↔ p ∈ runs ∧ p ≠ [] := by
  simp [nonEmptyRuns, List.mem_filter]

/-- C4: on a board square holding a Queen, the paths `valid_paths` returns are, as a
set, the paths returned for a Bishop of the same side on that square together with the
paths returned for an already-moved Rook of the same side on that square, the rest of
the board being the same. -/
theorem C4_queen_union (cb : Chessboard) (r c : Int) (h : inRange r c)
    (hb : (cb.board r c).type = CellType.Board)
    (hk : (cb.board r c).piece.rank = Rank.Queen) :
    ∃ q b k : Paths,
      cb.valid_paths r c = some q ∧
      (cb.place r c { (cb.board r c).piece with rank := Rank.Bishop }).valid_paths r c = some b ∧
      (cb.place r c { (cb.board r c).piece with rank := Rank.Rook, first_move := false }).valid_paths
          r c = some k ∧
      ∀ p : Path, p ∈ q ↔ (p ∈ b ∨ p ∈ k) := by
  have hr := h
  unfold inRange at hr
  obtain ⟨d1, hd1, -⟩ := scan_isRun_at cb (cb.board r c).piece.side
    (fun i j => decide (i < 8) && decide (j < 8)) h 1 1 (by unfold IsDir; decide)
    (by intro k hk; rw [Bool.eq_iff_iff]
        simp only [Bool.and_eq_true, decide_eq_true_eq, inRange]; omega)
    (r + 1) (c + 1) (by ring) (by ring)
  obtain ⟨d2, hd2, -⟩ := scan_isRun_at cb (cb.board r c).piece.side
    (fun i j => decide (i < 8) && decide (j ≥ 0)) h 1 (-1) (by unfold IsDir; decide)
    (by intro k hk; rw [Bool.eq_iff_iff]
        simp only [Bool.and_eq_true, decide_eq_true_eq, inRange]; omega)
    (r + 1) (c - 1) (by ring) (by ring)
  obtain ⟨d3, hd3, -⟩ := scan_isRun_at cb (cb.board r c).piece.side
    (fun i j => decide (i ≥ 0) && decide (j < 8)) h (-1) 1 (by unfold IsDir; decide)
    (by intro k hk; rw [Bool.eq_iff_iff]
        simp only [Bool.and_eq_true, decide_eq_true_eq, inRange]; omega)
    (r - 1) (c + 1) (by ring) (by ring)
  obtain ⟨d4, hd4, -⟩ := scan_isRun_at cb (cb.board r c).piece.side
    (fun i j => decide (i ≥ 0) && decide (j ≥ 0)) h (-1) (-1) (by unfold IsDir; decide)
    (by intro k hk; rw [Bool.eq_iff_iff]
        simp only [Bool.and_eq_true, decide_eq_true_eq, inRange]; omega)
    (r - 1) (c - 1) (by ring) (by ring)
  obtain ⟨up, hup, -⟩ := scan_isRun_at cb (cb.board r c).piece.side
    (fun i _ => decide (i < 8)) h 1 0 (by unfold IsDir; decide)
    (by intro k hk; rw [Bool.eq_iff_iff]; simp only [decide_eq_true_eq, inRange]; omega)
    (r + 1) c (by ring) (by ring)
  obtain ⟨down, hdown, -⟩ := scan_isRun_at cb (cb.board r c).piece.side
    (fun i _ => decide (i ≥ 0)) h (-1) 0 (by unfold IsDir; decide)
    (by intro k hk; rw [Bool.eq_iff_iff]; simp only [decide_eq_true_eq, inRange]; omega)
    (r - 1) c (by ring) (by ring)
  obtain ⟨right, hright, -⟩ := scan_isRun_at cb (cb.board r c).piece.side
    (fun _ i => decide (i < 8)) h 0 1 (by unfold IsDir; decide)
    (by intro k hk; rw [Bool.eq_iff_iff]; simp only [decide_eq_true_eq, inRange]; omega)
    r (c + 1) (by ring) (by ring)
  obtain ⟨left, hleft, -⟩ := scan_isRun_at cb (cb.board r c).piece.side
    (fun _ i => decide (i ≥ 0)) h 0 (-1) (by unfold IsDir; decide)
    (by intro k hk; rw [Bool.eq_iff_iff]; simp only [decide_eq_true_eq, inRange]; omega)
    r (c - 1) (by ring) (by ring)
  have sp : ∀ (p : Piece) (cond : Int → Int → Bool) (di dj : Int), IsDir di dj →
      ∀ (i0 j0 : Int), i0 = r + di → j0 = c + dj →
      (cb.place r c p).scan (opponentOf (cb.board r c).piece.side) cond di dj loopFuel i0 j0 [] =
        cb.scan (opponentOf (cb.board r c).piece.side) cond di dj loopFuel i0 j0 [] := by
    intro p cond di dj hd i0 j0 hi hj
    exact scan_place cb r c p _ cond di dj hd i0 j0 hi hj []
  refine ⟨nonEmptyRuns [d1, up, d2, left, right, d3, down, d4], nonEmptyRuns [d1, d2, d3, d4],
    nonEmptyRuns [up, down, right, left], ?_, ?_, ?_, ?_⟩
  · rw [valid_paths_eq_calc cb h hb (by rw [hk]; decide), calc_valid_paths_queen cb h hk]
    simp only [Chessboard.calc_queen_moves, cell_eq_some cb h, Option.some_bind, hd1, flush_eq,
      hd2, hd3, hd4, hup, hdown, hright, hleft]
    simp only [nonEmptyRuns_cons_cons, List.nil_append, List.append_assoc]
  · rw [valid_paths_eq_calc _ h (by rw [place_board_self]; exact hb)
      (by rw [place_board_self]; simp),
      calc_valid_paths_bishop _ h (by rw [place_board_self])]
    simp only [Chessboard.calc_bishop_moves, cell_eq_some _ h, Option.some_bind,
      place_board_self, flush_eq]
    rw [sp _ _ 1 1 (by unfold IsDir; decide) _ _ (by ring) (by ring), hd1]
    simp only [Option.some_bind]
    rw [sp _ _ 1 (-1) (by unfold IsDir; decide) _ _ (by ring) (by ring), hd2]
    simp only [Option.some_bind]
    rw [sp _ _ (-1) 1 (by unfold IsDir; decide) _ _ (by ring) (by ring), hd3]
    simp only [Option.some_bind]
    rw [sp _ _ (-1) (-1) (by unfold IsDir; decide) _ _ (by ring) (by ring), hd4]
    simp only [Option.some_bind]
    rw [nonEmptyRuns_cons d1 [d2, d3, d4], nonEmptyRuns_cons d2 [d3, d4],
      nonEmptyRuns_cons d3 [d4]]
    simp only [List.nil_append, List.append_assoc]
  · rw [valid_paths_eq_calc _ h (by rw [place_board_self]; exact hb)
      (by rw [place_board_self]; simp),
      calc_valid_paths_rook _ h (by rw [place_board_self])]
    simp only [Chessboard.calc_rook_moves, cell_eq_some _ h, Option.some_bind,
      place_board_self, flush_eq]
    rw [sp _ _ 1 0 (by unfold IsDir; decide) _ _ (by ring) (by ring), hup]
    simp only [Option.some_bind]
    rw [sp _ _ (-1) 0 (by unfold IsDir; decide) _ _ (by ring) (by ring), hdown]
    simp only [Option.some_bind]
    rw [sp _ _ 0 1 (by unfold IsDir; decide) _ _ (by ring) (by ring), hright]
    simp only [Option.some_bind]
    rw [sp _ _ 0 (-1) (by unfold IsDir; decide) _ _ (by ring) (by ring), hleft]
    simp only [Option.some_bind, Chessboard.castle_scan, Piece.has_moved, Bool.not_false,
      Bool.not_true, Bool.false_eq_true, if_false]
    rw [nonEmptyRuns_cons up [down, right, left], nonEmptyRuns_cons down [right, left],
      nonEmptyRuns_cons right [left]]
    simp [nonEmptyRuns]
  · intro p
    simp only [mem_nonEmptyRuns, List.mem_cons, List.mem_singleton, List.not_mem_nil, or_false]
    tauto

theorem C4_queen_union_witness :
    ∃ q b k : Paths,
      (sliderBoard whiteQueen).valid_paths 3 3 = some q ∧
      ((sliderBoard whiteQueen).place 3 3
        { ((sliderBoard whiteQueen).board 3 3).piece with rank := Rank.Bishop }).valid_paths 3 3
          = some b ∧
      ((sliderBoard whiteQueen).place 3 3
        { ((sliderBoard whiteQueen).board 3 3).piece with
            rank := Rank.Rook, first_move := false }).valid_paths 3 3 = some k ∧
      ∀ p : Path, p ∈ q ↔ (p ∈ b ∨ p ∈ k) :=
  C4_queen_union (sliderBoard whiteQueen) 3 3 (by decide) (by decide) (by decide)

/-! ## King -/

theorem king_loop_eq (cb : Chessboard) (s : Side) (r c : Int) :
    ∀ (ds : List (Int × Int)) (paths : Paths),
      cb.king_loop (opponentOf s) (ds.map fun d => (r + d.1, c + d.2)) paths =
        some (paths ++ singlePaths cb s r c ds) := by
  intro ds
  induction ds with
  | nil => intro paths; simp [Chessboard.king_loop, singlePaths_nil]
  | cons d ds ih =>
    intro paths
    rw [List.map_cons, singlePaths_cons]
    unfold Chessboard.king_loop
    by_cases hin : inRange (r + d.1) (c + d.2)
    · have hg : ¬ (r + d.1 < 0 ∨ r + d.1 > 7 ∨ c + d.2 < 0 ∨ c + d.2 > 7) := by
        unfold inRange at hin; omega
      simp only [hg, if_false, cell_eq_some cb hin, Option.some_bind, offer, hin, if_true]
      by_cases he : (cb.board (r + d.1) (c + d.2)).piece.rank = Rank.Empty
      · simp [he, ih]
      · by_cases hs : (cb.board (r + d.1) (c + d.2)).piece.side = s
        · simp [he, hs, (opponentOf_ne_self s).symm, ih]
        · have ho : (cb.board (r + d.1) (c + d.2)).piece.side = opponentOf s :=
            (eq_opponentOf_iff _ _).mpr hs
          simp [he, ho, opponentOf_ne_self, ih]
    · have hg : r + d.1 < 0 ∨ r + d.1 > 7 ∨ c + d.2 < 0 ∨ c + d.2 > 7 := by
        unfold inRange at hin; omega
      simp [hg, offer_of_not_inRange cb s hin, ih]

theorem king_squares_eq (r c : Int) :
    king_squares r c = kingOffsets.map fun d => (r + d.1, c + d.2) := by
  simp [king_squares, kingOffsets, Int.sub_eq_add_neg]

/-- C5: on a board square holding a King, `valid_paths` is empty when the in-check flag
is set, whatever stands around the king; otherwise it is exactly the list of
single-target paths for the adjacent squares that are on the board and empty (Move) or
held by the other side (Attack), with nothing for an adjacent square held by an own
piece. -/
theorem C5_king_paths (cb : Chessboard) (r c : Int) (h : inRange r c)
    (hb : (cb.board r c).type = CellType.Board)
    (hk : (cb.board r c).piece.rank = Rank.King) :
    cb.valid_paths r c =
      some (if (cb.board r c).piece.is_checked = true then []
        else singlePaths cb (cb.board r c).piece.side r c kingOffsets) := by
  rw [valid_paths_eq_calc cb h hb (by rw [hk]; decide)]
  simp only [Chessboard.calc_valid_paths, cell_eq_some cb h, Option.some_bind, hk,
    Chessboard.calc_king_moves]
  by_cases hc : (cb.board r c).piece.is_checked = true
  · simp [hc]
  · simp only [hc, if_false]
    rw [king_squares_eq, king_loop_eq]
    simp

theorem C5_king_paths_witness :
    (kingBoard false).valid_paths 0 3 =
      some (if ((kingBoard false).board 0 3).piece.is_checked = true then []
        else singlePaths (kingBoard false) ((kingBoard false).board 0 3).piece.side 0 3
          kingOffsets) :=
  C5_king_paths (kingBoard false) 0 3 (by decide) (by decide) (by decide)

/-- The in-check king of `kingBoard true` gets no path although (0,2), (0,4) and (1,2)
are empty and (1,3) holds a Black pawn. -/
theorem kingBoard_checked_paths : (kingBoard true).valid_paths 0 3 = some [] := by
  decide

/-! ## Castling -/

/-- C8: on a board square holding a Rook, `valid_paths` is the directional runs followed
by at most one castling path, which holds exactly one Move target; the castling path is
there iff the rook has never moved and the first non-empty square towards lower
columns, or failing that towards higher columns, holds the own King that has never
moved. -/
theorem C8_castle_path (cb : Chessboard) (r c : Int) (h : inRange r c)
    (hb : (cb.board r c).type = CellType.Board)
    (hk : (cb.board r c).piece.rank = Rank.Rook) :
    ∃ (up down right left : Path) (castle : Paths),
      IsRun cb (cb.board r c).piece.side r c 1 0 up ∧
      IsRun cb (cb.board r c).piece.side r c (-1) 0 down ∧
      IsRun cb (cb.board r c).piece.side r c 0 1 right ∧
      IsRun cb (cb.board r c).piece.side r c 0 (-1) left ∧
      cb.valid_paths r c = some (nonEmptyRuns [up, down, right, left] ++ castle) ∧
      (castle = [] ∨ ∃ t : Target, castle = [[t]] ∧ t.kind = Marker.Move) ∧
      (castle ≠ [] ↔
        ((cb.board r c).piece.has_moved = false ∧
          (KingLeft cb (cb.board r c).piece.side r c ∨
            KingRight cb (cb.board r c).piece.side r c))) := by
  obtain ⟨up, down, right, left, ts, h1, h2, h3, h4, h5, h6⟩ := calc_rook_moves_eq cb h
  refine ⟨up, down, right, left, nonEmptyRuns [ts], h1, h2, h3, h4, ?_, ?_⟩
  · rw [valid_paths_eq_calc cb h hb (by rw [hk]; decide), calc_valid_paths_rook cb h hk, h6]
  · rcases h5 with ⟨hm, k, hk1, hk2, hk3⟩ | ⟨hm, hno, k, hk1, hk2, hk3⟩ | ⟨hno, hk3⟩
    · subst hk3
      refine ⟨Or.inr ⟨Target.mk Marker.Move r (k + 1), by simp [nonEmptyRuns], rfl⟩, ?_⟩
      simp only [nonEmptyRuns, ne_eq]
      exact ⟨fun _ => ⟨hm, Or.inl ⟨k, hk1, hk2⟩⟩, fun _ => by simp⟩
    · subst hk3
      refine ⟨Or.inr ⟨Target.mk Marker.Move r (k - 1), by simp [nonEmptyRuns], rfl⟩, ?_⟩
      simp only [nonEmptyRuns, ne_eq]
      exact ⟨fun _ => ⟨hm, Or.inr ⟨k, hk1, hk2⟩⟩, fun _ => by simp⟩
    · subst hk3
      refine ⟨Or.inl (by simp [nonEmptyRuns]), ?_⟩
      constructor
      · intro hne
        exact absurd (by simp [nonEmptyRuns]) hne
      · rintro ⟨hm, hkl⟩
        rcases hno with hmv | ⟨n1, n2⟩
        · rw [hm] at hmv; exact absurd hmv (by decide)
        · rcases hkl with hl | hr
          · exact absurd hl n1
          · exact absurd hr n2

theorem C8_castle_path_witness :
    ∃ (up down right left : Path) (castle : Paths),
      IsRun castleBoard (castleBoard.board 0 0).piece.side 0 0 1 0 up ∧
      IsRun castleBoard (castleBoard.board 0 0).piece.side 0 0 (-1) 0 down ∧
      IsRun castleBoard (castleBoard.board 0 0).piece.side 0 0 0 1 right ∧
      IsRun castleBoard (castleBoard.board 0 0).piece.side 0 0 0 (-1) left ∧
      castleBoard.valid_paths 0 0 = some (nonEmptyRuns [up, down, right, left] ++ castle) ∧
      (castle = [] ∨ ∃ t : Target, castle = [[t]] ∧ t.kind = Marker.Move) ∧
      (castle ≠ [] ↔
        ((castleBoard.board 0 0).piece.has_moved = false ∧
          (KingLeft castleBoard (castleBoard.board 0 0).piece.side 0 0 ∨
            KingRight castleBoard (castleBoard.board 0 0).piece.side 0 0))) :=
  C8_castle_path castleBoard 0 0 (by decide) (by decide) (by decide)

/-- C9 (amended): when the rook generator adds a castling target for an unmoved Rook on
(r,c) and the unmoved own King found on (r,k), the target is the Move target for the
square of row r one column away from the King's square in the direction of the rook
(the square next to the King on the rook's side). -/
theorem C9_castle_target (cb : Chessboard) (r c k : Int) (h : inRange r c)
    (hb : (cb.board r c).type = CellType.Board)
    (hk : (cb.board r c).piece.rank = Rank.Rook)
    (hm : (cb.board r c).piece.has_moved = false)
    (hking : UnmovedKing cb (cb.board r c).piece.side r k)
    (hfirst : FirstPieceLeft cb r c k ∨
      (¬ KingLeft cb (cb.board r c).piece.side r c ∧ FirstPieceRight cb r c k)) :
    ∃ runs : Paths,
      cb.valid_paths r c =
        some (runs ++ [[Target.mk Marker.Move r (if k < c then k + 1 else k - 1)]]) := by
  obtain ⟨up, down, right, left, ts, -, -, -, -, h5, h6⟩ := calc_rook_moves_eq cb h
  refine ⟨nonEmptyRuns [up, down, right, left], ?_⟩
  rw [valid_paths_eq_calc cb h hb (by rw [hk]; decide), calc_valid_paths_rook cb h hk, h6]
  rcases hfirst with hl | ⟨hnl, hr⟩
  · have hkc : k < c := hl.2.1
    rcases h5 with ⟨_, k2, hk1, _, hk3⟩ | ⟨_, hno, _⟩ | ⟨hno, _⟩
    · have := firstPieceLeft_unique cb hk1 hl
      subst this
      subst hk3
      simp [nonEmptyRuns, hkc]
    · exact absurd ⟨k, hl, hking⟩ hno
    · rcases hno with hmv | ⟨n1, _⟩
      · rw [hm] at hmv; exact absurd hmv (by decide)
      · exact absurd ⟨k, hl, hking⟩ n1
  · have hkc : ¬ k < c := by have := hr.1; omega
    rcases h5 with ⟨_, k2, hk1, hk2, _⟩ | ⟨_, _, k2, hk1, _, hk3⟩ | ⟨hno, _⟩
    · exact absurd ⟨k2, hk1, hk2⟩ hnl
    · have := firstPieceRight_unique cb hk1 hr
      subst this
      subst hk3
      simp [nonEmptyRuns, hkc]
    · rcases hno with hmv | ⟨_, n2⟩
      · rw [hm] at hmv; exact absurd hmv (by decide)
      · exact absurd ⟨k, hr, hking⟩ n2

theorem castleBoard_firstPieceRight : FirstPieceRight castleBoard 0 0 3 := by
  refine ⟨by decide, by decide, by decide, ?_⟩
  intro j h1 h2
  interval_cases j <;> decide

theorem castleBoard_not_kingLeft : ¬ KingLeft castleBoard Side.White 0 0 := by
  rintro ⟨k, ⟨a1, a2, _, _⟩, _⟩
  omega

theorem C9_castle_target_witness :
    ∃ runs : Paths,
      castleBoard.valid_paths 0 0 =
        some (runs ++ [[Target.mk Marker.Move 0 (if (3 : Int) < 0 then 3 + 1 else 3 - 1)]]) :=
  C9_castle_target castleBoard 0 0 3 (by decide) (by decide) (by decide) (by decide)
    ⟨by decide, by decide, by decide⟩
    (Or.inr ⟨castleBoard_not_kingLeft, castleBoard_firstPieceRight⟩)

/-- C9, as stated, fails: for the unmoved White rook on (0,0) and the unmoved White king
on (0,3) with (0,1) and (0,2) empty, the castling path is the single Move target (0,2),
one column from the king, and not (0,1), the square two columns from the king towards
the rook. -/
theorem C9_counterexample :
    (castleBoard.board 0 0).piece.rank = Rank.Rook ∧
    (castleBoard.board 0 0).piece.has_moved = false ∧
    UnmovedKing castleBoard Side.White 0 3 ∧
    FirstPieceRight castleBoard 0 0 3 ∧
    castleBoard.valid_paths 0 0 =
      some [[⟨Marker.Move, 1, 0⟩, ⟨Marker.Move, 2, 0⟩, ⟨Marker.Move, 3, 0⟩, ⟨Marker.Move, 4, 0⟩,
              ⟨Marker.Move, 5, 0⟩, ⟨Marker.Move, 6, 0⟩, ⟨Marker.Move, 7, 0⟩],
            [⟨Marker.Move, 0, 1⟩, ⟨Marker.Move, 0, 2⟩],
            [⟨Marker.Move, 0, 2⟩]] ∧
    ¬ ∃ runs : Paths,
      castleBoard.valid_paths 0 0 = some (runs ++ [[Target.mk Marker.Move 0 (3 - 2)]]) := by
  have hv : castleBoard.valid_paths 0 0 =
      some [[⟨Marker.Move, 1, 0⟩, ⟨Marker.Move, 2, 0⟩, ⟨Marker.Move, 3, 0⟩, ⟨Marker.Move, 4, 0⟩,
              ⟨Marker.Move, 5, 0⟩, ⟨Marker.Move, 6, 0⟩, ⟨Marker.Move, 7, 0⟩],
            [⟨Marker.Move, 0, 1⟩, ⟨Marker.Move, 0, 2⟩],
            [⟨Marker.Move, 0, 2⟩]] := by decide
  refine ⟨by decide, by decide, ⟨by decide, by decide, by decide⟩,
    castleBoard_firstPieceRight, hv, ?_⟩
  rintro ⟨runs, hruns⟩
  rw [hv] at hruns
  have hlast := congrArg (fun o => o.map List.getLast?) hruns
  simp at hlast

/-! ## Pawn -/

theorem probe_eq (cb : Chessboard) (guard : Bool) (r c : Int) (test : Piece → Bool)
    (hg : guard = true → inRange r c) :
    cb.probe guard r c test = some (guard && test (cb.board r c).piece) := by
  cases guard with
  | false => simp [Chessboard.probe]
  | true => simp [Chessboard.probe, cell_eq_some cb (hg rfl)]

theorem offered_nil (t : Target) : ¬ Offered [] t := by
  simp [Offered]

theorem offered_push_single (ok : Bool) (t0 : Target) (paths : Paths) (t : Target) :
    Offered (push_single ok t0 paths) t ↔ (Offered paths t ∨ (ok = true ∧ t = t0)) := by
  cases ok with
  | false => simp [push_single]
  | true =>
    simp only [push_single, if_true, Offered, List.mem_append, List.mem_singleton]
    constructor
    · rintro ⟨p, hp | hp, ht⟩
      · exact Or.inl ⟨p, hp, ht⟩
      · subst hp
        exact Or.inr ⟨trivial, by simpa using ht⟩
    · rintro (⟨p, hp, ht⟩ | ⟨_, ht⟩)
      · exact ⟨p, Or.inl hp, ht⟩
      · exact ⟨[t0], Or.inr rfl, by simp [ht]⟩

theorem calc_valid_paths_pawn (cb : Chessboard) {r c : Int} (h : inRange r c)
    (hk : (cb.board r c).piece.rank = Rank.Pawn) :
    cb.calc_valid_paths r c = cb.calc_pawn_moves r c := by
  simp only [Chessboard.calc_valid_paths, cell_eq_some cb h, Option.some_bind, hk]

/-- The White branch of `calc_pawn_moves`, every read being inside the board. -/
theorem calc_pawn_moves_white (cb : Chessboard) {r c : Int} (h : inRange r c)
    (hs : (cb.board r c).piece.side = Side.White)
    (hstart : (cb.board r c).piece.has_moved = false → r = 1) :
    cb.calc_pawn_moves r c = some
      (push_single
        ((decide (c < 7) && decide (r < 7)) &&
          (decide ((cb.board (r + 1) (c + 1)).piece.rank ≠ Rank.Empty) &&
            decide ((cb.board (r + 1) (c + 1)).piece.side = Side.Black)))
        (Target.mk Marker.Attack (r + 1) (c + 1))
      (push_single
        ((decide (c > 0) && decide (r < 7)) &&
          (decide ((cb.board (r + 1) (c - 1)).piece.rank ≠ Rank.Empty) &&
            decide ((cb.board (r + 1) (c - 1)).piece.side = Side.Black)))
        (Target.mk Marker.Attack (r + 1) (c - 1))
      (push_single
        (((decide (r < 7) && decide ((cb.board (r + 1) c).piece.rank = Rank.Empty)) &&
            !(cb.board r c).piece.has_moved) &&
          decide ((cb.board (r + 2) c).piece.rank = Rank.Empty))
        (Target.mk Marker.Move (r + 2) c)
      (push_single
        (decide (r < 7) && decide ((cb.board (r + 1) c).piece.rank = Rank.Empty))
        (Target.mk Marker.Move (r + 1) c) [])))) := by
  have hr := h
  unfold inRange at hr
  simp only [Chessboard.calc_pawn_moves, cell_eq_some cb h, Option.some_bind, hs, if_true]
  rw [probe_eq cb _ (r + 1) c _ (by simp only [decide_eq_true_eq, inRange]; omega)]
  simp only [Option.some_bind]
  rw [probe_eq cb _ (r + 2) c _ (by
    intro hg
    simp only [Bool.and_eq_true, decide_eq_true_eq, Bool.not_eq_true'] at hg
    have := hstart hg.2
    unfold inRange; omega)]
  simp only [Option.some_bind]
  rw [probe_eq cb _ (r + 1) (c - 1) _ (by
    simp only [Bool.and_eq_true, decide_eq_true_eq, inRange]; omega)]
  simp only [Option.some_bind]
  rw [probe_eq cb _ (r + 1) (c + 1) _ (by
    simp only [Bool.and_eq_true, decide_eq_true_eq, inRange]; omega)]
  simp only [Option.some_bind]

/-- The Black branch of `calc_pawn_moves`, every read being inside the board. -/
theorem calc_pawn_moves_black (cb : Chessboard) {r c : Int} (h : inRange r c)
    (hs : (cb.board r c).piece.side = Side.Black)
    (hstart : (cb.board r c).piece.has_moved = false → r = 6) :
    cb.calc_pawn_moves r c = some
      (push_single
        ((decide (c > 0) && decide (r > 0)) &&
          (decide ((cb.board (r - 1) (c - 1)).piece.rank ≠ Rank.Empty) &&
            decide ((cb.board (r - 1) (c - 1)).piece.side = Side.White)))
        (Target.mk Marker.Attack (r - 1) (c - 1))
      (push_single
        ((decide (c < 7) && decide (r > 0)) &&
          (decide ((cb.board (r - 1) (c + 1)).piece.rank ≠ Rank.Empty) &&
            decide ((cb.board (r - 1) (c + 1)).piece.side = Side.White)))
        (Target.mk Marker.Attack (r - 1) (c + 1))
      (push_single
        ((!(cb.board r c).piece.has_moved) &&
          decide ((cb.board (r - 2) c).piece.rank = Rank.Empty))
        (Target.mk Marker.Move (r - 2) c)
      (push_single
        (decide (r > 0) && decide ((cb.board (r - 1) c).piece.rank = Rank.Empty))
        (Target.mk Marker.Move (r - 1) c) [])))) := by
  have hr := h
  unfold inRange at hr
  have hne : ¬ (Side.Black = Side.White) := by decide
  simp only [Chessboard.calc_pawn_moves, cell_eq_some cb h, Option.some_bind, hs, hne, if_false]
  rw [probe_eq cb _ (r - 1) c _ (by simp only [decide_eq_true_eq, inRange]; omega)]
  simp only [Option.some_bind]
  rw [probe_eq cb _ (r - 2) c _ (by
    intro hg
    simp only [Bool.not_eq_true'] at hg
    have := hstart hg
    unfold inRange; omega)]
  simp only [Option.some_bind]
  rw [probe_eq cb _ (r - 1) (c + 1) _ (by
    simp only [Bool.and_eq_true, decide_eq_true_eq, inRange]; omega)]
  simp only [Option.some_bind]
  rw [probe_eq cb _ (r - 1) (c - 1) _ (by
    simp only [Bool.and_eq_true, decide_eq_true_eq, inRange]; omega)]
  simp only [Option.some_bind]

theorem side_ne_white_iff (s : Side) : s ≠ Side.White ↔ s = Side.Black := by
  cases s <;> simp

theorem side_ne_black_iff (s : Side) : s ≠ Side.Black ↔ s = Side.White := by
  cases s <;> simp

/-- C6: with every unmoved pawn on its start row, a Pawn on a board square is offered
the Move target one row forward in its column iff that square is on the board and
empty, and the Attack target on each of the two diagonal-forward squares iff that
square is on the board and holds a piece of the other side; every offered target lies
strictly forward of the pawn's row. -/
theorem C6_pawn_steps (cb : Chessboard) (r c : Int) (hstart : PawnsOnStartRows cb)
    (h : inRange r c) (hb : (cb.board r c).type = CellType.Board)
    (hk : (cb.board r c).piece.rank = Rank.Pawn) :
    ∃ paths : Paths, cb.valid_paths r c = some paths ∧
      (Offered paths (Target.mk Marker.Move (pawnForward (cb.board r c).piece.side r) c) ↔
        (inRange (pawnForward (cb.board r c).piece.side r) c ∧
          (cb.board (pawnForward (cb.board r c).piece.side r) c).piece.rank = Rank.Empty)) ∧
      (∀ dc : Int, dc = 1 ∨ dc = -1 →
        (Offered paths
            (Target.mk Marker.Attack (pawnForward (cb.board r c).piece.side r) (c + dc)) ↔
          (inRange (pawnForward (cb.board r c).piece.side r) (c + dc) ∧
            (cb.board (pawnForward (cb.board r c).piece.side r) (c + dc)).piece.rank ≠ Rank.Empty ∧
            (cb.board (pawnForward (cb.board r c).piece.side r) (c + dc)).piece.side ≠
              (cb.board r c).piece.side))) ∧
      (∀ t : Target, Offered paths t →
        ((cb.board r c).piece.side = Side.White → r < t.row) ∧
          ((cb.board r c).piece.side = Side.Black → t.row < r)) := by
  have hr := h
  unfold inRange at hr
  rw [valid_paths_eq_calc cb h hb (by rw [hk]; decide), calc_valid_paths_pawn cb h hk]
  have hst := hstart r c h hk
  have hMA : ¬ (Marker.Move = Marker.Attack) := by decide
  have hAM : ¬ (Marker.Attack = Marker.Move) := by decide
  have e1 : ¬ (r + 1 = r + 2) := by omega
  have e2 : ¬ (r - 1 = r - 2) := by omega
  have e3 : ¬ (c = c - 1) := by omega
  have e4 : ¬ (c = c + 1) := by omega
  have e5 : ¬ (c + 1 = c - 1) := by omega
  have e6 : ¬ (c - 1 = c + 1) := by omega
  have e7 : ¬ (c + -1 = c + 1) := by omega
  have e8 : ¬ (c + 1 = c + -1) := by omega
  have e9 : c + -1 = c - 1 := by omega
  cases hs : (cb.board r c).piece.side with
  | White =>
    rw [calc_pawn_moves_white cb h hs (fun hm => (hst hm).1 hs)]
    refine ⟨_, rfl, ?_, ?_, ?_⟩
    · simp only [offered_push_single, offered_nil, false_or, Target.mk.injEq, pawnForward,
        if_true, Bool.and_eq_true, decide_eq_true_eq, inRange, hMA, e1, e3, e4, false_and,
        and_false, or_false, and_true, true_and]
      constructor
      · rintro ⟨a, b⟩
        exact ⟨by omega, b⟩
      · rintro ⟨a, b⟩
        exact ⟨by omega, b⟩
    · intro dc hdc
      rcases hdc with hdc | hdc <;> subst hdc
      · simp only [offered_push_single, offered_nil, false_or, Target.mk.injEq, pawnForward,
          if_true, Bool.and_eq_true, decide_eq_true_eq, inRange, hAM, e1, e3, e4, e5, e6,
          false_and, and_false, or_false, and_true, true_and, false_or, side_ne_white_iff]
        constructor
        · rintro ⟨a, b⟩
          exact ⟨by omega, b⟩
        · rintro ⟨a, b⟩
          exact ⟨by omega, b⟩
      · simp only [offered_push_single, offered_nil, false_or, Target.mk.injEq, pawnForward,
          if_true, Bool.and_eq_true, decide_eq_true_eq, inRange, hAM, e1, e3, e4, e5, e6, e7,
          e8, e9, false_and, and_false, or_false, and_true, true_and, false_or,
          side_ne_white_iff]
        constructor
        · rintro ⟨a, b⟩
          exact ⟨by omega, b⟩
        · rintro ⟨a, b⟩
          exact ⟨by omega, b⟩
    · intro t
      simp only [offered_push_single, offered_nil, false_or]
      rintro (((⟨_, ht⟩ | ⟨_, ht⟩) | ⟨_, ht⟩) | ⟨_, ht⟩) <;> subst ht <;>
        exact ⟨fun _ => by simp only []; omega, fun hh => absurd hh (by decide)⟩
  | Black =>
    have hne : ¬ (Side.Black = Side.White) := by decide
    rw [calc_pawn_moves_black cb h hs (fun hm => (hst hm).2 hs)]
    refine ⟨_, rfl, ?_, ?_, ?_⟩
    · simp only [offered_push_single, offered_nil, false_or, Target.mk.injEq, pawnForward,
        hne, if_false, Bool.and_eq_true, decide_eq_true_eq, inRange, hMA, e2, e3, e4, false_and,
        and_false, or_false, and_true, true_and]
      constructor
      · rintro ⟨a, b⟩
        exact ⟨by omega, b⟩
      · rintro ⟨a, b⟩
        exact ⟨by omega, b⟩
    · intro dc hdc
      rcases hdc with hdc | hdc <;> subst hdc
      · simp only [offered_push_single, offered_nil, false_or, Target.mk.injEq, pawnForward,
          hne, if_false, Bool.and_eq_true, decide_eq_true_eq, inRange, hAM, e2, e3, e4, e5, e6,
          false_and, and_false, or_false, and_true, true_and, false_or, side_ne_black_iff]
        constructor
        · rintro ⟨a, b⟩
          exact ⟨by omega, b⟩
        · rintro ⟨a, b⟩
          exact ⟨by omega, b⟩
      · simp only [offered_push_single, offered_nil, false_or, Target.mk.injEq, pawnForward,
          hne, if_false, Bool.and_eq_true, decide_eq_true_eq, inRange, hAM, e2, e3, e4, e5, e6,
          e7, e8, e9, false_and, and_false, or_false, and_true, true_and, false_or,
          side_ne_black_iff]
        constructor
        · rintro ⟨a, b⟩
          exact ⟨by omega, b⟩
        · rintro ⟨a, b⟩
          exact ⟨by omega, b⟩
    · intro t
      simp only [offered_push_single, offered_nil, false_or]
      rintro (((⟨_, ht⟩ | ⟨_, ht⟩) | ⟨_, ht⟩) | ⟨_, ht⟩) <;> subst ht <;>
        exact ⟨fun hh => absurd hh (by decide), fun _ => by simp only []; omega⟩

theorem pawnsOnStartRows_empty : PawnsOnStartRows emptyBoard := by
  intro r c _ hp
  simp [emptyBoard, emptyCell] at hp

theorem pawnsOnStartRows_place (cb : Chessboard) (r0 c0 : Int) (p : Piece)
    (hcb : PawnsOnStartRows cb)
    (hp : p.rank = Rank.Pawn → p.has_moved = false →
      (p.side = Side.White → r0 = 1) ∧ (p.side = Side.Black → r0 = 6)) :
    PawnsOnStartRows (cb.place r0 c0 p) := by
  intro r c hin
  by_cases h : r = r0 ∧ c = c0
  · obtain ⟨h1, h2⟩ := h
    subst h1; subst h2
    rw [place_board_self]
    exact hp
  · rw [place_board_other cb r0 c0 p r c h]
    exact hcb r c hin

theorem pawnBoard_start : PawnsOnStartRows pawnBoard := by
  unfold pawnBoard
  refine pawnsOnStartRows_place _ _ _ _ (pawnsOnStartRows_place _ _ _ _
    (pawnsOnStartRows_place _ _ _ _ pawnsOnStartRows_empty ?_) ?_) ?_ <;> decide

theorem C6_pawn_steps_witness :
    ∃ paths : Paths, pawnBoard.valid_paths 1 2 = some paths ∧
      (Offered paths (Target.mk Marker.Move (pawnForward (pawnBoard.board 1 2).piece.side 1) 2) ↔
        (inRange (pawnForward (pawnBoard.board 1 2).piece.side 1) 2 ∧
          (pawnBoard.board (pawnForward (pawnBoard.board 1 2).piece.side 1) 2).piece.rank =
            Rank.Empty)) ∧
      (∀ dc : Int, dc = 1 ∨ dc = -1 →
        (Offered paths
            (Target.mk Marker.Attack (pawnForward (pawnBoard.board 1 2).piece.side 1) (2 + dc)) ↔
          (inRange (pawnForward (pawnBoard.board 1 2).piece.side 1) (2 + dc) ∧
            (pawnBoard.board (pawnForward (pawnBoard.board 1 2).piece.side 1) (2 + dc)).piece.rank ≠
              Rank.Empty ∧
            (pawnBoard.board (pawnForward (pawnBoard.board 1 2).piece.side 1) (2 + dc)).piece.side ≠
              (pawnBoard.board 1 2).piece.side))) ∧
      (∀ t : Target, Offered paths t →
        ((pawnBoard.board 1 2).piece.side = Side.White → 1 < t.row) ∧
          ((pawnBoard.board 1 2).piece.side = Side.Black → t.row < 1)) :=
  C6_pawn_steps pawnBoard 1 2 pawnBoard_start (by decide) (by decide) (by decide)

/-- C7, failing input: the Black pawn on (6,0) has never moved, the square right in front
of it, (5,0), is occupied, and (4,0) is empty; the generator still offers the two-square
Move target (4,0). -/
theorem C7_black_two_step_over_piece :
    (blockedPawnBoard.board 6 0).piece.rank = Rank.Pawn ∧
    (blockedPawnBoard.board 6 0).piece.side = Side.Black ∧
    (blockedPawnBoard.board 6 0).piece.has_moved = false ∧
    (blockedPawnBoard.board 5 0).piece.rank ≠ Rank.Empty ∧
    (blockedPawnBoard.board 4 0).piece.rank = Rank.Empty ∧
    blockedPawnBoard.valid_paths 6 0 = some [[Target.mk Marker.Move 4 0]] := by
  decide

/-! ## Every offered target fits the occupancy -/

theorem offer_valid (cb : Chessboard) (s : Side) (r c : Int) (t : Target)
    (h : offer cb s r c = some t) : ValidTarget cb s t := by
  unfold offer at h
  by_cases hin : inRange r c
  · rw [if_pos hin] at h
    by_cases he : (cb.board r c).piece.rank = Rank.Empty
    · rw [if_pos he] at h
      injection h with h
      subst h
      exact ⟨hin, fun _ => he, fun hk => Marker.noConfusion hk⟩
    · rw [if_neg he] at h
      by_cases hs : (cb.board r c).piece.side ≠ s
      · rw [if_pos hs] at h
        injection h with h
        subst h
        exact ⟨hin, fun hk => Marker.noConfusion hk, fun _ => ⟨he, hs⟩⟩
      · rw [if_neg hs] at h
        exact absurd h (by simp)
  · rw [if_neg hin] at h
    exact absurd h (by simp)

theorem singlePaths_offered (cb : Chessboard) (s : Side) (r c : Int) (ds : List (Int × Int))
    (t : Target) (h : Offered (singlePaths cb s r c ds) t) :
    ∃ d ∈ ds, offer cb s (r + d.1) (c + d.2) = some t := by
  obtain ⟨p, hp, ht⟩ := h
  simp only [singlePaths, List.mem_map, List.mem_filterMap] at hp
  obtain ⟨t0, ⟨d, hd, hoff⟩, hp⟩ := hp
  subst hp
  have : t = t0 := by simpa using ht
  subst this
  exact ⟨d, hd, hoff⟩

theorem singlePaths_valid (cb : Chessboard) (s : Side) (r c : Int) (ds : List (Int × Int))
    (t : Target) (h : Offered (singlePaths cb s r c ds) t) : ValidTarget cb s t := by
  obtain ⟨d, _, hoff⟩ := singlePaths_offered cb s r c ds t h
  exact offer_valid cb s _ _ t hoff

theorem isRun_valid (cb : Chessboard) (s : Side) (r c dr dc : Int) (run : Path)
    (h : IsRun cb s r c dr dc run) (t : Target) (ht : t ∈ run) : ValidTarget cb s t := by
  obtain ⟨n, hall, hend⟩ := h
  have hmoves : ∀ t : Target, t ∈ runMoves r c dr dc n → ValidTarget cb s t := by
    intro t ht
    simp only [runMoves, List.mem_map, List.mem_range] at ht
    obtain ⟨k, hk, hkt⟩ := ht
    subst hkt
    have := hall (k + 1) (by omega) (by omega)
    push_cast at this
    exact ⟨this.1, fun _ => this.2, fun hk => Marker.noConfusion hk⟩
  rcases hend with ⟨_, hrun⟩ | ⟨hin, he, hs, hrun⟩ | ⟨_, _, _, hrun⟩
  · subst hrun; exact hmoves t ht
  · subst hrun
    rcases List.mem_append.mp ht with h1 | h1
    · exact hmoves t h1
    · have : t = _ := List.mem_singleton.mp h1
      subst this
      exact ⟨hin, fun hk => Marker.noConfusion hk, fun _ => ⟨he, hs⟩⟩
  · subst hrun; exact hmoves t ht

theorem offered_append (a b : Paths) (t : Target) :
    Offered (a ++ b) t ↔ (Offered a t ∨ Offered b t) := by
  simp only [Offered, List.mem_append]
  constructor
  · rintro ⟨p, hp | hp, ht⟩
    · exact Or.inl ⟨p, hp, ht⟩
    · exact Or.inr ⟨p, hp, ht⟩
  · rintro (⟨p, hp, ht⟩ | ⟨p, hp, ht⟩)
    · exact ⟨p, Or.inl hp, ht⟩
    · exact ⟨p, Or.inr hp, ht⟩

theorem offered_nonEmptyRuns (runs : List Path) (t : Target)
    (h : Offered (nonEmptyRuns runs) t) : ∃ run ∈ runs, t ∈ run := by
  obtain ⟨p, hp, ht⟩ := h
  exact ⟨p, ((mem_nonEmptyRuns p runs).mp hp).1, ht⟩

theorem castle_valid (cb : Chessboard) {r c : Int} (h : inRange r c)
    (hk : (cb.board r c).piece.rank = Rank.Rook) (hapart : RooksApartFromKings cb)
    (ts : Path) (hts : CastleOutcome cb (cb.board r c).piece r c ts) (t : Target)
    (ht : t ∈ ts) : ValidTarget cb (cb.board r c).piece.side t := by
  have hr := h
  unfold inRange at hr
  rcases hts with ⟨hm, k, hk1, hk2, hk3⟩ | ⟨hm, _, k, hk1, hk2, hk3⟩ | ⟨_, hk3⟩
  · subst hk3
    have : t = _ := List.mem_singleton.mp ht
    subst this
    obtain ⟨a1, a2, _, a4⟩ := hk1
    have hne : k ≠ c - 1 := by
      intro hkc
      exact hapart r c k h (by unfold inRange; omega) hk hm (Or.inr hkc) hk2
    have hin : inRange r (k + 1) := by unfold inRange; omega
    exact ⟨hin, fun _ => a4 (k + 1) (by omega) (by omega), fun hh => Marker.noConfusion hh⟩
  · subst hk3
    have : t = _ := List.mem_singleton.mp ht
    subst this
    obtain ⟨a1, a2, _, a4⟩ := hk1
    have hne : k ≠ c + 1 := by
      intro hkc
      exact hapart r c k h (by unfold inRange; omega) hk hm (Or.inl hkc) hk2
    have hin : inRange r (k - 1) := by unfold inRange; omega
    exact ⟨hin, fun _ => a4 (k - 1) (by omega) (by omega), fun hh => Marker.noConfusion hh⟩
  · subst hk3
    exact absurd ht (by simp)

/-- The eight runs, as `calc_queen_moves` chains them. -/
theorem calc_queen_moves_eq (cb : Chessboard) {r c : Int} (h : inRange r c) :
    ∃ d1 up d2 left right d3 down d4 : Path,
      IsRun cb (cb.board r c).piece.side r c 1 1 d1 ∧
      IsRun cb (cb.board r c).piece.side r c 1 0 up ∧
      IsRun cb (cb.board r c).piece.side r c 1 (-1) d2 ∧
      IsRun cb (cb.board r c).piece.side r c 0 (-1) left ∧
      IsRun cb (cb.board r c).piece.side r c 0 1 right ∧
      IsRun cb (cb.board r c).piece.side r c (-1) 1 d3 ∧
      IsRun cb (cb.board r c).piece.side r c (-1) 0 down ∧
      IsRun cb (cb.board r c).piece.side r c (-1) (-1) d4 ∧
      cb.calc_queen_moves r c =
        some (nonEmptyRuns [d1, up, d2, left, right, d3, down, d4]) := by
  have hr := h
  unfold inRange at hr
  obtain ⟨d1, hd1, hd1r⟩ := scan_isRun_at cb (cb.board r c).piece.side
    (fun i j => decide (i < 8) && decide (j < 8)) h 1 1 (by unfold IsDir; decide)
    (by intro k hk; rw [Bool.eq_iff_iff]
        simp only [Bool.and_eq_true, decide_eq_true_eq, inRange]; omega)
    (r + 1) (c + 1) (by ring) (by ring)
  obtain ⟨d2, hd2, hd2r⟩ := scan_isRun_at cb (cb.board r c).piece.side
    (fun i j => decide (i < 8) && decide (j ≥ 0)) h 1 (-1) (by unfold IsDir; decide)
    (by intro k hk; rw [Bool.eq_iff_iff]
        simp only [Bool.and_eq_true, decide_eq_true_eq, inRange]; omega)
    (r + 1) (c - 1) (by ring) (by ring)
  obtain ⟨d3, hd3, hd3r⟩ := scan_isRun_at cb (cb.board r c).piece.side
    (fun i j => decide (i ≥ 0) && decide (j < 8)) h (-1) 1 (by unfold IsDir; decide)
    (by intro k hk; rw [Bool.eq_iff_iff]
        simp only [Bool.and_eq_true, decide_eq_true_eq, inRange]; omega)
    (r - 1) (c + 1) (by ring) (by ring)
  obtain ⟨d4, hd4, hd4r⟩ := scan_isRun_at cb (cb.board r c).piece.side
    (fun i j => decide (i ≥ 0) && decide (j ≥ 0)) h (-1) (-1) (by unfold IsDir; decide)
    (by intro k hk; rw [Bool.eq_iff_iff]
        simp only [Bool.and_eq_true, decide_eq_true_eq, inRange]; omega)
    (r - 1) (c - 1) (by ring) (by ring)
  obtain ⟨up, hup, hupr⟩ := scan_isRun_at cb (cb.board r c).piece.side
    (fun i _ => decide (i < 8)) h 1 0 (by unfold IsDir; decide)
    (by intro k hk; rw [Bool.eq_iff_iff]; simp only [decide_eq_true_eq, inRange]; omega)
    (r + 1) c (by ring) (by ring)
  obtain ⟨down, hdown, hdownr⟩ := scan_isRun_at cb (cb.board r c).piece.side
    (fun i _ => decide (i ≥ 0)) h (-1) 0 (by unfold IsDir; decide)
    (by intro k hk; rw [Bool.eq_iff_iff]; simp only [decide_eq_true_eq, inRange]; omega)
    (r - 1) c (by ring) (by ring)
  obtain ⟨right, hright, hrightr⟩ := scan_isRun_at cb (cb.board r c).piece.side
    (fun _ i => decide (i < 8)) h 0 1 (by unfold IsDir; decide)
    (by intro k hk; rw [Bool.eq_iff_iff]; simp only [decide_eq_true_eq, inRange]; omega)
    r (c + 1) (by ring) (by ring)
  obtain ⟨left, hleft, hleftr⟩ := scan_isRun_at cb (cb.board r c).piece.side
    (fun _ i => decide (i ≥ 0)) h 0 (-1) (by unfold IsDir; decide)
    (by intro k hk; rw [Bool.eq_iff_iff]; simp only [decide_eq_true_eq, inRange]; omega)
    r (c - 1) (by ring) (by ring)
  refine ⟨d1, up, d2, left, right, d3, down, d4, hd1r, hupr, hd2r, hleftr, hrightr, hd3r,
    hdownr, hd4r, ?_⟩
  simp only [Chessboard.calc_queen_moves, cell_eq_some cb h, Option.some_bind, hd1, flush_eq,
    hd2, hd3, hd4, hup, hdown, hright, hleft]
  simp only [nonEmptyRuns_cons_cons, List.nil_append, List.append_assoc]

theorem pawn_valid (cb : Chessboard) {r c : Int} (hstart : PawnsOnStartRows cb)
    (h : inRange r c) (hk : (cb.board r c).piece.rank = Rank.Pawn) :
    ∃ paths : Paths, cb.calc_pawn_moves r c = some paths ∧
      ∀ t : Target, Offered paths t → ValidTarget cb (cb.board r c).piece.side t := by
  have hr := h
  unfold inRange at hr
  have hst := hstart r c h hk
  cases hs : (cb.board r c).piece.side with
  | White =>
    rw [calc_pawn_moves_white cb h hs (fun hm => (hst hm).1 hs)]
    refine ⟨_, rfl, ?_⟩
    intro t
    simp only [offered_push_single, offered_nil, false_or, Bool.and_eq_true, decide_eq_true_eq,
      Bool.not_eq_true']
    rintro (((⟨⟨a1, a2⟩, ht⟩ | ⟨⟨⟨⟨a1, _⟩, a2⟩, a3⟩, ht⟩) | ⟨⟨⟨a1, a2⟩, a3, a4⟩, ht⟩) |
      ⟨⟨⟨a1, a2⟩, a3, a4⟩, ht⟩) <;> subst ht
    · exact ⟨by unfold inRange; simp only []; omega, fun _ => a2, fun hh => Marker.noConfusion hh⟩
    · have := (hst a2).1 hs
      exact ⟨by unfold inRange; simp only []; omega, fun _ => a3, fun hh => Marker.noConfusion hh⟩
    · exact ⟨by unfold inRange; simp only []; omega, fun hh => Marker.noConfusion hh,
        fun _ => ⟨a3, by rw [a4]; decide⟩⟩
    · exact ⟨by unfold inRange; simp only []; omega, fun hh => Marker.noConfusion hh,
        fun _ => ⟨a3, by rw [a4]; decide⟩⟩
  | Black =>
    rw [calc_pawn_moves_black cb h hs (fun hm => (hst hm).2 hs)]
    refine ⟨_, rfl, ?_⟩
    intro t
    simp only [offered_push_single, offered_nil, false_or, Bool.and_eq_true, decide_eq_true_eq,
      Bool.not_eq_true']
    rintro (((⟨⟨a1, a2⟩, ht⟩ | ⟨⟨a2, a3⟩, ht⟩) | ⟨⟨⟨a1, a2⟩, a3, a4⟩, ht⟩) |
      ⟨⟨⟨a1, a2⟩, a3, a4⟩, ht⟩) <;> subst ht
    · exact ⟨by unfold inRange; simp only []; omega, fun _ => a2, fun hh => Marker.noConfusion hh⟩
    · have := (hst a2).2 hs
      exact ⟨by unfold inRange; simp only []; omega, fun _ => a3, fun hh => Marker.noConfusion hh⟩
    · exact ⟨by unfold inRange; simp only []; omega, fun hh => Marker.noConfusion hh,
        fun _ => ⟨a3, by rw [a4]; decide⟩⟩
    · exact ⟨by unfold inRange; simp only []; omega, fun hh => Marker.noConfusion hh,
        fun _ => ⟨a3, by rw [a4]; decide⟩⟩

theorem runs_valid (cb : Chessboard) (s : Side) (runs : List Path)
    (h : ∀ run ∈ runs, ∀ t ∈ run, ValidTarget cb s t) (t : Target)
    (ht : Offered (nonEmptyRuns runs) t) : ValidTarget cb s t := by
  obtain ⟨run, hrun, htr⟩ := offered_nonEmptyRuns runs t ht
  exact h run hrun t htr

/-- With every read on the board, `valid_paths` returns, and each target it offers fits
the occupancy. -/
theorem valid_paths_valid (cb : Chessboard) {r c : Int} (hstart : PawnsOnStartRows cb)
    (hapart : RooksApartFromKings cb) (h : inRange r c) :
    ∃ paths : Paths, cb.valid_paths r c = some paths ∧
      ((cb.board r c).piece.rank = Rank.Empty → paths = []) ∧
      ∀ t : Target, Offered paths t → ValidTarget cb (cb.board r c).piece.side t := by
  by_cases hbe : (cb.board r c).type ≠ CellType.Board ∨ (cb.board r c).piece.rank = Rank.Empty
  · refine ⟨[], by simp [Chessboard.valid_paths, cell_eq_some cb h, hbe], fun _ => rfl, ?_⟩
    intro t ht
    exact absurd ht (offered_nil t)
  · have hb : (cb.board r c).type = CellType.Board := by
      by_contra hne; exact hbe (Or.inl hne)
    have he : (cb.board r c).piece.rank ≠ Rank.Empty := fun hne => hbe (Or.inr hne)
    rw [valid_paths_eq_calc cb h hb he]
    cases hrank : (cb.board r c).piece.rank with
    | Empty => exact absurd hrank he
    | Rook =>
      obtain ⟨up, down, right, left, ts, h1, h2, h3, h4, h5, h6⟩ := calc_rook_moves_eq cb h
      rw [calc_valid_paths_rook cb h hrank, h6]
      refine ⟨_, rfl, fun hh => absurd hh (by decide), ?_⟩
      intro t ht
      rcases (offered_append _ _ t).mp ht with ht | ht
      · refine runs_valid cb _ _ ?_ t ht
        intro run hrun
        simp only [List.mem_cons, List.mem_singleton, List.not_mem_nil, or_false] at hrun
        rcases hrun with hh | hh | hh | hh <;> subst hh
        · exact isRun_valid cb _ r c _ _ _ h1
        · exact isRun_valid cb _ r c _ _ _ h2
        · exact isRun_valid cb _ r c _ _ _ h3
        · exact isRun_valid cb _ r c _ _ _ h4
      · refine runs_valid cb _ _ ?_ t ht
        intro run hrun
        have : run = ts := by simpa using hrun
        subst this
        exact castle_valid cb h hrank hapart run h5
    | Knight =>
      simp only [Chessboard.calc_valid_paths, cell_eq_some cb h, Option.some_bind, hrank]
      rw [calc_knight_moves_eq cb h]
      exact ⟨_, rfl, fun hh => absurd hh (by decide), singlePaths_valid cb _ r c knightOffsets⟩
    | Bishop =>
      obtain ⟨d1, d2, d3, d4, h1, h2, h3, h4, h5⟩ := calc_bishop_moves_eq cb h
      rw [calc_valid_paths_bishop cb h hrank, h5]
      refine ⟨_, rfl, fun hh => absurd hh (by decide), ?_⟩
      intro t ht
      refine runs_valid cb _ _ ?_ t ht
      intro run hrun
      simp only [List.mem_cons, List.mem_singleton, List.not_mem_nil, or_false] at hrun
      rcases hrun with hh | hh | hh | hh <;> subst hh
      · exact isRun_valid cb _ r c _ _ _ h1
      · exact isRun_valid cb _ r c _ _ _ h2
      · exact isRun_valid cb _ r c _ _ _ h3
      · exact isRun_valid cb _ r c _ _ _ h4
    | King =>
      simp only [Chessboard.calc_valid_paths, cell_eq_some cb h, Option.some_bind, hrank,
        Chessboard.calc_king_moves]
      by_cases hc : (cb.board r c).piece.is_checked = true
      · refine ⟨[], by simp [hc], fun hh => absurd hh (by decide), ?_⟩
        intro t ht
        exact absurd ht (offered_nil t)
      · refine ⟨singlePaths cb (cb.board r c).piece.side r c kingOffsets, ?_,
          fun hh => absurd hh (by decide), singlePaths_valid cb _ r c kingOffsets⟩
        simp only [hc, if_false]
        rw [king_squares_eq, king_loop_eq]
        simp
    | Queen =>
      obtain ⟨d1, up, d2, left, right, d3, down, d4, h1, h2, h3, h4, h5, h6, h7, h8, h9⟩ :=
        calc_queen_moves_eq cb h
      rw [calc_valid_paths_queen cb h hrank, h9]
      refine ⟨_, rfl, fun hh => absurd hh (by decide), ?_⟩
      intro t ht
      refine runs_valid cb _ _ ?_ t ht
      intro run hrun
      simp only [List.mem_cons, List.mem_singleton, List.not_mem_nil, or_false] at hrun
      rcases hrun with hh | hh | hh | hh | hh | hh | hh | hh <;> subst hh
      · exact isRun_valid cb _ r c _ _ _ h1
      · exact isRun_valid cb _ r c _ _ _ h2
      · exact isRun_valid cb _ r c _ _ _ h3
      · exact isRun_valid cb _ r c _ _ _ h4
      · exact isRun_valid cb _ r c _ _ _ h5
      · exact isRun_valid cb _ r c _ _ _ h6
      · exact isRun_valid cb _ r c _ _ _ h7
      · exact isRun_valid cb _ r c _ _ _ h8
    | Pawn =>
      obtain ⟨paths, hp, hv⟩ := pawn_valid cb hstart h hrank
      rw [calc_valid_paths_pawn cb h hrank, hp]
      exact ⟨paths, rfl, fun hh => absurd hh (by decide), hv⟩

theorem castleBoard_rank (r c : Int) :
    (castleBoard.board r c).piece.rank =
      if r = 0 ∧ c = 3 then Rank.King else if r = 0 ∧ c = 0 then Rank.Rook else Rank.Empty := by
  unfold castleBoard Chessboard.place emptyBoard emptyCell unmovedRook unmovedKing
  by_cases h1 : r = 0 ∧ c = 3
  · simp [h1]
  · by_cases h2 : r = 0 ∧ c = 0
    · simp [h1, h2]
    · simp [h1, h2]

theorem castleBoard_start : PawnsOnStartRows castleBoard := by
  intro r c _ hp
  rw [castleBoard_rank] at hp
  split_ifs at hp

theorem castleBoard_apart : RooksApartFromKings castleBoard := by
  intro r c k _ _ hrook _ hadj hking
  have hk := hking.1
  rw [castleBoard_rank] at hrook hk
  split_ifs at hrook with h1 h2
  split_ifs at hk with h3
  omega

/-- C10 (amended): with every unmoved pawn on its start row and no unmoved Rook standing
right next to an unmoved King of its own side, `valid_paths` of an on-board square
returns, and every target it offers names a square with row and column in 0..7, a Move
target names an empty square and an Attack target a square held by the side opposite to
the moving piece; hence no square is offered both as Move and as Attack, no square
holding an own piece is offered, and the moving piece's own square is never offered. -/
theorem C10_targets_fit_occupancy (cb : Chessboard) (r c : Int)
    (hstart : PawnsOnStartRows cb) (hapart : RooksApartFromKings cb) (h : inRange r c) :
    ∃ paths : Paths, cb.valid_paths r c = some paths ∧
      (∀ t : Target, Offered paths t → ValidTarget cb (cb.board r c).piece.side t) ∧
      (∀ t1 t2 : Target, Offered paths t1 → Offered paths t2 →
        t1.row = t2.row → t1.col = t2.col → t1.kind = t2.kind) ∧
      (∀ t : Target, Offered paths t →
        ¬ ((cb.board t.row t.col).piece.rank ≠ Rank.Empty ∧
          (cb.board t.row t.col).piece.side = (cb.board r c).piece.side)) ∧
      (∀ t : Target, Offered paths t → ¬ (t.row = r ∧ t.col = c)) := by
  obtain ⟨paths, hp, hempty, hv⟩ := valid_paths_valid cb hstart hapart h
  have hown : ∀ t : Target, Offered paths t →
      ¬ ((cb.board t.row t.col).piece.rank ≠ Rank.Empty ∧
        (cb.board t.row t.col).piece.side = (cb.board r c).piece.side) := by
    intro t ht ⟨hne, hside⟩
    obtain ⟨_, hm, ha⟩ := hv t ht
    cases hkind : t.kind with
    | Move => exact hne (hm hkind)
    | Attack => exact (ha hkind).2 hside
  refine ⟨paths, hp, hv, ?_, hown, ?_⟩
  · intro t1 t2 h1 h2 hrow hcol
    obtain ⟨_, hm1, ha1⟩ := hv t1 h1
    obtain ⟨_, hm2, ha2⟩ := hv t2 h2
    rw [hrow, hcol] at hm1 ha1
    cases hk1 : t1.kind with
    | Move =>
      cases hk2 : t2.kind with
      | Move => rfl
      | Attack => exact absurd (hm1 hk1) (ha2 hk2).1
    | Attack =>
      cases hk2 : t2.kind with
      | Move => exact absurd (hm2 hk2) (ha1 hk1).1
      | Attack => rfl
  · intro t ht ⟨hrow, hcol⟩
    by_cases he : (cb.board r c).piece.rank = Rank.Empty
    · rw [hempty he] at ht
      exact offered_nil t ht
    · apply hown t ht
      rw [hrow, hcol]
      exact ⟨he, rfl⟩

theorem C10_targets_fit_occupancy_witness :
    ∃ paths : Paths, castleBoard.valid_paths 0 0 = some paths ∧
      (∀ t : Target, Offered paths t → ValidTarget castleBoard (castleBoard.board 0 0).piece.side t) ∧
      (∀ t1 t2 : Target, Offered paths t1 → Offered paths t2 →
        t1.row = t2.row → t1.col = t2.col → t1.kind = t2.kind) ∧
      (∀ t : Target, Offered paths t →
        ¬ ((castleBoard.board t.row t.col).piece.rank ≠ Rank.Empty ∧
          (castleBoard.board t.row t.col).piece.side = (castleBoard.board 0 0).piece.side)) ∧
      (∀ t : Target, Offered paths t → ¬ (t.row = 0 ∧ t.col = 0)) :=
  C10_targets_fit_occupancy castleBoard 0 0 castleBoard_start castleBoard_apart (by decide)

theorem rookKingBoard_rank (r c : Int) :
    (rookKingBoard.board r c).piece.rank =
      if r = 0 ∧ c = 3 then Rank.King else if r = 0 ∧ c = 4 then Rank.Rook else Rank.Empty := by
  unfold rookKingBoard Chessboard.place emptyBoard emptyCell unmovedRook unmovedKing
  by_cases h1 : r = 0 ∧ c = 3
  · simp [h1]
  · by_cases h2 : r = 0 ∧ c = 4
    · simp [h1, h2]
    · simp [h1, h2]

theorem rookKingBoard_start : PawnsOnStartRows rookKingBoard := by
  intro r c _ hp
  rw [rookKingBoard_rank] at hp
  split_ifs at hp

/-- C10, as stated, fails: the board has no pawn at all, the White rook on (0,4) and the
White king next to it on (0,3) have never moved, and `valid_paths(0,4)` offers the Move
target (0,4), the rook's own, occupied square. -/
theorem C10_counterexample :
    PawnsOnStartRows rookKingBoard ∧
    inRange 0 4 ∧
    (rookKingBoard.board 0 4).piece.rank = Rank.Rook ∧
    rookKingBoard.valid_paths 0 4 =
      some [[⟨Marker.Move, 1, 4⟩, ⟨Marker.Move, 2, 4⟩, ⟨Marker.Move, 3, 4⟩, ⟨Marker.Move, 4, 4⟩,
              ⟨Marker.Move, 5, 4⟩, ⟨Marker.Move, 6, 4⟩, ⟨Marker.Move, 7, 4⟩],
            [⟨Marker.Move, 0, 5⟩, ⟨Marker.Move, 0, 6⟩, ⟨Marker.Move, 0, 7⟩],
            [⟨Marker.Move, 0, 4⟩]] ∧
    Offered
      [[⟨Marker.Move, 1, 4⟩, ⟨Marker.Move, 2, 4⟩, ⟨Marker.Move, 3, 4⟩, ⟨Marker.Move, 4, 4⟩,
          ⟨Marker.Move, 5, 4⟩, ⟨Marker.Move, 6, 4⟩, ⟨Marker.Move, 7, 4⟩],
        [⟨Marker.Move, 0, 5⟩, ⟨Marker.Move, 0, 6⟩, ⟨Marker.Move, 0, 7⟩],
        [⟨Marker.Move, 0, 4⟩]] (Target.mk Marker.Move 0 4) ∧
    (rookKingBoard.board 0 4).piece.rank ≠ Rank.Empty := by
  refine ⟨rookKingBoard_start, by decide, by decide, by decide, ?_, by decide⟩
  exact ⟨[⟨Marker.Move, 0, 4⟩], by simp, by simp⟩

/-! ## Fuel -/

/-- A loop that has returned returns the same with more fuel: the bound on iterations
never cuts a run short. -/
theorem scan_fuel_mono (cb : Chessboard) (opp : Side) (cond : Int → Int → Bool) (di dj : Int) :
    ∀ (fuel : Nat) (i j : Int) (acc run : Path),
      cb.scan opp cond di dj fuel i j acc = some run →
      cb.scan opp cond di dj (fuel + 1) i j acc = some run := by
  intro fuel
  induction fuel with
  | zero => intro i j acc run h; simp [Chessboard.scan] at h
  | succ fuel ih =>
    intro i j acc run h
    rw [Chessboard.scan] at h ⊢
    by_cases hc : cond i j = true
    · rw [if_pos hc] at h ⊢
      cases hcell : cb.cell i j with
      | none => rw [hcell] at h; simp at h
      | some sq =>
        rw [hcell] at h
        simp only [Option.some_bind] at h ⊢
        by_cases he : sq.piece.rank = Rank.Empty
        · rw [if_pos he] at h ⊢
          exact ih _ _ _ _ h
        · rw [if_neg he] at h ⊢
          exact h
    · rw [if_neg hc] at h ⊢
      exact h

/-! ## Empty squares -/

/-- C11: on every board state, `valid_paths` of a board square that holds no piece is
the empty list of paths. -/
theorem C11_empty_square_no_paths (cb : Chessboard) (r c : Int) (h : inRange r c)
    (he : (cb.board r c).piece.rank = Rank.Empty) :
    cb.valid_paths r c = some [] := by
  simp [Chessboard.valid_paths, cell_eq_some cb h, he]

theorem C11_empty_square_no_paths_witness : knightBoard.valid_paths 4 4 = some [] :=
  C11_empty_square_no_paths knightBoard 4 4 (by decide) (by decide)


/-! ## Writes to the board -/

theorem place_type (cb : Chessboard) (r c : Int) (p : Piece) (i j : Int) :
    ((cb.place r c p).board i j).type = (cb.board i j).type := by
  unfold Chessboard.place
  by_cases h : i = r ∧ j = c <;> simp [h]

theorem place_row (cb : Chessboard) (r c : Int) (p : Piece) (i j : Int) :
    ((cb.place r c p).board i j).row = (cb.board i j).row := by
  unfold Chessboard.place
  by_cases h : i = r ∧ j = c <;> simp [h]

theorem place_col (cb : Chessboard) (r c : Int) (p : Piece) (i j : Int) :
    ((cb.place r c p).board i j).col = (cb.board i j).col := by
  unfold Chessboard.place
  by_cases h : i = r ∧ j = c <;> simp [h]

theorem place_piece_self (cb : Chessboard) (r c : Int) (p : Piece) :
    ((cb.place r c p).board r c).piece = p := by
  simp [Chessboard.place]

theorem place_fields (cb : Chessboard) (r c : Int) (p : Piece) :
    (cb.place r c p).selected = cb.selected ∧
    (cb.place r c p).this_side = cb.this_side ∧
    (cb.place r c p).white_capture_index = cb.white_capture_index ∧
    (cb.place r c p).black_capture_index = cb.black_capture_index ∧
    (cb.place r c p).white_capture = cb.white_capture ∧
    (cb.place r c p).black_capture = cb.black_capture :=
  ⟨rfl, rfl, rfl, rfl, rfl, rfl⟩

theorem wellFormed_place (cb : Chessboard) (r c : Int) (p : Piece) (h : WellFormed cb) :
    WellFormed (cb.place r c p) := by
  refine ⟨?_, h.2.1, h.2.2⟩
  intro i j hij
  rw [place_type, place_row, place_col]
  exact h.1 i j hij

theorem wellFormed_modify_piece (cb : Chessboard) (r c : Int) (f : Piece → Piece)
    (h : WellFormed cb) : WellFormed (cb.modify_piece r c f) :=
  wellFormed_place cb r c _ h

/-! ## The capture block -/

/-- What the capture block leaves behind when it returns. -/
theorem capture_at_spec (cb st : Chessboard) (row col : Int)
    (h : cb.capture_at row col = some st) :
    st.selected = cb.selected ∧ st.this_side = cb.this_side ∧
    (∀ r c : Int, ¬ (r = row ∧ c = col) → st.board r c = cb.board r c) ∧
    (∀ r c : Int, (st.board r c).type = (cb.board r c).type ∧
      (st.board r c).row = (cb.board r c).row ∧ (st.board r c).col = (cb.board r c).col) ∧
    (st.board row col).has_piece = false ∧
    ((cb.board row col).has_piece = false → st = cb) ∧
    ((cb.board row col).has_piece = true →
      0 ≤ cb.cursor cb.this_side ∧ cb.cursor cb.this_side < 16 ∧
      st.cursor cb.this_side = cb.cursor cb.this_side + 1 ∧
      st.cursor (opponentOf cb.this_side) = cb.cursor (opponentOf cb.this_side) ∧
      st.holding (opponentOf cb.this_side) = cb.holding (opponentOf cb.this_side) ∧
      (st.holding cb.this_side (cb.cursor cb.this_side)).piece = (cb.board row col).piece ∧
      (∀ i : Int, i ≠ cb.cursor cb.this_side →
        st.holding cb.this_side i = cb.holding cb.this_side i)) := by
  unfold Chessboard.capture_at at h
  by_cases hp : (cb.board row col).has_piece = true
  · rw [if_pos hp] at h
    cases hs : cb.this_side with
    | White =>
      rw [hs] at h
      simp only [if_true, Chessboard.push_white_capture] at h
      by_cases hi : 0 ≤ cb.white_capture_index ∧ cb.white_capture_index < 16
      · rw [if_pos hi, Option.some_bind] at h
        injection h with h
        subst h
        refine ⟨rfl, hs, ?_, ?_, ?_, ?_, ?_⟩
        · intro r c hrc
          simp [Chessboard.modify_piece, Chessboard.place, hrc]
        · intro r c
          simp only [Chessboard.modify_piece, place_type, place_row, place_col, and_self]
        · simp [Chessboard.modify_piece, Chessboard.place, Cell.has_piece, Piece.is_empty,
            Piece.clear]
        · intro hn; rw [hp] at hn; exact absurd hn (by decide)
        · intro _
          simp [Chessboard.cursor, Chessboard.holding, opponentOf, Chessboard.modify_piece,
            Chessboard.place, hi.1, hi.2]
          intro i hne
          simp [hne]
      · rw [if_neg hi] at h
        simp at h
    | Black =>
      rw [hs] at h
      have hne : ¬ (Side.Black = Side.White) := by decide
      simp only [hne, if_false, Chessboard.push_black_capture] at h
      by_cases hi : 0 ≤ cb.black_capture_index ∧ cb.black_capture_index < 16
      · rw [if_pos hi, Option.some_bind] at h
        injection h with h
        subst h
        refine ⟨rfl, hs, ?_, ?_, ?_, ?_, ?_⟩
        · intro r c hrc
          simp [Chessboard.modify_piece, Chessboard.place, hrc]
        · intro r c
          simp only [Chessboard.modify_piece, place_type, place_row, place_col, and_self]
        · simp [Chessboard.modify_piece, Chessboard.place, Cell.has_piece, Piece.is_empty,
            Piece.clear]
        · intro hn; rw [hp] at hn; exact absurd hn (by decide)
        · intro _
          simp [Chessboard.cursor, Chessboard.holding, opponentOf, Chessboard.modify_piece,
            Chessboard.place, hi.1, hi.2]
          intro i hne
          simp [hne]
      · rw [if_neg hi] at h
        simp at h
  · rw [if_neg hp] at h
    injection h with h
    subst h
    have hp2 : (cb.board row col).has_piece = false := by simpa using hp
    refine ⟨rfl, rfl, fun _ _ _ => rfl, fun _ _ => ⟨rfl, rfl, rfl⟩, hp2, fun _ => rfl, ?_⟩
    intro hn; rw [hp2] at hn; exact absurd hn (by decide)

/-! ## The commit statements -/

theorem commit_fields (st : Chessboard) (sr sc row col : Int) :
    (st.commit sr sc row col).selected = st.selected ∧
    (st.commit sr sc row col).this_side =
      (if st.this_side = Side.White then Side.Black else Side.White) ∧
    (st.commit sr sc row col).white_capture_index = st.white_capture_index ∧
    (st.commit sr sc row col).black_capture_index = st.black_capture_index ∧
    (st.commit sr sc row col).white_capture = st.white_capture ∧
    (st.commit sr sc row col).black_capture = st.black_capture :=
  ⟨rfl, rfl, rfl, rfl, rfl, rfl⟩

theorem commit_cell_fields (st : Chessboard) (sr sc row col r c : Int) :
    ((st.commit sr sc row col).board r c).type = (st.board r c).type ∧
    ((st.commit sr sc row col).board r c).row = (st.board r c).row ∧
    ((st.commit sr sc row col).board r c).col = (st.board r c).col := by
  simp only [Chessboard.commit, Chessboard.modify_piece, place_type, place_row, place_col,
    and_self]

theorem commit_board_other (st : Chessboard) (sr sc row col r c : Int)
    (h1 : ¬ (r = sr ∧ c = sc)) (h2 : ¬ (r = row ∧ c = col)) :
    (st.commit sr sc row col).board r c = st.board r c := by
  simp [Chessboard.commit, Chessboard.modify_piece, Chessboard.place, h1, h2]

theorem commit_source_empty (st : Chessboard) (sr sc row col : Int) :
    ((st.commit sr sc row col).board sr sc).has_piece = false := by
  simp [Chessboard.commit, Chessboard.modify_piece, Chessboard.place, Cell.has_piece,
    Piece.is_empty, Piece.clear]

theorem commit_source_piece (st : Chessboard) (sr sc row col : Int)
    (h : ¬ (row = sr ∧ col = sc)) :
    ((st.commit sr sc row col).board sr sc).piece = (st.board sr sc).piece.clear := by
  have h2 : ¬ (sr = row ∧ sc = col) := fun hh => h ⟨hh.1.symm, hh.2.symm⟩
  simp [Chessboard.commit, Chessboard.modify_piece, Chessboard.place, h2]

theorem commit_target_piece (st : Chessboard) (sr sc row col : Int)
    (h : ¬ (row = sr ∧ col = sc)) :
    ((st.commit sr sc row col).board row col).piece =
      (st.board sr sc).piece.move_to row col := by
  simp [Chessboard.commit, Chessboard.modify_piece, Chessboard.place, h]

/-- The pieces on the board after the commit statements record the position they had
before or the destination. -/
theorem commit_piece_position (st : Chessboard) (sr sc row col r c : Int) :
    ((st.commit sr sc row col).board r c).piece.get_position = (row, col) ∨
    ∃ i j : Int, (i = r ∧ j = c ∨ i = sr ∧ j = sc) ∧
      ((st.commit sr sc row col).board r c).piece.get_position =
        (st.board i j).piece.get_position := by
  by_cases h1 : r = sr ∧ c = sc
  · obtain ⟨e1, e2⟩ := h1
    subst e1; subst e2
    by_cases h2 : r = row ∧ c = col
    · left
      simp [Chessboard.commit, Chessboard.modify_piece, Chessboard.place, h2,
        Piece.get_position, Piece.clear, Piece.move_to]
    · right
      refine ⟨r, c, Or.inl ⟨rfl, rfl⟩, ?_⟩
      have h3 : ¬ (row = r ∧ col = c) := fun hh => h2 ⟨hh.1.symm, hh.2.symm⟩
      rw [commit_source_piece st r c row col h3]
      simp [Piece.get_position, Piece.clear]
  · by_cases h2 : r = row ∧ c = col
    · left
      obtain ⟨e1, e2⟩ := h2
      subst e1; subst e2
      rw [commit_target_piece st sr sc r c h1]
      simp [Piece.get_position, Piece.move_to]
    · right
      exact ⟨r, c, Or.inl ⟨rfl, rfl⟩, by rw [commit_board_other st sr sc row col r c h1 h2]⟩

/-! ## Taking `move_selected_to` apart -/

theorem move_selected_to_true (cb cb2 : Chessboard) (row col : Int)
    (h : cb.move_selected_to row col = some (true, cb2)) :
    inRange cb.selected.1 cb.selected.2 ∧
    (cb.board cb.selected.1 cb.selected.2).has_piece = true ∧
    inRange row col ∧
    ∃ st : Chessboard, cb.capture_at row col = some st ∧
      cb2 = st.commit cb.selected.1 cb.selected.2 row col := by
  unfold Chessboard.move_selected_to Chessboard.cell at h
  by_cases hs : inRange cb.selected.1 cb.selected.2
  · simp only [hs, if_true, Option.some_bind] at h
    by_cases hp : (cb.board cb.selected.1 cb.selected.2).has_piece = true
    · simp only [hp, Bool.not_true, Bool.false_eq_true, if_false] at h
      by_cases hr : inRange row col
      · simp only [hr, if_true, Option.some_bind] at h
        cases hc : cb.capture_at row col with
        | none => rw [hc] at h; simp at h
        | some st =>
          rw [hc] at h
          simp only [Option.some_bind, Option.some.injEq, Prod.mk.injEq, true_and] at h
          exact ⟨hs, hp, hr, st, rfl, h.symm⟩
      · simp [hr] at h
    · simp [hp] at h
  · simp [hs] at h

theorem move_selected_to_false (cb cb2 : Chessboard) (row col : Int)
    (h : cb.move_selected_to row col = some (false, cb2)) :
    cb2 = cb ∧ inRange cb.selected.1 cb.selected.2 ∧
      (cb.board cb.selected.1 cb.selected.2).has_piece = false := by
  unfold Chessboard.move_selected_to Chessboard.cell at h
  by_cases hs : inRange cb.selected.1 cb.selected.2
  · simp only [hs, if_true, Option.some_bind] at h
    by_cases hp : (cb.board cb.selected.1 cb.selected.2).has_piece = true
    · simp only [hp, Bool.not_true, Bool.false_eq_true, if_false] at h
      by_cases hr : inRange row col
      · simp only [hr, if_true, Option.some_bind] at h
        cases hc : cb.capture_at row col with
        | none => rw [hc] at h; simp at h
        | some st => rw [hc] at h; simp at h
      · simp [hr] at h
    · have hp2 : (cb.board cb.selected.1 cb.selected.2).has_piece = false := by simpa using hp
      simp [hp2] at h
      exact ⟨h.symm, hs, hp2⟩
  · simp [hs] at h

theorem move_selected_to_of_capture (cb st : Chessboard) (row col : Int)
    (hs : inRange cb.selected.1 cb.selected.2)
    (hp : (cb.board cb.selected.1 cb.selected.2).has_piece = true)
    (hr : inRange row col) (hc : cb.capture_at row col = some st) :
    cb.move_selected_to row col =
      some (true, st.commit cb.selected.1 cb.selected.2 row col) := by
  simp [Chessboard.move_selected_to, Chessboard.cell, hs, hp, hr, hc]

/-! ## Facts every state keeps -/

theorem for_cells_preserves (P : Chessboard → Prop) (rows cols : List Int)
    (body : Int → Int → Chessboard → Chessboard)
    (hbody : ∀ (row col : Int) (st : Chessboard), P st → P (body row col st)) :
    ∀ cb : Chessboard, P cb → P (for_cells rows cols body cb) := by
  unfold for_cells
  induction rows with
  | nil => intro cb h; exact h
  | cons row rows ih =>
    intro cb h
    rw [List.foldl_cons]
    apply ih
    have inner : ∀ (cs : List Int) (st : Chessboard), P st →
        P (cs.foldl (fun st col => body row col st) st) := by
      intro cs
      induction cs with
      | nil => intro st hst; exact hst
      | cons col cs ihc =>
        intro st hst
        rw [List.foldl_cons]
        exact ihc _ (hbody row col st hst)
    exact inner cols cb h

theorem wellFormed_reset (cb : Chessboard) (h : WellFormed cb) : WellFormed cb.reset := by
  unfold Chessboard.reset
  apply for_cells_preserves WellFormed
  · intro row col st hst
    by_cases h6 : row = 6
    · simp only [h6, if_true]
      exact wellFormed_modify_piece _ _ _ _ (wellFormed_modify_piece _ _ _ _ hst)
    · simp only [h6, if_false]
      exact wellFormed_modify_piece _ _ _ _ (wellFormed_modify_piece _ _ _ _ hst)
  · apply for_cells_preserves WellFormed
    · intro row col st hst
      by_cases h0 : row = 0
      · simp only [h0, if_true]
        exact wellFormed_modify_piece _ _ _ _ (wellFormed_modify_piece _ _ _ _ hst)
      · simp only [h0, if_false]
        exact wellFormed_modify_piece _ _ _ _ (wellFormed_modify_piece _ _ _ _ hst)
    · apply for_cells_preserves WellFormed
      · intro row col st hst
        exact wellFormed_modify_piece _ _ _ _ hst
      · exact h

theorem wellFormed_construct (white_hold black_hold : Int → Cell) :
    WellFormed (Chessboard.construct white_hold black_hold) := by
  unfold Chessboard.construct
  apply wellFormed_reset
  exact ⟨fun r c _ => ⟨rfl, rfl, rfl⟩, le_refl _, le_refl _⟩

theorem wellFormed_clear_selection (cb : Chessboard) (h : WellFormed cb) :
    WellFormed cb.clear_selection := h

theorem wellFormed_select (cb cb2 : Chessboard) (cell : Cell) (b : Bool)
    (h : WellFormed cb) (hs : cb.select cell = some (b, cb2)) : WellFormed cb2 := by
  unfold Chessboard.select at hs
  cases hc : cb.cell cell.row cell.col with
  | none => rw [hc] at hs; simp at hs
  | some target =>
    rw [hc, Option.some_bind] at hs
    by_cases hp : (!target.has_piece) = true
    · rw [if_pos hp] at hs
      simp only [Option.some.injEq, Prod.mk.injEq] at hs
      rw [← hs.2]; exact h
    · rw [if_neg hp] at hs
      simp only [Option.some.injEq, Prod.mk.injEq] at hs
      rw [← hs.2]; exact h

theorem wellFormed_select_piece (cb : Chessboard) (piece : Piece) (h : WellFormed cb) :
    WellFormed (cb.select_piece piece).2 := by
  unfold Chessboard.select_piece
  by_cases hp : piece.is_captured = true
  · rw [if_pos hp]; exact h
  · rw [if_neg hp]; exact h

theorem wellFormed_move_selected_to (cb cb2 : Chessboard) (row col : Int) (b : Bool)
    (h : WellFormed cb) (hm : cb.move_selected_to row col = some (b, cb2)) :
    WellFormed cb2 := by
  cases b with
  | false => rw [(move_selected_to_false cb cb2 row col hm).1]; exact h
  | true =>
    obtain ⟨_, _, _, st, hc, he⟩ := move_selected_to_true cb cb2 row col hm
    obtain ⟨_, hside, _, hcells, _, hno, hyes⟩ := capture_at_spec cb st row col hc
    subst he
    have hf := commit_fields st cb.selected.1 cb.selected.2 row col
    refine ⟨?_, ?_, ?_⟩
    · intro r c hrc
      have hcf := commit_cell_fields st cb.selected.1 cb.selected.2 row col r c
      rw [hcf.1, hcf.2.1, hcf.2.2, (hcells r c).1, (hcells r c).2.1, (hcells r c).2.2]
      exact h.1 r c hrc
    · rw [hf.2.2.1]
      by_cases hp : (cb.board row col).has_piece = true
      · have hy := hyes hp
        cases hs : cb.this_side with
        | White =>
          rw [hs] at hy
          simp only [Chessboard.cursor, if_true] at hy
          omega
        | Black =>
          rw [hs] at hy
          simp only [Chessboard.cursor, opponentOf] at hy
          simp at hy
          rw [hy.2.2.2.1]; exact h.2.1
      · rw [hno (by simpa using hp)]; exact h.2.1
    · rw [hf.2.2.2.1]
      by_cases hp : (cb.board row col).has_piece = true
      · have hy := hyes hp
        cases hs : cb.this_side with
        | White =>
          rw [hs] at hy
          simp only [Chessboard.cursor, opponentOf] at hy
          simp at hy
          rw [hy.2.2.2.1]; exact h.2.2
        | Black =>
          rw [hs] at hy
          simp only [Chessboard.cursor] at hy
          simp at hy
          omega
      · rw [hno (by simpa using hp)]; exact h.2.2

theorem reachable_wellFormed (cb : Chessboard) (h : Reachable cb) : WellFormed cb := by
  induction h with
  | fresh wh bh => exact wellFormed_construct wh bh
  | select cb cb2 r c b _ _ hs ih => exact wellFormed_select cb cb2 _ b ih hs
  | select_piece cb r c _ _ ih => exact wellFormed_select_piece cb _ ih
  | clear_selection cb _ ih => exact wellFormed_clear_selection cb ih
  | move_selected_to cb cb2 row col b _ _ hm ih =>
    exact wellFormed_move_selected_to cb cb2 row col b ih hm

/-! ## The overloads of `valid_paths` -/

/-- The cell overload agrees with the position overload on a board cell. -/
theorem valid_paths_cell_eq (cb : Chessboard) (r c : Int) (hwf : WellFormed cb)
    (h : inRange r c) : cb.valid_paths_cell (cb.board r c) = cb.valid_paths r c := by
  obtain ⟨_, h1, h2⟩ := hwf.1 r c h
  simp only [Chessboard.valid_paths_cell, Cell.get_position, h1, h2, Chessboard.valid_paths]

/-- The piece overload agrees with the position overload once the piece records the
position of its cell. -/
theorem valid_paths_piece_eq (cb : Chessboard) (r c : Int)
    (hp : (cb.board r c).piece.get_position = (r, c)) :
    cb.valid_paths_piece (cb.board r c).piece = cb.valid_paths r c := by
  simp only [Chessboard.valid_paths_piece, hp, Chessboard.valid_paths]

/-- C12, failing input: on the freshly constructed board the White pawn WP4 stands on
(1,3); `valid_paths(1,3)` and `valid_paths(cell (1,3))` return its two forward moves,
but the pawn records the position (0,0), so `valid_paths(piece)` computes the paths of
the rook on (0,0) and returns the empty list. -/
theorem C12_piece_overload_on_fresh_board :
    Reachable freshBoard ∧
    (freshBoard.board 1 3).has_piece = true ∧
    (freshBoard.board 1 3).piece.get_position = (0, 0) ∧
    freshBoard.valid_paths 1 3 =
      some [[Target.mk Marker.Move 2 3], [Target.mk Marker.Move 3 3]] ∧
    freshBoard.valid_paths_cell (freshBoard.board 1 3) =
      some [[Target.mk Marker.Move 2 3], [Target.mk Marker.Move 3 3]] ∧
    freshBoard.valid_paths_piece (freshBoard.board 1 3).piece = some [] :=
  ⟨Reachable.fresh _ _, by decide, by decide, by decide, by decide, by decide⟩

/-! ## Selection -/

/-- C13: for a board cell (r,c), `select(cell)` returns false iff the cell holds no
piece, and then leaves the whole state as it was; otherwise it returns true, the
selection becomes (r,c) whatever it was, and the board, the holding areas, the cursors
and the side are unchanged. -/
theorem C13_select_cell (cb : Chessboard) (r c : Int) (hwf : WellFormed cb)
    (h : inRange r c) :
    ∃ (b : Bool) (cb2 : Chessboard), cb.select (cb.board r c) = some (b, cb2) ∧
      (b = false ↔ (cb.board r c).has_piece = false) ∧
      (b = false → cb2 = cb) ∧
      (b = true →
        cb2.get_selected = (r, c) ∧ cb2.board = cb.board ∧
        cb2.white_capture = cb.white_capture ∧ cb2.black_capture = cb.black_capture ∧
        cb2.white_capture_index = cb.white_capture_index ∧
        cb2.black_capture_index = cb.black_capture_index ∧
        cb2.this_side = cb.this_side) := by
  obtain ⟨_, h1, h2⟩ := hwf.1 r c h
  by_cases hp : (cb.board r c).has_piece = true
  · refine ⟨true, { cb with selected := (r, c) }, ?_, ?_, ?_, ?_⟩
    · simp [Chessboard.select, h1, h2, cell_eq_some cb h, hp]
    · simp [hp]
    · intro hb; exact absurd hb (by decide)
    · intro _
      exact ⟨rfl, rfl, rfl, rfl, rfl, rfl, rfl⟩
  · have hp2 : (cb.board r c).has_piece = false := by simpa using hp
    refine ⟨false, cb, ?_, ?_, ?_, ?_⟩
    · simp [Chessboard.select, h1, h2, cell_eq_some cb h, hp2]
    · simp [hp2]
    · intro _; rfl
    · intro hb; exact absurd hb (by decide)

theorem C13_select_cell_witness :
    ∃ (b : Bool) (cb2 : Chessboard), freshBoard.select (freshBoard.board 1 0) = some (b, cb2) ∧
      (b = false ↔ (freshBoard.board 1 0).has_piece = false) ∧
      (b = false → cb2 = freshBoard) ∧
      (b = true →
        cb2.get_selected = (1, 0) ∧ cb2.board = freshBoard.board ∧
        cb2.white_capture = freshBoard.white_capture ∧
        cb2.black_capture = freshBoard.black_capture ∧
        cb2.white_capture_index = freshBoard.white_capture_index ∧
        cb2.black_capture_index = freshBoard.black_capture_index ∧
        cb2.this_side = freshBoard.this_side) :=
  C13_select_cell freshBoard 1 0 (wellFormed_construct _ _) (by decide)

/-- C14, failing input: on the freshly constructed board the White pawn WP4 stands on
(1,3) and is not marked captured; `select(piece)` returns true and the selection
becomes (0,0), the position the pawn records, not (1,3). -/
theorem C14_select_piece_on_fresh_board :
    Reachable freshBoard ∧
    (freshBoard.board 1 3).has_piece = true ∧
    (freshBoard.board 1 3).piece.is_captured = false ∧
    (freshBoard.select_piece (freshBoard.board 1 3).piece).1 = true ∧
    (freshBoard.select_piece (freshBoard.board 1 3).piece).2.get_selected = (0, 0) :=
  ⟨Reachable.fresh _ _, by decide, by decide, by decide, by decide⟩

/-- A piece marked captured is refused by `select(piece)`, and nothing changes. -/
theorem select_piece_captured (cb : Chessboard) (piece : Piece)
    (h : piece.is_captured = true) : cb.select_piece piece = (false, cb) := by
  simp [Chessboard.select_piece, h]

/-- A piece not marked captured is accepted by `select(piece)`; the selection becomes the
position the piece records. -/
theorem select_piece_not_captured (cb : Chessboard) (piece : Piece)
    (h : piece.is_captured = false) :
    cb.select_piece piece = (true, { cb with selected := piece.get_position }) := by
  simp [Chessboard.select_piece, h]

/-! ## Looking a piece up by name -/

theorem find?_eq_some_of_unique {α : Type} (p : α → Bool) (l : List α) (a : α)
    (ha : a ∈ l) (hpa : p a = true) (huniq : ∀ b ∈ l, p b = true → b = a) :
    l.find? p = some a := by
  induction l with
  | nil => exact absurd ha (List.not_mem_nil a)
  | cons x xs ih =>
    by_cases hx : p x = true
    · rw [List.find?_cons_of_pos _ hx, huniq x (List.mem_cons_self x xs) hx]
    · rw [List.find?_cons_of_neg _ hx]
      apply ih
      · rcases List.mem_cons.mp ha with h | h
        · rw [h] at hpa; exact absurd hpa hx
        · exact h
      · intro b hb hpb
        exact huniq b (List.mem_cons_of_mem x hb) hpb

theorem mem_one_rank (r : Int) : r ∈ one_rank ↔ (0 ≤ r ∧ r < 8) := by
  simp only [one_rank, List.mem_cons, List.mem_singleton, List.not_mem_nil, or_false]
  omega

theorem mem_board_positions (r c : Int) : (r, c) ∈ board_positions ↔ inRange r c := by
  simp only [board_positions, List.mem_flatMap, List.mem_map, Prod.mk.injEq, inRange]
  constructor
  · rintro ⟨row, hrow, col, hcol, h1, h2⟩
    subst h1; subst h2
    have := (mem_one_rank row).mp hrow
    have := (mem_one_rank col).mp hcol
    omega
  · intro h
    exact ⟨r, (mem_one_rank r).mpr (by omega), c, (mem_one_rank c).mpr (by omega), rfl, rfl⟩

/-- The piece is found on the board cell `(row, col)` when that cell is the only occupied
board cell holding a piece of that name. -/
theorem find_piece_board (cb : Chessboard) (name : String) (row col : Int)
    (hr : inRange row col) (hp : (cb.board row col).has_piece = true)
    (hn : (cb.board row col).piece.name = name)
    (huniq : ∀ r c : Int, inRange r c → (cb.board r c).has_piece = true →
      (cb.board r c).piece.name = name → r = row ∧ c = col) :
    cb.find_piece name = some (CellRef.Board row col) := by
  have hfind : board_positions.find? (fun rc =>
      (cb.board rc.1 rc.2).has_piece && decide ((cb.board rc.1 rc.2).piece.name = name)) =
        some (row, col) := by
    apply find?_eq_some_of_unique
    · exact (mem_board_positions row col).mpr hr
    · simp [hp, hn]
    · rintro ⟨r, c⟩ hb hpb
      simp only [Bool.and_eq_true, decide_eq_true_eq] at hpb
      obtain ⟨e1, e2⟩ := huniq r c ((mem_board_positions r c).mp hb) hpb.1 hpb.2
      rw [e1, e2]
  unfold Chessboard.find_piece
  rw [hfind]

/-! ## Committing a move -/

theorem capture_at_position (cb st : Chessboard) (row col : Int)
    (h : cb.capture_at row col = some st) (r c : Int) :
    (st.board r c).piece.get_position = (cb.board r c).piece.get_position := by
  unfold Chessboard.capture_at at h
  by_cases hp : (cb.board row col).has_piece = true
  · rw [if_pos hp] at h
    by_cases hrc : r = row ∧ c = col
    · obtain ⟨e1, e2⟩ := hrc
      subst e1; subst e2
      cases hs : cb.this_side with
      | White =>
        rw [hs] at h
        simp only [if_true, Chessboard.push_white_capture] at h
        by_cases hi : 0 ≤ cb.white_capture_index ∧ cb.white_capture_index < 16
        · rw [if_pos hi, Option.some_bind] at h
          injection h with h
          subst h
          simp [Chessboard.modify_piece, Chessboard.place, Piece.get_position, Piece.clear]
        · rw [if_neg hi] at h; simp at h
      | Black =>
        rw [hs] at h
        have hne : ¬ (Side.Black = Side.White) := by decide
        simp only [hne, if_false, Chessboard.push_black_capture] at h
        by_cases hi : 0 ≤ cb.black_capture_index ∧ cb.black_capture_index < 16
        · rw [if_pos hi, Option.some_bind] at h
          injection h with h
          subst h
          simp [Chessboard.modify_piece, Chessboard.place, Piece.get_position, Piece.clear]
        · rw [if_neg hi] at h; simp at h
    · rw [(capture_at_spec cb st row col (by
        unfold Chessboard.capture_at; rw [if_pos hp]; exact h)).2.2.1 r c hrc]
  · rw [if_neg hp] at h
    injection h with h
    subst h
    rfl

theorem capture_at_some (cb : Chessboard) (row col : Int)
    (h : (cb.board row col).has_piece = true → 
      0 ≤ cb.cursor cb.this_side ∧ cb.cursor cb.this_side < 16) :
    ∃ st : Chessboard, cb.capture_at row col = some st := by
  unfold Chessboard.capture_at
  by_cases hp : (cb.board row col).has_piece = true
  · have hc := h hp
    rw [if_pos hp]
    cases hs : cb.this_side with
    | White =>
      rw [hs] at hc
      simp only [Chessboard.cursor, if_true] at hc
      simp [Chessboard.push_white_capture, hc.1, hc.2]
    | Black =>
      rw [hs] at hc
      simp only [Chessboard.cursor] at hc
      simp at hc
      simp [Chessboard.push_black_capture, hc.1, hc.2]
  · rw [if_neg hp]
    exact ⟨cb, rfl⟩

/-- C15: after a successful `move_selected_to(row, col)` from a state with pairwise
distinct piece names, the destination being another square than the selected one,
`find_piece` on the moved piece's name returns the board cell (row, col); the piece
there is the moved one (same name, rank and side), its has-moved flag is true, its
recorded position is (row, col), the source cell is empty, and the side has flipped. -/
theorem C15_move_round_trip (cb cb2 : Chessboard) (row col : Int) (hd : DistinctNames cb)
    (hne : ¬ (row = cb.selected.1 ∧ col = cb.selected.2))
    (hmove : cb.move_selected_to row col = some (true, cb2)) :
    cb2.find_piece (cb.board cb.selected.1 cb.selected.2).piece.name =
        some (CellRef.Board row col) ∧
    (cb2.board row col).piece.name = (cb.board cb.selected.1 cb.selected.2).piece.name ∧
    (cb2.board row col).piece.rank = (cb.board cb.selected.1 cb.selected.2).piece.rank ∧
    (cb2.board row col).piece.side = (cb.board cb.selected.1 cb.selected.2).piece.side ∧
    (cb2.board row col).piece.has_moved = true ∧
    (cb2.board row col).piece.get_position = (row, col) ∧
    (cb2.board cb.selected.1 cb.selected.2).has_piece = false ∧
    cb2.this_side = opponentOf cb.this_side := by
  obtain ⟨hs, hp, hr, st, hc, he⟩ := move_selected_to_true cb cb2 row col hmove
  obtain ⟨_, hside, hother, _, _, _, _⟩ := capture_at_spec cb st row col hc
  subst he
  have hne2 : ¬ (cb.selected.1 = row ∧ cb.selected.2 = col) :=
    fun hh => hne ⟨hh.1.symm, hh.2.symm⟩
  have hpiece : ((st.commit cb.selected.1 cb.selected.2 row col).board row col).piece =
      (cb.board cb.selected.1 cb.selected.2).piece.move_to row col := by
    rw [commit_target_piece st _ _ row col hne, hother _ _ hne2]
  have hrank : (cb.board cb.selected.1 cb.selected.2).piece.rank ≠ Rank.Empty := by
    simpa [Cell.has_piece, Piece.is_empty] using hp
  refine ⟨?_, ?_, ?_, ?_, ?_, ?_, commit_source_empty st _ _ row col, ?_⟩
  · apply find_piece_board _ _ row col hr
    · simp only [Cell.has_piece, Piece.is_empty, hpiece, Piece.move_to]
      simpa using hrank
    · rw [hpiece]; rfl
    · intro r c hrc hpr hnr
      by_contra hcon
      by_cases h1 : r = cb.selected.1 ∧ c = cb.selected.2
      · rw [h1.1, h1.2, commit_source_empty] at hpr
        exact absurd hpr (by decide)
      · rw [commit_board_other st _ _ row col r c h1 hcon, hother r c hcon] at hpr hnr
        exact h1 (hd r c _ _ hrc hs hpr hp hnr)
  · rw [hpiece]; rfl
  · rw [hpiece]; rfl
  · rw [hpiece]; rfl
  · rw [hpiece]; rfl
  · rw [hpiece]; rfl
  · rw [(commit_fields st _ _ row col).2.1, hside]
    rfl

theorem duelBoard_has_piece (r c : Int) (h : (duelBoard.board r c).has_piece = true) :
    (r = 1 ∧ c = 0) ∨ (r = 2 ∧ c = 1) := by
  by_cases h1 : r = 2 ∧ c = 1
  · exact Or.inr h1
  · by_cases h2 : r = 1 ∧ c = 0
    · exact Or.inl h2
    · simp [duelBoard, Chessboard.place, emptyBoard, emptyCell, h1, h2, Cell.has_piece,
        Piece.is_empty] at h

theorem duelBoard_distinct : DistinctNames duelBoard := by
  intro r1 c1 r2 c2 _ _ hp1 hp2 hn
  rcases duelBoard_has_piece r1 c1 hp1 with ⟨a1, a2⟩ | ⟨a1, a2⟩ <;>
    rcases duelBoard_has_piece r2 c2 hp2 with ⟨b1, b2⟩ | ⟨b1, b2⟩ <;>
    subst a1 <;> subst a2 <;> subst b1 <;> subst b2
  · exact ⟨rfl, rfl⟩
  · exact absurd hn (by decide)
  · exact absurd hn (by decide)
  · exact ⟨rfl, rfl⟩

/-- The state `move_selected_to(2, 1)` leaves on `duelBoard`: the pawn WP1 takes BP2. -/
theorem duelBoard_move :
    ∃ st : Chessboard, duelBoard.capture_at 2 1 = some st ∧
      duelBoard.move_selected_to 2 1 = some (true, st.commit 1 0 2 1) := by
  obtain ⟨st, hst⟩ := capture_at_some duelBoard 2 1 (fun _ => by decide)
  exact ⟨st, hst, move_selected_to_of_capture duelBoard st 2 1 (by decide) (by decide)
    (by decide) hst⟩

theorem C15_move_round_trip_witness :
    ∃ cb2 : Chessboard, duelBoard.move_selected_to 2 1 = some (true, cb2) ∧
      cb2.find_piece (duelBoard.board duelBoard.selected.1 duelBoard.selected.2).piece.name =
        some (CellRef.Board 2 1) ∧
      (cb2.board 2 1).piece.name =
        (duelBoard.board duelBoard.selected.1 duelBoard.selected.2).piece.name ∧
      (cb2.board 2 1).piece.rank =
        (duelBoard.board duelBoard.selected.1 duelBoard.selected.2).piece.rank ∧
      (cb2.board 2 1).piece.side =
        (duelBoard.board duelBoard.selected.1 duelBoard.selected.2).piece.side ∧
      (cb2.board 2 1).piece.has_moved = true ∧
      (cb2.board 2 1).piece.get_position = (2, 1) ∧
      (cb2.board duelBoard.selected.1 duelBoard.selected.2).has_piece = false ∧
      cb2.this_side = opponentOf duelBoard.this_side := by
  obtain ⟨st, _, hm⟩ := duelBoard_move
  exact ⟨_, hm, C15_move_round_trip duelBoard _ 2 1 duelBoard_distinct (by decide) hm⟩

/-- C16: with a piece on the selected cell and a destination on the board other than
the selected square: when the destination is occupied and the cursor of the side to
move is below 16, `move_selected_to` raises that cursor by exactly 1, leaves the other
cursor alone, stores the occupant (the whole piece record, so the same name, rank and
side) in that side's holding slot at the old cursor, and the destination cell then holds
the moving piece; when the destination is empty neither cursor changes. -/
theorem C16_capture_cursor (cb : Chessboard) (row col : Int) (hwf : WellFormed cb)
    (hs : inRange cb.selected.1 cb.selected.2)
    (hp : (cb.board cb.selected.1 cb.selected.2).has_piece = true)
    (hr : inRange row col)
    (hne : ¬ (row = cb.selected.1 ∧ col = cb.selected.2)) :
    ((cb.board row col).has_piece = true → cb.cursor cb.this_side < 16 →
      ∃ cb2 : Chessboard, cb.move_selected_to row col = some (true, cb2) ∧
        cb2.cursor cb.this_side = cb.cursor cb.this_side + 1 ∧
        cb2.cursor (opponentOf cb.this_side) = cb.cursor (opponentOf cb.this_side) ∧
        (cb2.holding cb.this_side (cb.cursor cb.this_side)).piece = (cb.board row col).piece ∧
        (cb2.board row col).piece =
          (cb.board cb.selected.1 cb.selected.2).piece.move_to row col) ∧
    ((cb.board row col).has_piece = false →
      ∃ cb2 : Chessboard, cb.move_selected_to row col = some (true, cb2) ∧
        cb2.white_capture_index = cb.white_capture_index ∧
        cb2.black_capture_index = cb.black_capture_index) := by
  have hne2 : ¬ (cb.selected.1 = row ∧ cb.selected.2 = col) :=
    fun hh => hne ⟨hh.1.symm, hh.2.symm⟩
  have hnonneg : 0 ≤ cb.cursor cb.this_side := by
    unfold Chessboard.cursor
    by_cases hw : cb.this_side = Side.White
    · rw [if_pos hw]; exact hwf.2.1
    · rw [if_neg hw]; exact hwf.2.2
  constructor
  · intro hocc hcur
    obtain ⟨st, hst⟩ := capture_at_some cb row col (fun _ => ⟨hnonneg, hcur⟩)
    obtain ⟨_, _, hother, _, _, _, hyes⟩ := capture_at_spec cb st row col hst
    obtain ⟨_, _, h3, h4, _, h6, _⟩ := hyes hocc
    refine ⟨_, move_selected_to_of_capture cb st row col hs hp hr hst, ?_, ?_, ?_, ?_⟩
    · rw [← h3]
      simp only [Chessboard.cursor, (commit_fields st _ _ row col).2.2.1,
        (commit_fields st _ _ row col).2.2.2.1]
    · rw [← h4]
      simp only [Chessboard.cursor, (commit_fields st _ _ row col).2.2.1,
        (commit_fields st _ _ row col).2.2.2.1]
    · rw [← h6]
      simp only [Chessboard.holding, (commit_fields st _ _ row col).2.2.2.2.1,
        (commit_fields st _ _ row col).2.2.2.2.2]
    · rw [commit_target_piece st _ _ row col hne, hother _ _ hne2]
  · intro hfree
    obtain ⟨st, hst⟩ := capture_at_some cb row col
      (fun hh => by rw [hfree] at hh; exact absurd hh (by decide))
    obtain ⟨_, _, _, _, _, hno, _⟩ := capture_at_spec cb st row col hst
    have hst2 : cb.capture_at row col = some cb := by rw [hst, hno hfree]
    exact ⟨_, move_selected_to_of_capture cb cb row col hs hp hr hst2, rfl, rfl⟩

theorem C16_capture_cursor_witness :
    ((duelBoard.board 2 1).has_piece = true → duelBoard.cursor duelBoard.this_side < 16 →
      ∃ cb2 : Chessboard, duelBoard.move_selected_to 2 1 = some (true, cb2) ∧
        cb2.cursor duelBoard.this_side = duelBoard.cursor duelBoard.this_side + 1 ∧
        cb2.cursor (opponentOf duelBoard.this_side) =
          duelBoard.cursor (opponentOf duelBoard.this_side) ∧
        (cb2.holding duelBoard.this_side (duelBoard.cursor duelBoard.this_side)).piece =
          (duelBoard.board 2 1).piece ∧
        (cb2.board 2 1).piece =
          (duelBoard.board duelBoard.selected.1 duelBoard.selected.2).piece.move_to 2 1) ∧
    ((duelBoard.board 2 1).has_piece = false →
      ∃ cb2 : Chessboard, duelBoard.move_selected_to 2 1 = some (true, cb2) ∧
        cb2.white_capture_index = duelBoard.white_capture_index ∧
        cb2.black_capture_index = duelBoard.black_capture_index) :=
  C16_capture_cursor duelBoard 2 1
    ⟨fun r c _ => by
      unfold duelBoard
      simp only [place_type, place_row, place_col]
      exact ⟨rfl, rfl, rfl⟩, by decide, by decide⟩
    (by decide) (by decide) (by decide) (by decide)

/-! ## Committing without a usable selection -/

/-- C17, the code on the sentinel: with the selection (-1,-1), `move_selected_to` starts
by reading `board[-1][-1]`, a cell outside `Cell board[8][8]`; no return value and no
state are defined for that call. -/
theorem C17_move_from_sentinel (cb : Chessboard) (row col : Int)
    (h : cb.get_selected = (-1, -1)) : cb.move_selected_to row col = none := by
  have h1 : cb.selected = (-1, -1) := h
  simp [Chessboard.move_selected_to, Chessboard.cell, h1, inRange]

theorem C17_move_from_sentinel_witness :
    freshBoard.clear_selection.move_selected_to 2 0 = none :=
  C17_move_from_sentinel freshBoard.clear_selection 2 0 rfl

/-- C18: when the selection names a board cell that holds no piece, `move_selected_to`
returns false for every destination, on the board or not, and the whole state is
unchanged. -/
theorem C18_move_from_empty_cell (cb : Chessboard) (row col : Int)
    (hs : inRange cb.get_selected.1 cb.get_selected.2)
    (hp : (cb.board cb.get_selected.1 cb.get_selected.2).has_piece = false) :
    cb.move_selected_to row col = some (false, cb) := by
  have hs2 : inRange cb.selected.1 cb.selected.2 := hs
  have hp2 : (cb.board cb.selected.1 cb.selected.2).has_piece = false := hp
  simp [Chessboard.move_selected_to, Chessboard.cell, hs2, hp2]

theorem C18_move_from_empty_cell_witness :
    pawnMovedBoard.move_selected_to 3 0 = some (false, pawnMovedBoard) :=
  C18_move_from_empty_cell pawnMovedBoard 3 0 (by decide) (by decide)

theorem freshBoard_select_pawn :
    freshBoard.select (freshBoard.board 1 0) = some (true, pawnSelectedBoard) := by
  have h1 : (freshBoard.board 1 0).row = 1 := by decide
  have h2 : (freshBoard.board 1 0).col = 0 := by decide
  have h3 : (freshBoard.board 1 0).has_piece = true := by decide
  simp [Chessboard.select, h1, h2, cell_eq_some freshBoard (by decide : inRange 1 0), h3,
    pawnSelectedBoard]

theorem pawnSelectedBoard_move :
    pawnSelectedBoard.move_selected_to 2 0 = some (true, pawnMovedBoard) := by
  have hc : pawnSelectedBoard.capture_at 2 0 = some pawnSelectedBoard := by
    have h3 : (pawnSelectedBoard.board 2 0).has_piece = false := by decide
    simp [Chessboard.capture_at, h3]
  exact move_selected_to_of_capture pawnSelectedBoard pawnSelectedBoard 2 0 (by decide)
    (by decide) (by decide) hc

theorem pawnMovedBoard_reachable : Reachable pawnMovedBoard :=
  Reachable.move_selected_to pawnSelectedBoard pawnMovedBoard 2 0 true
    (Reachable.select freshBoard pawnSelectedBoard 1 0 true (Reachable.fresh _ _) (by decide)
      freshBoard_select_pawn)
    (by decide) pawnSelectedBoard_move

/-- C19 (amended): a successful `move_selected_to` leaves the selection as it was:
`get_selected()` still returns the square the piece has moved from. -/
theorem C19_selection_kept (cb cb2 : Chessboard) (row col : Int)
    (hmove : cb.move_selected_to row col = some (true, cb2)) :
    cb2.get_selected = cb.get_selected := by
  obtain ⟨_, _, _, st, hc, he⟩ := move_selected_to_true cb cb2 row col hmove
  obtain ⟨hsel, _⟩ := capture_at_spec cb st row col hc
  subst he
  exact hsel

theorem C19_selection_kept_witness :
    pawnMovedBoard.get_selected = pawnSelectedBoard.get_selected :=
  C19_selection_kept pawnSelectedBoard pawnMovedBoard 2 0 pawnSelectedBoard_move

/-- C19, as stated, fails: on the fresh board with the pawn of (1,0) selected,
`move_selected_to(2, 0)` returns true and `get_selected()` is (1,0) afterwards, not the
sentinel (-1,-1). -/
theorem C19_counterexample :
    pawnSelectedBoard.move_selected_to 2 0 = some (true, pawnMovedBoard) ∧
    pawnMovedBoard.get_selected = (1, 0) ∧
    pawnMovedBoard.get_selected ≠ (-1, -1) :=
  ⟨pawnSelectedBoard_move, by decide, by decide⟩

/-! ## The selection in reachable states -/

theorem positions_modify_piece (cb : Chessboard) (r c : Int) (f : Piece → Piece)
    (hf : ∀ p : Piece, (f p).get_position = p.get_position)
    (h : PiecePositionsOnBoard cb) : PiecePositionsOnBoard (cb.modify_piece r c f) := by
  intro i j hij
  by_cases hrc : i = r ∧ j = c
  · obtain ⟨e1, e2⟩ := hrc
    subst e1; subst e2
    simp only [Chessboard.modify_piece, place_piece_self, hf]
    exact h i j hij
  · simp only [Chessboard.modify_piece, place_board_other cb r c _ i j hrc]
    exact h i j hij

theorem positions_reset (cb : Chessboard) (h : PiecePositionsOnBoard cb) :
    PiecePositionsOnBoard cb.reset := by
  unfold Chessboard.reset
  apply for_cells_preserves PiecePositionsOnBoard
  · intro row col st hst
    by_cases h6 : row = 6
    · simp only [h6, if_true]
      exact positions_modify_piece _ _ _ _ (fun _ => rfl)
        (positions_modify_piece _ _ _ _ (fun _ => rfl) hst)
    · simp only [h6, if_false]
      exact positions_modify_piece _ _ _ _ (fun _ => rfl)
        (positions_modify_piece _ _ _ _ (fun _ => rfl) hst)
  · apply for_cells_preserves PiecePositionsOnBoard
    · intro row col st hst
      by_cases h0 : row = 0
      · simp only [h0, if_true]
        exact positions_modify_piece _ _ _ _ (fun _ => rfl)
          (positions_modify_piece _ _ _ _ (fun _ => rfl) hst)
      · simp only [h0, if_false]
        exact positions_modify_piece _ _ _ _ (fun _ => rfl)
          (positions_modify_piece _ _ _ _ (fun _ => rfl) hst)
    · apply for_cells_preserves PiecePositionsOnBoard
      · intro row col st hst
        exact positions_modify_piece _ _ _ _ (fun _ => rfl) hst
      · exact h

theorem positions_move_selected_to (cb cb2 : Chessboard) (row col : Int) (b : Bool)
    (h : PiecePositionsOnBoard cb) (hm : cb.move_selected_to row col = some (b, cb2)) :
    PiecePositionsOnBoard cb2 := by
  cases b with
  | false => rw [(move_selected_to_false cb cb2 row col hm).1]; exact h
  | true =>
    obtain ⟨hs, _, hr, st, hc, he⟩ := move_selected_to_true cb cb2 row col hm
    subst he
    intro r c hrc
    rcases commit_piece_position st cb.selected.1 cb.selected.2 row col r c with
      hpos | ⟨i, j, hij, hpos⟩
    · rw [hpos]; exact hr
    · rw [hpos, capture_at_position cb st row col hc i j]
      rcases hij with ⟨e1, e2⟩ | ⟨e1, e2⟩
      · rw [e1, e2]; exact h r c hrc
      · rw [e1, e2]; exact h _ _ hs

theorem reset_selected (cb : Chessboard) : cb.reset.selected = cb.selected := by
  unfold Chessboard.reset
  apply for_cells_preserves (fun st => st.selected = cb.selected)
  · intro row col st hst
    by_cases h6 : row = 6
    · simp only [h6, if_true]; exact hst
    · simp only [h6, if_false]; exact hst
  · apply for_cells_preserves (fun st => st.selected = cb.selected)
    · intro row col st hst
      by_cases h0 : row = 0
      · simp only [h0, if_true]; exact hst
      · simp only [h0, if_false]; exact hst
    · apply for_cells_preserves (fun st => st.selected = cb.selected)
      · intro row col st hst
        exact hst
      · rfl

/-- In a reachable state every piece record on the board records a board position, and
the selection is the sentinel or a board position. -/
theorem reachable_selection (cb : Chessboard) (h : Reachable cb) :
    PiecePositionsOnBoard cb ∧
      (cb.selected = (-1, -1) ∨ inRange cb.selected.1 cb.selected.2) := by
  induction h with
  | fresh wh bh =>
    refine ⟨?_, Or.inr ?_⟩
    · unfold Chessboard.construct
      apply positions_reset
      intro r c _
      exact (by decide : inRange 0 0)
    · unfold Chessboard.construct
      rw [reset_selected]
      exact (by decide : inRange 0 0)
  | select cb cb2 r c b _ _ hs ih =>
    unfold Chessboard.select at hs
    cases hc : cb.cell (cb.board r c).row (cb.board r c).col with
    | none => rw [hc] at hs; simp at hs
    | some target =>
      have hin : inRange (cb.board r c).row (cb.board r c).col := by
        by_contra hn
        simp [Chessboard.cell, hn] at hc
      rw [hc, Option.some_bind] at hs
      by_cases hp : (!target.has_piece) = true
      · rw [if_pos hp] at hs
        simp only [Option.some.injEq, Prod.mk.injEq] at hs
        rw [← hs.2]; exact ih
      · rw [if_neg hp] at hs
        simp only [Option.some.injEq, Prod.mk.injEq] at hs
        rw [← hs.2]
        exact ⟨ih.1, Or.inr hin⟩
  | select_piece cb r c _ hrc ih =>
    unfold Chessboard.select_piece
    by_cases hp : (cb.board r c).piece.is_captured = true
    · rw [if_pos hp]; exact ih
    · rw [if_neg hp]
      exact ⟨ih.1, Or.inr (ih.1 r c hrc)⟩
  | clear_selection cb _ ih => exact ⟨ih.1, Or.inl rfl⟩
  | move_selected_to cb cb2 row col b _ _ hm ih =>
    refine ⟨positions_move_selected_to cb cb2 row col b ih.1 hm, ?_⟩
    cases b with
    | false => rw [(move_selected_to_false cb cb2 row col hm).1]; exact ih.2
    | true =>
      have hsel : cb2.selected = cb.selected := by
        obtain ⟨_, _, _, st, hc, he⟩ := move_selected_to_true cb cb2 row col hm
        obtain ⟨hsel, _⟩ := capture_at_spec cb st row col hc
        subst he
        exact hsel
      rw [hsel]; exact ih.2

/-- C20 (amended): in every state reachable from a freshly constructed board through
select, clear_selection and move_selected_to with destinations on the board,
`get_selected()` is either the sentinel (-1,-1) or the position of a board cell (row and
column in 0..7); that cell need not hold a piece. -/
theorem C20_selection_on_board (cb : Chessboard) (h : Reachable cb) :
    cb.get_selected = (-1, -1) ∨ inRange cb.get_selected.1 cb.get_selected.2 :=
  (reachable_selection cb h).2

theorem C20_selection_on_board_witness :
    pawnMovedBoard.get_selected = (-1, -1) ∨
      inRange pawnMovedBoard.get_selected.1 pawnMovedBoard.get_selected.2 :=
  C20_selection_on_board pawnMovedBoard pawnMovedBoard_reachable

/-- C20, as stated, fails: the state after select of the cell (1,0) and
`move_selected_to(2, 0)` on the fresh board is reachable, its selection is (1,0), not the
sentinel, and the cell (1,0) holds no piece. -/
theorem C20_counterexample :
    Reachable pawnMovedBoard ∧
    pawnMovedBoard.get_selected = (1, 0) ∧
    pawnMovedBoard.get_selected ≠ (-1, -1) ∧
    (pawnMovedBoard.board 1 0).has_piece = false :=
  ⟨pawnMovedBoard_reachable, by decide, by decide, by decide⟩

/-! ## The selection and the side on a fresh board -/

theorem reset_this_side (cb : Chessboard) : cb.reset.this_side = cb.this_side := by
  unfold Chessboard.reset
  apply for_cells_preserves (fun st => st.this_side = cb.this_side)
  · intro row col st hst
    by_cases h6 : row = 6
    · simp only [h6, if_true]; exact hst
    · simp only [h6, if_false]; exact hst
  · apply for_cells_preserves (fun st => st.this_side = cb.this_side)
    · intro row col st hst
      by_cases h0 : row = 0
      · simp only [h0, if_true]; exact hst
      · simp only [h0, if_false]; exact hst
    · apply for_cells_preserves (fun st => st.this_side = cb.this_side)
      · intro row col st hst
        exact hst
      · rfl

/-- C21, the code on a fresh board: whatever the holding cells hold, `get_selected()` of a
freshly constructed board is (0,0), the value-initialised `selected`, and not the
sentinel (-1,-1) that `clear_selection()` sets. -/
theorem C21_fresh_selection (white_hold black_hold : Int → Cell) :
    (Chessboard.construct white_hold black_hold).get_selected = (0, 0) ∧
    (Chessboard.construct white_hold black_hold).get_selected ≠ (-1, -1) ∧
    (Chessboard.construct white_hold black_hold).get_selected ≠
      (Chessboard.construct white_hold black_hold).clear_selection.get_selected := by
  have h : (Chessboard.construct white_hold black_hold).get_selected = (0, 0) := by
    unfold Chessboard.get_selected Chessboard.construct
    rw [reset_selected]
  refine ⟨h, ?_, ?_⟩
  · rw [h]; decide
  · rw [h]
    show ((0 : Int), (0 : Int)) ≠ (-1, -1)
    decide

/-- C22: `clear_selection()` makes `get_selected()` the sentinel (-1,-1), which is the
position of no board cell; the board, the holding areas, the cursors and the side are
what they were; a second call changes nothing more. -/
theorem C22_clear_selection (cb : Chessboard) :
    cb.clear_selection.get_selected = (-1, -1) ∧
    (∀ r c : Int, inRange r c → (r, c) ≠ cb.clear_selection.get_selected) ∧
    cb.clear_selection.board = cb.board ∧
    cb.clear_selection.white_capture = cb.white_capture ∧
    cb.clear_selection.black_capture = cb.black_capture ∧
    cb.clear_selection.white_capture_index = cb.white_capture_index ∧
    cb.clear_selection.black_capture_index = cb.black_capture_index ∧
    cb.clear_selection.this_side = cb.this_side ∧
    cb.clear_selection.clear_selection = cb.clear_selection := by
  refine ⟨rfl, ?_, rfl, rfl, rfl, rfl, rfl, rfl, rfl⟩
  intro r c h heq
  have h1 : r = -1 := congrArg Prod.fst heq
  unfold inRange at h
  omega

theorem C22_clear_selection_witness :
    inRange 7 7 ∧ ((7 : Int), (7 : Int)) ≠ pawnMovedBoard.clear_selection.get_selected :=
  ⟨by decide, (C22_clear_selection pawnMovedBoard).2.1 7 7 (by decide)⟩

/-! ## The side returned by `local_side` -/

theorem select_this_side (cb cb2 : Chessboard) (cell : Cell) (b : Bool)
    (hs : cb.select cell = some (b, cb2)) : cb2.this_side = cb.this_side := by
  unfold Chessboard.select at hs
  cases hc : cb.cell cell.row cell.col with
  | none => rw [hc] at hs; simp at hs
  | some target =>
    rw [hc, Option.some_bind] at hs
    by_cases hp : (!target.has_piece) = true
    · rw [if_pos hp] at hs
      simp only [Option.some.injEq, Prod.mk.injEq] at hs
      rw [← hs.2]
    · rw [if_neg hp] at hs
      simp only [Option.some.injEq, Prod.mk.injEq] at hs
      rw [← hs.2]

theorem select_piece_this_side (cb : Chessboard) (piece : Piece) :
    (cb.select_piece piece).2.this_side = cb.this_side := by
  unfold Chessboard.select_piece
  by_cases hp : piece.is_captured = true
  · rw [if_pos hp]
  · rw [if_neg hp]

theorem move_selected_to_this_side (cb cb2 : Chessboard) (row col : Int)
    (hmove : cb.move_selected_to row col = some (true, cb2)) :
    cb2.this_side = opponentOf cb.this_side := by
  obtain ⟨_, _, _, st, hc, he⟩ := move_selected_to_true cb cb2 row col hmove
  obtain ⟨_, hside, _⟩ := capture_at_spec cb st row col hc
  subst he
  rw [(commit_fields st _ _ row col).2.1, hside]
  rfl

/-- C23 (amended): `local_side()` is White on a freshly constructed board; `select` (on a
cell or on a piece), `clear_selection` and a `move_selected_to` that returns false leave
it as it was; a `move_selected_to` that returns true flips it to the other side. -/
theorem C23_local_side :
    (∀ white_hold black_hold : Int → Cell,
      (Chessboard.construct white_hold black_hold).local_side = Side.White) ∧
    (∀ (cb cb2 : Chessboard) (cell : Cell) (b : Bool),
      cb.select cell = some (b, cb2) → cb2.local_side = cb.local_side) ∧
    (∀ (cb : Chessboard) (piece : Piece),
      (cb.select_piece piece).2.local_side = cb.local_side) ∧
    (∀ cb : Chessboard, cb.clear_selection.local_side = cb.local_side) ∧
    (∀ (cb cb2 : Chessboard) (row col : Int),
      cb.move_selected_to row col = some (false, cb2) → cb2.local_side = cb.local_side) ∧
    (∀ (cb cb2 : Chessboard) (row col : Int),
      cb.move_selected_to row col = some (true, cb2) →
        cb2.local_side = opponentOf cb.local_side ∧ cb2.local_side ≠ cb.local_side) := by
  refine ⟨?_, ?_, ?_, ?_, ?_, ?_⟩
  · intro wh bh
    unfold Chessboard.local_side Chessboard.construct
    rw [reset_this_side]
  · intro cb cb2 cell b hs
    exact select_this_side cb cb2 cell b hs
  · intro cb piece
    exact select_piece_this_side cb piece
  · intro cb
    rfl
  · intro cb cb2 row col hm
    rw [(move_selected_to_false cb cb2 row col hm).1]
  · intro cb cb2 row col hm
    have h := move_selected_to_this_side cb cb2 row col hm
    refine ⟨h, ?_⟩
    unfold Chessboard.local_side
    rw [h]
    exact opponentOf_ne_self _

theorem C23_local_side_witness :
    pawnMovedBoard.local_side = opponentOf pawnSelectedBoard.local_side ∧
      pawnMovedBoard.local_side ≠ pawnSelectedBoard.local_side :=
  C23_local_side.2.2.2.2.2 pawnSelectedBoard pawnMovedBoard 2 0 pawnSelectedBoard_move

/-- C23, as stated, fails: on the fresh board with the pawn of (1,0) selected,
`local_side()` is White; `move_selected_to(2, 0)` returns true and `local_side()` is
Black afterwards. -/
theorem C23_counterexample :
    pawnSelectedBoard.local_side = Side.White ∧
    pawnSelectedBoard.move_selected_to 2 0 = some (true, pawnMovedBoard) ∧
    pawnMovedBoard.local_side = Side.Black :=
  ⟨by decide, pawnSelectedBoard_move, by decide⟩

/-! ## The captured flag in the holding areas -/

theorem noFlag_place (cb : Chessboard) (r c : Int) (p : Piece) (h : NoCapturedFlag cb)
    (hp : p.captured = false) : NoCapturedFlag (cb.place r c p) := by
  refine ⟨?_, h.2.1, h.2.2⟩
  intro i j
  by_cases hij : i = r ∧ j = c
  · obtain ⟨e1, e2⟩ := hij
    subst e1; subst e2
    rw [place_piece_self]; exact hp
  · rw [place_board_other cb r c p i j hij]; exact h.1 i j

theorem noFlag_modify_piece (cb : Chessboard) (r c : Int) (f : Piece → Piece)
    (hf : ∀ p : Piece, (f p).captured = p.captured) (h : NoCapturedFlag cb) :
    NoCapturedFlag (cb.modify_piece r c f) := by
  unfold Chessboard.modify_piece
  apply noFlag_place cb r c _ h
  rw [hf]; exact h.1 r c

theorem noFlag_reset (cb : Chessboard) (h : NoCapturedFlag cb) : NoCapturedFlag cb.reset := by
  unfold Chessboard.reset
  apply for_cells_preserves NoCapturedFlag
  · intro row col st hst
    by_cases h6 : row = 6
    · simp only [h6, if_true]
      exact noFlag_modify_piece _ _ _ _ (fun _ => rfl)
        (noFlag_modify_piece _ _ _ _ (fun _ => rfl) hst)
    · simp only [h6, if_false]
      exact noFlag_modify_piece _ _ _ _ (fun _ => rfl)
        (noFlag_modify_piece _ _ _ _ (fun _ => rfl) hst)
  · apply for_cells_preserves NoCapturedFlag
    · intro row col st hst
      by_cases h0 : row = 0
      · simp only [h0, if_true]
        exact noFlag_modify_piece _ _ _ _ (fun _ => rfl)
          (noFlag_modify_piece _ _ _ _ (fun _ => rfl) hst)
      · simp only [h0, if_false]
        exact noFlag_modify_piece _ _ _ _ (fun _ => rfl)
          (noFlag_modify_piece _ _ _ _ (fun _ => rfl) hst)
    · apply for_cells_preserves NoCapturedFlag
      · intro row col st hst
        exact noFlag_modify_piece _ _ _ _ (fun _ => rfl) hst
      · exact h

theorem noFlag_construct (white_hold black_hold : Int → Cell) :
    NoCapturedFlag (Chessboard.construct white_hold black_hold) := by
  unfold Chessboard.construct
  apply noFlag_reset
  exact ⟨fun _ _ => rfl, fun _ => rfl, fun _ => rfl⟩

theorem noFlag_capture_at (cb st : Chessboard) (row col : Int) (h : NoCapturedFlag cb)
    (hc : cb.capture_at row col = some st) : NoCapturedFlag st := by
  unfold Chessboard.capture_at at hc
  by_cases hp : (cb.board row col).has_piece = true
  · rw [if_pos hp] at hc
    cases hs : cb.this_side with
    | White =>
      rw [hs] at hc
      simp only [if_true, Chessboard.push_white_capture] at hc
      by_cases hi : 0 ≤ cb.white_capture_index ∧ cb.white_capture_index < 16
      · rw [if_pos hi, Option.some_bind] at hc
        simp only [Option.some.injEq] at hc
        rw [← hc]
        apply noFlag_modify_piece _ row col Piece.clear (fun _ => rfl)
        refine ⟨h.1, ?_, h.2.2⟩
        intro i
        show (if i = cb.white_capture_index then
          { cb.white_capture i with piece := (cb.board row col).piece }
          else cb.white_capture i).piece.captured = false
        by_cases hic : i = cb.white_capture_index
        · rw [if_pos hic]; exact h.1 row col
        · rw [if_neg hic]; exact h.2.1 i
      · rw [if_neg hi] at hc; simp at hc
    | Black =>
      rw [hs] at hc
      simp only [Chessboard.push_black_capture] at hc
      rw [if_neg (by decide)] at hc
      by_cases hi : 0 ≤ cb.black_capture_index ∧ cb.black_capture_index < 16
      · rw [if_pos hi, Option.some_bind] at hc
        simp only [Option.some.injEq] at hc
        rw [← hc]
        apply noFlag_modify_piece _ row col Piece.clear (fun _ => rfl)
        refine ⟨h.1, h.2.1, ?_⟩
        intro i
        show (if i = cb.black_capture_index then
          { cb.black_capture i with piece := (cb.board row col).piece }
          else cb.black_capture i).piece.captured = false
        by_cases hic : i = cb.black_capture_index
        · rw [if_pos hic]; exact h.1 row col
        · rw [if_neg hic]; exact h.2.2 i
      · rw [if_neg hi] at hc; simp at hc
  · rw [if_neg hp] at hc
    simp only [Option.some.injEq] at hc
    rw [← hc]; exact h

theorem noFlag_commit (st : Chessboard) (sr sc row col : Int) (h : NoCapturedFlag st) :
    NoCapturedFlag (st.commit sr sc row col) := by
  have h1 : NoCapturedFlag (st.place row col (st.board sr sc).piece) :=
    noFlag_place st row col _ h (h.1 sr sc)
  have h2 := noFlag_modify_piece _ row col (fun p => p.move_to row col) (fun _ => rfl) h1
  have h3 := noFlag_modify_piece _ sr sc Piece.clear (fun _ => rfl) h2
  exact ⟨h3.1, h3.2.1, h3.2.2⟩

theorem noFlag_move_selected_to (cb cb2 : Chessboard) (row col : Int) (b : Bool)
    (h : NoCapturedFlag cb) (hm : cb.move_selected_to row col = some (b, cb2)) :
    NoCapturedFlag cb2 := by
  cases b with
  | false => rw [(move_selected_to_false cb cb2 row col hm).1]; exact h
  | true =>
    obtain ⟨_, _, _, st, hc, he⟩ := move_selected_to_true cb cb2 row col hm
    rw [he]
    exact noFlag_commit st _ _ row col (noFlag_capture_at cb st row col h hc)

theorem noFlag_select (cb cb2 : Chessboard) (cell : Cell) (b : Bool)
    (h : NoCapturedFlag cb) (hs : cb.select cell = some (b, cb2)) : NoCapturedFlag cb2 := by
  unfold Chessboard.select at hs
  cases hc : cb.cell cell.row cell.col with
  | none => rw [hc] at hs; simp at hs
  | some target =>
    rw [hc, Option.some_bind] at hs
    by_cases hp : (!target.has_piece) = true
    · rw [if_pos hp] at hs
      simp only [Option.some.injEq, Prod.mk.injEq] at hs
      rw [← hs.2]; exact h
    · rw [if_neg hp] at hs
      simp only [Option.some.injEq, Prod.mk.injEq] at hs
      rw [← hs.2]; exact h

theorem noFlag_select_piece (cb : Chessboard) (piece : Piece) (h : NoCapturedFlag cb) :
    NoCapturedFlag (cb.select_piece piece).2 := by
  unfold Chessboard.select_piece
  by_cases hp : piece.is_captured = true
  · rw [if_pos hp]; exact h
  · rw [if_neg hp]; exact h

theorem reachable_noFlag (cb : Chessboard) (h : Reachable cb) : NoCapturedFlag cb := by
  induction h with
  | fresh wh bh => exact noFlag_construct wh bh
  | select cb cb2 r c b _ _ hs ih => exact noFlag_select cb cb2 _ b ih hs
  | select_piece cb r c _ _ ih => exact noFlag_select_piece cb _ ih
  | clear_selection cb _ ih => exact ih
  | move_selected_to cb cb2 row col b _ _ hm ih =>
    exact noFlag_move_selected_to cb cb2 row col b ih hm

theorem apply_reachable (cb cb2 : Chessboard) (op : Op) (h : Reachable cb)
    (ha : cb.apply op = some cb2) : Reachable cb2 := by
  cases op with
  | select r c =>
    simp only [Chessboard.apply] at ha
    by_cases hr : inRange r c
    · rw [if_pos hr] at ha
      cases hs : cb.select (cb.board r c) with
      | none => rw [hs] at ha; simp at ha
      | some res =>
        rw [hs] at ha
        simp only [Option.map_some', Option.some.injEq] at ha
        obtain ⟨b, st⟩ := res
        simp only at ha
        rw [← ha]
        exact Reachable.select cb st r c b h hr hs
    · rw [if_neg hr] at ha; simp at ha
  | select_piece r c =>
    simp only [Chessboard.apply] at ha
    by_cases hr : inRange r c
    · rw [if_pos hr] at ha
      simp only [Option.some.injEq] at ha
      rw [← ha]
      exact Reachable.select_piece cb r c h hr
    · rw [if_neg hr] at ha; simp at ha
  | clear_selection =>
    simp only [Chessboard.apply] at ha
    simp only [Option.some.injEq] at ha
    rw [← ha]
    exact Reachable.clear_selection cb h
  | move_selected_to row col =>
    simp only [Chessboard.apply] at ha
    by_cases hr : inRange row col
    · rw [if_pos hr] at ha
      cases hs : cb.move_selected_to row col with
      | none => rw [hs] at ha; simp at ha
      | some res =>
        rw [hs] at ha
        simp only [Option.map_some', Option.some.injEq] at ha
        obtain ⟨b, st⟩ := res
        simp only at ha
        rw [← ha]
        exact Reachable.move_selected_to cb st row col b h hr hs
    · rw [if_neg hr] at ha; simp at ha

theorem play_reachable (ops : List Op) :
    ∀ cb cb2 : Chessboard, Reachable cb → cb.play ops = some cb2 → Reachable cb2 := by
  induction ops with
  | nil =>
    intro cb cb2 h hp
    simp only [Chessboard.play, Option.some.injEq] at hp
    rw [← hp]; exact h
  | cons op ops ih =>
    intro cb cb2 h hp
    simp only [Chessboard.play] at hp
    cases ha : cb.apply op with
    | none => rw [ha] at hp; simp at hp
    | some st =>
      rw [ha, Option.some_bind] at hp
      exact ih st cb2 (apply_reachable cb st op h ha) hp

theorem freshBoard_reachable : Reachable freshBoard := by
  unfold freshBoard
  exact Reachable.fresh _ _

theorem play_getD_reachable (ops : List Op) (h : (freshBoard.play ops).isSome = true) :
    Reachable ((freshBoard.play ops).getD freshBoard) := by
  cases hp : freshBoard.play ops with
  | none => rw [hp] at h; simp at h
  | some st =>
    simp only [Option.getD_some]
    exact play_reachable ops freshBoard st freshBoard_reachable hp

theorem captureGame_plays : (freshBoard.play captureGame).isSome = true := by decide

/-- C24, the code: in every state reachable from a freshly constructed board no piece of
either holding area has the captured flag set, occupied cell or not; and the state
reached by the pawn capture of `captureGame` is reachable
and has the captured Black pawn in White's holding cell 0 with captured false. -/
theorem C24_holding_not_marked :
    (∀ cb : Chessboard, Reachable cb → ∀ i : Int,
      (cb.white_capture i).piece.captured = false ∧
      (cb.black_capture i).piece.captured = false) ∧
    Reachable capturedBoard ∧
    (capturedBoard.white_capture 0).has_piece = true ∧
    (capturedBoard.white_capture 0).piece.name = "BP4" ∧
    (capturedBoard.white_capture 0).piece.is_captured = false := by
  refine ⟨?_, ?_, by decide, by decide, by decide⟩
  · intro cb h i
    exact ⟨(reachable_noFlag cb h).2.1 i, (reachable_noFlag cb h).2.2 i⟩
  · exact play_getD_reachable captureGame captureGame_plays

theorem C24_holding_not_marked_witness :
    (capturedBoard.white_capture 0).piece.captured = false ∧
      (capturedBoard.black_capture 0).piece.captured = false :=
  C24_holding_not_marked.1 capturedBoard
    (play_getD_reachable captureGame captureGame_plays) 0

/-! ## What `reset` does to each board cell -/

theorem modify_piece_board (cb : Chessboard) (r c : Int) (f : Piece → Piece) (i j : Int) :
    (cb.modify_piece r c f).board i j =
      if i = r ∧ j = c then { cb.board i j with piece := f (cb.board r c).piece }
      else cb.board i j := rfl

theorem modify_piece_twice (cb : Chessboard) (r c : Int) (f g : Piece → Piece) :
    (cb.modify_piece r c f).modify_piece r c g = cb.modify_piece r c fun p => g (f p) := by
  unfold Chessboard.modify_piece
  rw [place_piece_self]
  unfold Chessboard.place
  congr 1
  funext i j
  by_cases h : i = r ∧ j = c
  · simp [h]
  · simp [h]

theorem foldl_cols_board (f : Int → Piece → Piece) (row : Int) :
    ∀ cols : List Int, cols.Nodup → ∀ (cb : Chessboard) (r c : Int),
      (cols.foldl (fun st col => st.modify_piece row col (f col)) cb).board r c =
        if r = row ∧ c ∈ cols then { cb.board r c with piece := f c (cb.board r c).piece }
        else cb.board r c := by
  intro cols
  induction cols with
  | nil => intro _ cb r c; simp
  | cons col cols ih =>
    intro hnd cb r c
    rw [List.nodup_cons] at hnd
    rw [List.foldl_cons, ih hnd.2, modify_piece_board]
    by_cases hr : r = row
    · subst hr
      by_cases hc : c = col
      · subst hc
        simp [hnd.1]
      · simp [hc]
    · simp [hr]

theorem for_cells_board (F : Int → Int → Piece → Piece) (cols : List Int)
    (hcols : cols.Nodup) :
    ∀ rows : List Int, rows.Nodup → ∀ (cb : Chessboard) (r c : Int),
      (for_cells rows cols (fun row col st => st.modify_piece row col (F row col)) cb).board
          r c =
        if r ∈ rows ∧ c ∈ cols then { cb.board r c with piece := F r c (cb.board r c).piece }
        else cb.board r c := by
  intro rows
  unfold for_cells
  induction rows with
  | nil => intro _ cb r c; simp
  | cons row rows ih =>
    intro hnd cb r c
    rw [List.nodup_cons] at hnd
    rw [List.foldl_cons, ih hnd.2, foldl_cols_board (F row) row cols hcols]
    by_cases hr : r = row
    · subst hr
      by_cases hc : c ∈ cols
      · simp [hnd.1, hc]
      · simp [hc]
    · simp [hr]

/-- The three passes of `reset`, each as one change of the piece of a cell. -/
theorem reset_eq (cb : Chessboard) :
    cb.reset =
      for_cells black_ranks one_rank
        (fun row col st => st.modify_piece row col fun p =>
          { (if row = 6 then { p with rank := Rank.Pawn, name := black_minor_name col }
              else { p with rank := black_major_type col, name := black_major_name col })
            with side := Side.Black })
        (for_cells white_ranks one_rank
          (fun row col st => st.modify_piece row col fun p =>
            { (if row = 0 then { p with rank := white_major_type col, name := white_major_name col }
                else { p with rank := Rank.Pawn, name := white_minor_name col })
              with side := Side.White })
          (for_cells center_ranks one_rank
            (fun row col st => st.modify_piece row col Piece.clear) cb)) := by
  unfold Chessboard.reset
  simp only
  congr 1
  · funext row col st
    by_cases h : row = 6
    · simp only [h, if_true]; rw [modify_piece_twice]
    · simp only [h, if_false]; rw [modify_piece_twice]
  · congr 1
    funext row col st
    by_cases h : row = 0
    · simp only [h, if_true]; rw [modify_piece_twice]
    · simp only [h, if_false]; rw [modify_piece_twice]

theorem one_rank_nodup : one_rank.Nodup := by decide

/-- The board cell (r, c) after `reset`, for a column of the board: rows 0 and 1 get the
White rank, name and side; rows 6 and 7 get the Black ones; rows 2, 3 and 4 are
cleared; every other row, row 5 among them, is left as it was. -/
theorem reset_board (cb : Chessboard) (r c : Int) (hc : 0 ≤ c ∧ c < 8) :
    cb.reset.board r c =
      if r = 0 then
        { cb.board r c with piece :=
            { (cb.board r c).piece with
              rank := white_major_type c, name := white_major_name c, side := Side.White } }
      else if r = 1 then
        { cb.board r c with piece :=
            { (cb.board r c).piece with
              rank := Rank.Pawn, name := white_minor_name c, side := Side.White } }
      else if r = 6 then
        { cb.board r c with piece :=
            { (cb.board r c).piece with
              rank := Rank.Pawn, name := black_minor_name c, side := Side.Black } }
      else if r = 7 then
        { cb.board r c with piece :=
            { (cb.board r c).piece with
              rank := black_major_type c, name := black_major_name c, side := Side.Black } }
      else if r = 2 ∨ r = 3 ∨ r = 4 then
        { cb.board r c with piece := (cb.board r c).piece.clear }
      else cb.board r c := by
  have hmem : c ∈ one_rank := (mem_one_rank c).2 hc
  rw [reset_eq, for_cells_board _ one_rank one_rank_nodup black_ranks (by decide),
    for_cells_board _ one_rank one_rank_nodup white_ranks (by decide),
    for_cells_board _ one_rank one_rank_nodup center_ranks (by decide)]
  simp only [hmem, and_true, black_ranks, white_ranks, center_ranks, List.mem_cons,
    List.mem_singleton, List.not_mem_nil, or_false]
  by_cases h0 : r = 0
  · subst h0; simp
  · by_cases h1 : r = 1
    · subst h1; simp
    · by_cases h6 : r = 6
      · subst h6; simp [Piece.clear]
      · by_cases h7 : r = 7
        · subst h7; simp
        · by_cases h2 : r = 2
          · subst h2; simp
          · by_cases h3 : r = 3
            · subst h3; simp
            · by_cases h4 : r = 4
              · subst h4; simp
              · simp [h0, h1, h2, h3, h4, h6, h7]

theorem stepGame_plays : (freshBoard.play stepGame).isSome = true := by decide

/-- C25, the code: for every state `reset()` empties every cell of rows 2, 3 and 4 and
leaves every cell of row 5 exactly as it was (`center_ranks` lists 2, 3, 4 and 6); after
the Black pawn of (6,0) has stepped to (5,0) on a fresh board, a state reached by play,
`reset()` leaves that pawn on (5,0). -/
theorem C25_reset_keeps_row5 :
    (∀ (cb : Chessboard) (r c : Int), (r = 2 ∨ r = 3 ∨ r = 4) → (0 ≤ c ∧ c < 8) →
      (cb.reset.board r c).has_piece = false) ∧
    (∀ (cb : Chessboard) (c : Int), (0 ≤ c ∧ c < 8) → cb.reset.board 5 c = cb.board 5 c) ∧
    Reachable steppedBoard ∧
    (steppedBoard.reset.board 5 0).has_piece = true ∧
    (steppedBoard.reset.board 5 0).piece.rank = Rank.Pawn ∧
    (steppedBoard.reset.board 5 0).piece.side = Side.Black := by
  refine ⟨?_, ?_, play_getD_reachable stepGame stepGame_plays, ?_, ?_, ?_⟩
  · intro cb r c hr hc
    rw [reset_board cb r c hc]
    rcases hr with h | h | h <;> subst h <;>
      simp [Cell.has_piece, Piece.is_empty, Piece.clear]
  · intro cb c hc
    rw [reset_board cb 5 c hc]
    simp
  · rw [reset_board steppedBoard 5 0 (by decide)]; decide
  · rw [reset_board steppedBoard 5 0 (by decide)]; decide
  · rw [reset_board steppedBoard 5 0 (by decide)]; decide

theorem C25_reset_keeps_row5_witness :
    (0 ≤ (0 : Int) ∧ (0 : Int) < 8) ∧ steppedBoard.reset.board 5 0 = steppedBoard.board 5 0 :=
  ⟨by decide, C25_reset_keeps_row5.2.1 steppedBoard 0 (by decide)⟩

/-- C26, the code: for every state, after `reset()` row 1 holds eight White Pawns and row
6 eight Black Pawns, each cell (0,c) holds a White piece of rank `white_major_type[c]`
and each cell (7,c) a Black piece of rank `black_major_type[c]`; the two tables agree on
columns 0, 1, 2, 5, 6, 7 and differ on columns 3 and 4: the White King of (0,3) faces the
Black Queen of (7,3) and the White Queen of (0,4) faces the Black King of (7,4). -/
theorem C26_reset_back_rows :
    (∀ (cb : Chessboard) (c : Int), (0 ≤ c ∧ c < 8) →
      ((cb.reset.board 1 c).piece.rank = Rank.Pawn ∧
        (cb.reset.board 1 c).piece.side = Side.White) ∧
      ((cb.reset.board 6 c).piece.rank = Rank.Pawn ∧
        (cb.reset.board 6 c).piece.side = Side.Black) ∧
      ((cb.reset.board 0 c).has_piece = true ∧
        (cb.reset.board 0 c).piece.rank = white_major_type c ∧
        (cb.reset.board 0 c).piece.side = Side.White) ∧
      ((cb.reset.board 7 c).has_piece = true ∧
        (cb.reset.board 7 c).piece.rank = black_major_type c ∧
        (cb.reset.board 7 c).piece.side = Side.Black) ∧
      ((cb.reset.board 0 c).piece.rank = (cb.reset.board 7 c).piece.rank ↔
        (c ≠ 3 ∧ c ≠ 4))) ∧
    (∀ cb : Chessboard,
      (cb.reset.board 0 3).piece.rank = Rank.King ∧
      (cb.reset.board 7 3).piece.rank = Rank.Queen ∧
      (cb.reset.board 0 4).piece.rank = Rank.Queen ∧
      (cb.reset.board 7 4).piece.rank = Rank.King) := by
  constructor
  · intro cb c hc
    rw [reset_board cb 1 c hc, reset_board cb 6 c hc, reset_board cb 0 c hc,
      reset_board cb 7 c hc]
    obtain ⟨h0, h8⟩ := hc
    interval_cases c <;>
      simp [Cell.has_piece, Piece.is_empty, white_major_type, black_major_type]
  · intro cb
    rw [reset_board cb 0 3 (by decide), reset_board cb 7 3 (by decide),
      reset_board cb 0 4 (by decide), reset_board cb 7 4 (by decide)]
    simp [white_major_type, black_major_type]

theorem C26_reset_back_rows_witness :
    (0 ≤ (3 : Int) ∧ (3 : Int) < 8) ∧
    ((freshBoard.reset.board 0 3).piece.rank = (freshBoard.reset.board 7 3).piece.rank ↔
      ((3 : Int) ≠ 3 ∧ (3 : Int) ≠ 4)) :=
  ⟨by decide, (C26_reset_back_rows.1 freshBoard 3 (by decide)).2.2.2.2⟩

theorem knightGame_plays : (freshBoard.play knightGame).isSome = true := by decide

theorem modify_piece_flags (cb : Chessboard) (r c : Int) (f : Piece → Piece)
    (hf : ∀ p : Piece, (f p).first_move = p.first_move ∧ (f p).captured = p.captured ∧
      (f p).in_check = p.in_check) (i j : Int) :
    ((cb.modify_piece r c f).board i j).piece.first_move = (cb.board i j).piece.first_move ∧
    ((cb.modify_piece r c f).board i j).piece.captured = (cb.board i j).piece.captured ∧
    ((cb.modify_piece r c f).board i j).piece.in_check = (cb.board i j).piece.in_check := by
  rw [modify_piece_board]
  by_cases h : i = r ∧ j = c
  · obtain ⟨e1, e2⟩ := h
    subst e1; subst e2
    simp only [and_self, if_true]
    exact hf _
  · rw [if_neg h]
    exact ⟨rfl, rfl, rfl⟩

/-- For every state and every cell, `reset` leaves the has-moved, captured and in-check
flags of the piece as they were. -/
theorem reset_flags (cb : Chessboard) (r c : Int) :
    (cb.reset.board r c).piece.first_move = (cb.board r c).piece.first_move ∧
    (cb.reset.board r c).piece.captured = (cb.board r c).piece.captured ∧
    (cb.reset.board r c).piece.in_check = (cb.board r c).piece.in_check := by
  rw [reset_eq]
  apply for_cells_preserves (fun st =>
    (st.board r c).piece.first_move = (cb.board r c).piece.first_move ∧
    (st.board r c).piece.captured = (cb.board r c).piece.captured ∧
    (st.board r c).piece.in_check = (cb.board r c).piece.in_check)
  · intro row col st hst
    have h := modify_piece_flags st row col (fun p =>
      { (if row = 6 then { p with rank := Rank.Pawn, name := black_minor_name col }
          else { p with rank := black_major_type col, name := black_major_name col })
        with side := Side.Black })
      (by intro p; by_cases h6 : row = 6 <;> simp [h6]) r c
    exact ⟨h.1.trans hst.1, h.2.1.trans hst.2.1, h.2.2.trans hst.2.2⟩
  · apply for_cells_preserves (fun st =>
      (st.board r c).piece.first_move = (cb.board r c).piece.first_move ∧
      (st.board r c).piece.captured = (cb.board r c).piece.captured ∧
      (st.board r c).piece.in_check = (cb.board r c).piece.in_check)
    · intro row col st hst
      have h := modify_piece_flags st row col (fun p =>
        { (if row = 0 then { p with rank := white_major_type col, name := white_major_name col }
            else { p with rank := Rank.Pawn, name := white_minor_name col })
          with side := Side.White })
        (by intro p; by_cases h0 : row = 0 <;> simp [h0]) r c
      exact ⟨h.1.trans hst.1, h.2.1.trans hst.2.1, h.2.2.trans hst.2.2⟩
    · apply for_cells_preserves (fun st =>
        (st.board r c).piece.first_move = (cb.board r c).piece.first_move ∧
        (st.board r c).piece.captured = (cb.board r c).piece.captured ∧
        (st.board r c).piece.in_check = (cb.board r c).piece.in_check)
      · intro row col st hst
        have h := modify_piece_flags st row col Piece.clear
          (fun p => ⟨rfl, rfl, rfl⟩) r c
        exact ⟨h.1.trans hst.1, h.2.1.trans hst.2.1, h.2.2.trans hst.2.2⟩
      · exact ⟨rfl, rfl, rfl⟩

/-- C27, the code: for every state and every cell, `reset()` leaves the has-moved,
captured and in-check flags of the piece as they were; after the knight of (0,1) has
gone to (2,2) and back on a fresh board, a state reached by play, `reset()` leaves it on
(0,1) with has-moved true, where the fresh board has has-moved false. -/
theorem C27_reset_keeps_flags :
    (∀ (cb : Chessboard) (r c : Int),
      (cb.reset.board r c).piece.has_moved = (cb.board r c).piece.has_moved ∧
      (cb.reset.board r c).piece.is_captured = (cb.board r c).piece.is_captured ∧
      (cb.reset.board r c).piece.is_checked = (cb.board r c).piece.is_checked) ∧
    Reachable knightBackBoard ∧
    (knightBackBoard.reset.board 0 1).piece.rank = Rank.Knight ∧
    (knightBackBoard.reset.board 0 1).piece.has_moved = true ∧
    (freshBoard.board 0 1).piece.has_moved = false := by
  refine ⟨?_, play_getD_reachable knightGame knightGame_plays, ?_, ?_, by decide⟩
  · intro cb r c
    obtain ⟨h1, h2, h3⟩ := reset_flags cb r c
    unfold Piece.has_moved Piece.is_captured Piece.is_checked
    rw [h1, h2, h3]
    exact ⟨rfl, rfl, rfl⟩
  · rw [reset_board knightBackBoard 0 1 (by decide)]; decide
  · unfold Piece.has_moved
    rw [(reset_flags knightBackBoard 0 1).1]; decide

/-! ## Looking a piece up by name -/

theorem find?_some_first {α : Type} (lt : α → α → Prop)
    (hasym : ∀ x y : α, lt x y → ¬ lt y x) (p : α → Bool) (l : List α)
    (hs : l.Pairwise lt) (a : α) (h : l.find? p = some a) :
    a ∈ l ∧ p a = true ∧ ∀ b ∈ l, lt b a → p b = false := by
  obtain ⟨hpa, as, bs, hl, hbefore⟩ := List.find?_eq_some.mp h
  subst hl
  refine ⟨by simp, hpa, ?_⟩
  intro b hb hlt
  rw [List.pairwise_append] at hs
  obtain ⟨_, hs2, _⟩ := hs
  rw [List.pairwise_cons] at hs2
  rcases List.mem_append.mp hb with hb1 | hb2
  · have := hbefore b hb1
    simpa using this
  · rcases List.mem_cons.mp hb2 with e | hb3
    · subst e
      exact absurd hlt (hasym _ _ hlt)
    · exact absurd hlt (hasym _ _ (hs2.1 b hb3))

theorem rowMajorLt_asymm (x y : Int × Int) (h : rowMajorLt x y) : ¬ rowMajorLt y x := by
  unfold rowMajorLt at *
  omega

theorem board_positions_sorted : board_positions.Pairwise rowMajorLt := by decide

theorem one_side_sorted : one_side.Pairwise (fun a b : Int => a < b) := by decide

theorem mem_one_side (i : Int) : i ∈ one_side ↔ (0 ≤ i ∧ i < 16) := by
  simp only [one_side, List.mem_cons, List.mem_singleton, List.not_mem_nil, or_false]
  omega

theorem find_piece_unfold (cb : Chessboard) (name : String) :
    cb.find_piece name =
      match board_positions.find? fun rc => (cb.board rc.1 rc.2).holds name with
      | some rc => some (CellRef.Board rc.1 rc.2)
      | none =>
        match one_side.find? fun i => (cb.black_capture i).holds name with
        | some i => some (CellRef.BlackCapture i)
        | none =>
          match one_side.find? fun i => (cb.white_capture i).holds name with
          | some i => some (CellRef.WhiteCapture i)
          | none => none := rfl

theorem find_board_none (cb : Chessboard) (name : String) :
    (board_positions.find? fun rc => (cb.board rc.1 rc.2).holds name) = none ↔
      ∀ r c : Int, inRange r c → (cb.board r c).holds name = false := by
  rw [List.find?_eq_none]
  constructor
  · intro h r c hr
    have := h (r, c) ((mem_board_positions r c).mpr hr)
    simpa using this
  · rintro h ⟨r, c⟩ hm
    rw [h r c ((mem_board_positions r c).mp hm)]
    simp

theorem find_side_none (hold : Int → Cell) (name : String) :
    (one_side.find? fun i => (hold i).holds name) = none ↔
      ∀ i : Int, 0 ≤ i ∧ i < 16 → (hold i).holds name = false := by
  rw [List.find?_eq_none]
  constructor
  · intro h i hi
    have := h i ((mem_one_side i).mpr hi)
    simpa using this
  · intro h i hm
    rw [h i ((mem_one_side i).mp hm)]
    simp

theorem find_board_some (cb : Chessboard) (name : String) (row col : Int)
    (h : (board_positions.find? fun rc => (cb.board rc.1 rc.2).holds name) =
      some (row, col)) :
    inRange row col ∧ (cb.board row col).holds name = true ∧
      ∀ r c : Int, inRange r c → rowMajorLt (r, c) (row, col) →
        (cb.board r c).holds name = false := by
  obtain ⟨hm, hp, hfirst⟩ := find?_some_first rowMajorLt rowMajorLt_asymm _ _
    board_positions_sorted _ h
  refine ⟨(mem_board_positions row col).mp hm, hp, ?_⟩
  intro r c hr hlt
  exact hfirst (r, c) ((mem_board_positions r c).mpr hr) hlt

theorem find_side_some (hold : Int → Cell) (name : String) (i : Int)
    (h : (one_side.find? fun i => (hold i).holds name) = some i) :
    (0 ≤ i ∧ i < 16) ∧ (hold i).holds name = true ∧
      ∀ j : Int, 0 ≤ j → j < i → (hold j).holds name = false := by
  obtain ⟨hm, hp, hfirst⟩ := find?_some_first (fun a b : Int => a < b)
    (fun x y hxy => by omega) _ _ one_side_sorted _ h
  have hi := (mem_one_side i).mp hm
  refine ⟨hi, hp, ?_⟩
  intro j hj hlt
  exact hfirst j ((mem_one_side j).mpr ⟨hj, by omega⟩) hlt

/-- C28: for every state and every name, `find_piece(name)` raises its error exactly when
no board cell and no holding cell has a piece with that name; when it returns, the cell
has a piece with that name, and it is the first board cell in row-major order that has
one, or else the first such cell of Black's holding area, or else the first such cell of
White's holding area. -/
theorem C28_find_piece (cb : Chessboard) (name : String) :
    (cb.find_piece name = none ↔
      ((∀ r c : Int, inRange r c → (cb.board r c).holds name = false) ∧
       (∀ i : Int, 0 ≤ i ∧ i < 16 → (cb.black_capture i).holds name = false) ∧
       (∀ i : Int, 0 ≤ i ∧ i < 16 → (cb.white_capture i).holds name = false))) ∧
    (∀ ref : CellRef, cb.find_piece name = some ref →
      (cb.deref ref).has_piece = true ∧ (cb.deref ref).piece.name = name) ∧
    (∀ row col : Int, cb.find_piece name = some (CellRef.Board row col) →
      inRange row col ∧
      ∀ r c : Int, inRange r c → rowMajorLt (r, c) (row, col) →
        (cb.board r c).holds name = false) ∧
    (∀ i : Int, cb.find_piece name = some (CellRef.BlackCapture i) →
      (0 ≤ i ∧ i < 16) ∧
      (∀ r c : Int, inRange r c → (cb.board r c).holds name = false) ∧
      ∀ j : Int, 0 ≤ j → j < i → (cb.black_capture j).holds name = false) ∧
    (∀ i : Int, cb.find_piece name = some (CellRef.WhiteCapture i) →
      (0 ≤ i ∧ i < 16) ∧
      (∀ r c : Int, inRange r c → (cb.board r c).holds name = false) ∧
      (∀ j : Int, 0 ≤ j ∧ j < 16 → (cb.black_capture j).holds name = false) ∧
      ∀ j : Int, 0 ≤ j → j < i → (cb.white_capture j).holds name = false) := by
  have hholds : ∀ cell : Cell, cell.holds name = true →
      cell.has_piece = true ∧ cell.piece.name = name := by
    intro cell h
    unfold Cell.holds at h
    simpa using h
  rw [find_piece_unfold]
  cases hB : board_positions.find? fun rc => (cb.board rc.1 rc.2).holds name with
  | some rc =>
    obtain ⟨row, col⟩ := rc
    obtain ⟨hr, hp, hfirst⟩ := find_board_some cb name row col hB
    refine ⟨?_, ?_, ?_, ?_, ?_⟩
    · constructor
      · intro h
        exact absurd h (by simp)
      · rintro ⟨hno, _, _⟩
        rw [hno row col hr] at hp
        exact absurd hp (by decide)
    · intro ref href
      simp only [Option.some.injEq] at href
      subst href
      exact hholds _ hp
    · intro row2 col2 href
      simp only [Option.some.injEq, CellRef.Board.injEq] at href
      obtain ⟨e1, e2⟩ := href
      subst e1; subst e2
      exact ⟨hr, hfirst⟩
    · intro i href
      simp at href
    · intro i href
      simp at href
  | none =>
    have hnoB := (find_board_none cb name).mp hB
    simp only
    cases hK : one_side.find? fun i => (cb.black_capture i).holds name with
    | some i =>
      obtain ⟨hi, hp, hfirst⟩ := find_side_some cb.black_capture name i hK
      refine ⟨?_, ?_, ?_, ?_, ?_⟩
      · constructor
        · intro h
          exact absurd h (by simp)
        · rintro ⟨_, hno, _⟩
          rw [hno i hi] at hp
          exact absurd hp (by decide)
      · intro ref href
        simp only [Option.some.injEq] at href
        subst href
        exact hholds _ hp
      · intro row2 col2 href
        simp at href
      · intro i2 href
        simp only [Option.some.injEq, CellRef.BlackCapture.injEq] at href
        subst href
        exact ⟨hi, hnoB, hfirst⟩
      · intro i2 href
        simp at href
    | none =>
      have hnoK := (find_side_none cb.black_capture name).mp hK
      simp only
      cases hW : one_side.find? fun i => (cb.white_capture i).holds name with
      | some i =>
        obtain ⟨hi, hp, hfirst⟩ := find_side_some cb.white_capture name i hW
        refine ⟨?_, ?_, ?_, ?_, ?_⟩
        · constructor
          · intro h
            exact absurd h (by simp)
          · rintro ⟨_, _, hno⟩
            rw [hno i hi] at hp
            exact absurd hp (by decide)
        · intro ref href
          simp only [Option.some.injEq] at href
          subst href
          exact hholds _ hp
        · intro row2 col2 href
          simp at href
        · intro i2 href
          simp at href
        · intro i2 href
          simp only [Option.some.injEq, CellRef.WhiteCapture.injEq] at href
          subst href
          exact ⟨hi, hnoB, hnoK, hfirst⟩
      | none =>
        have hnoW := (find_side_none cb.white_capture name).mp hW
        refine ⟨?_, ?_, ?_, ?_, ?_⟩
        · simp only [true_iff]
          exact ⟨hnoB, hnoK, hnoW⟩
        · intro ref href
          simp at href
        · intro row2 col2 href
          simp at href
        · intro i2 href
          simp at href
        · intro i2 href
          simp at href

theorem capturedBoard_find : capturedBoard.find_piece "BP4" = some (CellRef.WhiteCapture 0) := by
  decide

theorem C28_find_piece_witness :
    (0 ≤ (0 : Int) ∧ (0 : Int) < 16) ∧
    (∀ r c : Int, inRange r c → (capturedBoard.board r c).holds "BP4" = false) ∧
    (∀ j : Int, 0 ≤ j ∧ j < 16 → (capturedBoard.black_capture j).holds "BP4" = false) ∧
    ∀ j : Int, 0 ≤ j → j < 0 → (capturedBoard.white_capture j).holds "BP4" = false :=
  (C28_find_piece capturedBoard "BP4").2.2.2.2 0 capturedBoard_find

/-! ## Marker names -/

theorem marker_node_names_length : marker_node_names.length = 128 := by
  simp [marker_node_names, one_rank]

theorem marker_head (kind : Marker) : "Marker." ++ kind.text ++ "." =
    (match kind with
      | Marker.Move => "Marker.Move."
      | Marker.Attack => "Marker.Attack.") := by
  cases kind <;> decide

theorem target_name_mem (kind : Marker) (r c : Int) (h : inRange r c) :
    (Target.mk kind r c).name ∈ marker_node_names := by
  unfold inRange at h
  have hr : r ∈ one_rank := (mem_one_rank r).2 ⟨h.1, h.2.1⟩
  have hc : c ∈ one_rank := (mem_one_rank c).2 ⟨h.2.2.1, h.2.2.2⟩
  unfold Target.name marker_node_names
  simp only [marker_head]
  rw [List.mem_append]
  cases kind with
  | Move =>
    left
    simp only [List.mem_flatMap, List.mem_map]
    exact ⟨r, hr, c, hc, rfl⟩
  | Attack =>
    right
    simp only [List.mem_flatMap, List.mem_map]
    exact ⟨r, hr, c, hc, rfl⟩

theorem parse_target_name (kind : Marker) (r c : Int) (h : inRange r c) :
    parse_marker (Target.mk kind r c).name = some (r, c) := by
  unfold inRange at h
  obtain ⟨h1, h2, h3, h4⟩ := h
  interval_cases r <;> interval_cases c <;> cases kind <;> decide

/-- C29: for every row and column in 0..7 and both kinds, the identifier of the target is
the name of one of the 128 marker nodes created by `construct_move_squares` and
`construct_capture_squares`, and the parsing of `process_pick` applied to it gives back
exactly (row, col). -/
theorem C29_marker_round_trip (kind : Marker) (r c : Int) (h : inRange r c) :
    (Target.mk kind r c).name ∈ marker_node_names ∧
    marker_node_names.length = 128 ∧
    parse_marker (Target.mk kind r c).name = some (r, c) :=
  ⟨target_name_mem kind r c h, marker_node_names_length, parse_target_name kind r c h⟩

theorem C29_marker_round_trip_witness :
    inRange 7 0 ∧
    (Target.mk Marker.Attack 7 0).name ∈ marker_node_names ∧
    marker_node_names.length = 128 ∧
    parse_marker (Target.mk Marker.Attack 7 0).name = some (7, 0) :=
  ⟨by decide, C29_marker_round_trip Marker.Attack 7 0 (by decide)⟩

/-! ## Reads outside the board -/

theorem probe_none (cb : Chessboard) (r c : Int) (test : Piece → Bool)
    (h : ¬ inRange r c) : cb.probe true r c test = none := by
  simp [Chessboard.probe, Chessboard.cell, h]

/-- The White branch of `calc_pawn_moves` returns when the second square, if it is read,
is on the board. -/
theorem calc_pawn_moves_white_some (cb : Chessboard) {r c : Int} (h : inRange r c)
    (hs : (cb.board r c).piece.side = Side.White)
    (hfar : (cb.board r c).piece.has_moved = false →
      (cb.board (r + 1) c).piece.rank = Rank.Empty → r ≠ 6) :
    ∃ paths : Paths, cb.calc_pawn_moves r c = some paths := by
  have hr := h
  unfold inRange at hr
  simp only [Chessboard.calc_pawn_moves, cell_eq_some cb h, Option.some_bind, hs, if_true]
  rw [probe_eq cb _ (r + 1) c _ (by simp only [decide_eq_true_eq, inRange]; omega)]
  simp only [Option.some_bind]
  rw [probe_eq cb _ (r + 2) c _ (by
    intro hg
    simp only [Bool.and_eq_true, decide_eq_true_eq, Bool.not_eq_true'] at hg
    have := hfar hg.2 hg.1.2
    have := hg.1.1
    unfold inRange; omega)]
  simp only [Option.some_bind]
  rw [probe_eq cb _ (r + 1) (c - 1) _ (by
    simp only [Bool.and_eq_true, decide_eq_true_eq, inRange]; omega)]
  simp only [Option.some_bind]
  rw [probe_eq cb _ (r + 1) (c + 1) _ (by
    simp only [Bool.and_eq_true, decide_eq_true_eq, inRange]; omega)]
  simp only [Option.some_bind]
  exact ⟨_, rfl⟩

/-- The White branch of `calc_pawn_moves` reads `board[8][c]` for a pawn of row 6 that
has not moved and has row 7 free ahead. -/
theorem calc_pawn_moves_white_none (cb : Chessboard) {c : Int} (h : inRange 6 c)
    (hs : (cb.board 6 c).piece.side = Side.White)
    (hm : (cb.board 6 c).piece.has_moved = false)
    (he : (cb.board 7 c).piece.rank = Rank.Empty) :
    cb.calc_pawn_moves 6 c = none := by
  have hr := h
  unfold inRange at hr
  simp only [Chessboard.calc_pawn_moves, cell_eq_some cb h, Option.some_bind, hs, if_true]
  rw [probe_eq cb _ (6 + 1) c _ (by simp only [decide_eq_true_eq, inRange]; omega)]
  simp only [Option.some_bind]
  have h7 : (cb.board (6 + 1) c).piece.rank = Rank.Empty := he
  have hg : ((decide ((6 : Int) < 7) && decide ((cb.board (6 + 1) c).piece.rank = Rank.Empty)) &&
      !(cb.board 6 c).piece.has_moved) = true := by
    simp [he, hm]
  rw [hg, probe_none cb (6 + 2) c _ (by unfold inRange; omega)]
  rfl

/-- The Black branch of `calc_pawn_moves` returns when the second square, if it is read,
is on the board. -/
theorem calc_pawn_moves_black_some (cb : Chessboard) {r c : Int} (h : inRange r c)
    (hs : (cb.board r c).piece.side = Side.Black)
    (hfar : (cb.board r c).piece.has_moved = false → 2 ≤ r) :
    ∃ paths : Paths, cb.calc_pawn_moves r c = some paths := by
  have hr := h
  unfold inRange at hr
  have hne : ¬ (Side.Black = Side.White) := by decide
  simp only [Chessboard.calc_pawn_moves, cell_eq_some cb h, Option.some_bind, hs, hne, if_false]
  rw [probe_eq cb _ (r - 1) c _ (by simp only [decide_eq_true_eq, inRange]; omega)]
  simp only [Option.some_bind]
  rw [probe_eq cb _ (r - 2) c _ (by
    intro hg
    simp only [Bool.not_eq_true'] at hg
    have := hfar hg
    unfold inRange; omega)]
  simp only [Option.some_bind]
  rw [probe_eq cb _ (r - 1) (c + 1) _ (by
    simp only [Bool.and_eq_true, decide_eq_true_eq, inRange]; omega)]
  simp only [Option.some_bind]
  rw [probe_eq cb _ (r - 1) (c - 1) _ (by
    simp only [Bool.and_eq_true, decide_eq_true_eq, inRange]; omega)]
  simp only [Option.some_bind]
  exact ⟨_, rfl⟩

/-- The Black branch of `calc_pawn_moves` reads `board[r - 2][c]` below row 0 for a pawn
of row 0 or 1 that has not moved. -/
theorem calc_pawn_moves_black_none (cb : Chessboard) {r c : Int} (h : inRange r c)
    (hs : (cb.board r c).piece.side = Side.Black)
    (hm : (cb.board r c).piece.has_moved = false) (hlow : r ≤ 1) :
    cb.calc_pawn_moves r c = none := by
  have hr := h
  unfold inRange at hr
  have hne : ¬ (Side.Black = Side.White) := by decide
  simp only [Chessboard.calc_pawn_moves, cell_eq_some cb h, Option.some_bind, hs, hne, if_false]
  rw [probe_eq cb _ (r - 1) c _ (by simp only [decide_eq_true_eq, inRange]; omega)]
  simp only [Option.some_bind]
  have hg : (!(cb.board r c).piece.has_moved) = true := by simp [hm]
  rw [hg, probe_none cb (r - 2) c _ (by unfold inRange; omega)]
  rfl

/-- Every generator but the pawn one returns on every board. -/
theorem calc_valid_paths_some (cb : Chessboard) {r c : Int} (h : inRange r c)
    (hk : (cb.board r c).piece.rank ≠ Rank.Pawn) :
    ∃ paths : Paths, cb.calc_valid_paths r c = some paths := by
  cases hrank : (cb.board r c).piece.rank with
  | Empty =>
    simp only [Chessboard.calc_valid_paths, cell_eq_some cb h, Option.some_bind, hrank]
    exact ⟨_, rfl⟩
  | Pawn => exact absurd hrank hk
  | Rook =>
    obtain ⟨up, down, right, left, ts, _, _, _, _, _, h6⟩ := calc_rook_moves_eq cb h
    rw [calc_valid_paths_rook cb h hrank, h6]
    exact ⟨_, rfl⟩
  | Knight =>
    simp only [Chessboard.calc_valid_paths, cell_eq_some cb h, Option.some_bind, hrank]
    rw [calc_knight_moves_eq cb h]
    exact ⟨_, rfl⟩
  | Bishop =>
    obtain ⟨d1, d2, d3, d4, _, _, _, _, h5⟩ := calc_bishop_moves_eq cb h
    rw [calc_valid_paths_bishop cb h hrank, h5]
    exact ⟨_, rfl⟩
  | King =>
    simp only [Chessboard.calc_valid_paths, cell_eq_some cb h, Option.some_bind, hrank,
      Chessboard.calc_king_moves]
    by_cases hc : (cb.board r c).piece.is_checked = true
    · exact ⟨[], by simp [hc]⟩
    · refine ⟨singlePaths cb (cb.board r c).piece.side r c kingOffsets, ?_⟩
      simp only [hc, if_false]
      rw [king_squares_eq, king_loop_eq]
      simp
  | Queen =>
    obtain ⟨d1, up, d2, left, right, d3, down, d4, _, _, _, _, _, _, _, _, h9⟩ :=
      calc_queen_moves_eq cb h
    rw [calc_valid_paths_queen cb h hrank, h9]
    exact ⟨_, rfl⟩

/-- C30 (amended): for every board state and every on-board square (r,c),
`valid_paths(r,c)` reads a board index outside 0..7 (the model answers `none`) exactly
when the square holds a Pawn with has-moved false that is White on row 6 with (7,c)
empty, where `board[8][c]` is read, or Black on row 0 or 1, where `board[r - 2][c]` is
read; in every other case it returns and every read is in range, in particular on every
board whose unmoved pawns stand on their start rows. -/
theorem C30_reads_in_range (cb : Chessboard) (r c : Int) (h : inRange r c) :
    (cb.valid_paths r c = none ↔
      ((cb.board r c).type = CellType.Board ∧ (cb.board r c).piece.rank = Rank.Pawn ∧
        (cb.board r c).piece.has_moved = false ∧
        (((cb.board r c).piece.side = Side.White ∧ r = 6 ∧
            (cb.board 7 c).piece.rank = Rank.Empty) ∨
          ((cb.board r c).piece.side = Side.Black ∧ r ≤ 1)))) ∧
    (PawnsOnStartRows cb → ∃ paths : Paths, cb.valid_paths r c = some paths) := by
  have hiff : cb.valid_paths r c = none ↔
      ((cb.board r c).type = CellType.Board ∧ (cb.board r c).piece.rank = Rank.Pawn ∧
        (cb.board r c).piece.has_moved = false ∧
        (((cb.board r c).piece.side = Side.White ∧ r = 6 ∧
            (cb.board 7 c).piece.rank = Rank.Empty) ∨
          ((cb.board r c).piece.side = Side.Black ∧ r ≤ 1))) := by
    by_cases hbe : (cb.board r c).type ≠ CellType.Board ∨ (cb.board r c).piece.rank = Rank.Empty
    · have hv : cb.valid_paths r c = some [] := by
        simp [Chessboard.valid_paths, cell_eq_some cb h, hbe]
      rw [hv]
      constructor
      · intro hh; exact absurd hh (by simp)
      · rintro ⟨hb, hp, _⟩
        rcases hbe with hbe | hbe
        · exact absurd hb hbe
        · rw [hp] at hbe; exact absurd hbe (by decide)
    · have hb : (cb.board r c).type = CellType.Board := by
        by_contra hne; exact hbe (Or.inl hne)
      have he : (cb.board r c).piece.rank ≠ Rank.Empty := fun hne => hbe (Or.inr hne)
      rw [valid_paths_eq_calc cb h hb he]
      by_cases hp : (cb.board r c).piece.rank = Rank.Pawn
      · rw [calc_valid_paths_pawn cb h hp]
        cases hs : (cb.board r c).piece.side with
        | White =>
          by_cases hfar : (cb.board r c).piece.has_moved = false ∧
              (cb.board (r + 1) c).piece.rank = Rank.Empty ∧ r = 6
          · obtain ⟨hm, hclear, h6⟩ := hfar
            subst h6
            rw [calc_pawn_moves_white_none cb h hs hm hclear]
            exact ⟨fun _ => ⟨hb, hp, hm, Or.inl ⟨rfl, rfl, hclear⟩⟩, fun _ => rfl⟩
          · obtain ⟨paths, hpaths⟩ := calc_pawn_moves_white_some cb h hs
              (fun hm hclear h6 => hfar ⟨hm, hclear, h6⟩)
            rw [hpaths]
            constructor
            · intro hh; exact absurd hh (by simp)
            · rintro ⟨_, _, hm, hcase | hcase⟩
              · obtain ⟨_, h6, hclear⟩ := hcase
                subst h6
                exact absurd ⟨hm, hclear, rfl⟩ hfar
              · exact absurd hcase.1 (by decide)
        | Black =>
          by_cases hfar : (cb.board r c).piece.has_moved = false ∧ r ≤ 1
          · rw [calc_pawn_moves_black_none cb h hs hfar.1 hfar.2]
            exact ⟨fun _ => ⟨hb, hp, hfar.1, Or.inr ⟨rfl, hfar.2⟩⟩, fun _ => rfl⟩
          · obtain ⟨paths, hpaths⟩ := calc_pawn_moves_black_some cb h hs
              (fun hm => by
                by_contra hlt
                exact hfar ⟨hm, by omega⟩)
            rw [hpaths]
            constructor
            · intro hh; exact absurd hh (by simp)
            · rintro ⟨_, _, hm, hcase | hcase⟩
              · exact absurd hcase.1 (by decide)
              · exact absurd ⟨hm, hcase.2⟩ hfar
      · obtain ⟨paths, hpaths⟩ := calc_valid_paths_some cb h hp
        rw [hpaths]
        constructor
        · intro hh; exact absurd hh (by simp)
        · rintro ⟨_, hp2, _⟩
          exact absurd hp2 hp
  refine ⟨hiff, ?_⟩
  intro hstart
  cases hv : cb.valid_paths r c with
  | some paths => exact ⟨paths, rfl⟩
  | none =>
    obtain ⟨_, hp, hm, hcase⟩ := hiff.mp hv
    have hst := hstart r c h hp hm
    have hr := h
    unfold inRange at hr
    rcases hcase with ⟨hs, h6, _⟩ | ⟨hs, hlow⟩
    · have := hst.1 hs
      omega
    · have := hst.2 hs
      omega

theorem C30_reads_in_range_witness :
    inRange 1 2 ∧ PawnsOnStartRows pawnBoard ∧
      ∃ paths : Paths, pawnBoard.valid_paths 1 2 = some paths :=
  ⟨by decide, pawnBoard_start, (C30_reads_in_range pawnBoard 1 2 (by decide)).2 pawnBoard_start⟩

/-- C30, as stated, fails: on the otherwise empty board with a White pawn that has never
moved on (6,0), `valid_paths(6,0)` finds (7,0) empty and reads `board[8][0]`, an index
outside 0..7. -/
theorem C30_counterexample :
    inRange 6 0 ∧ (farPawnBoard.board 6 0).has_piece = true ∧
    (farPawnBoard.cell (6 + 2) 0 = none) ∧
    farPawnBoard.valid_paths 6 0 = none :=
  ⟨by decide, by decide, by decide, by decide⟩

/-! ## A lone knight -/

theorem valid_paths_knight (cb : Chessboard) {r c : Int} (h : inRange r c)
    (hb : (cb.board r c).type = CellType.Board)
    (hk : (cb.board r c).piece.rank = Rank.Knight) :
    cb.valid_paths r c =
      some (singlePaths cb (cb.board r c).piece.side r c knightOffsets) := by
  rw [valid_paths_eq_calc cb h hb (by rw [hk]; decide)]
  simp only [Chessboard.calc_valid_paths, cell_eq_some cb h, Option.some_bind, hk]
  rw [calc_knight_moves_eq cb h]

theorem offer_only (cb : Chessboard) (s : Side) (r c : Int) (honly : OnlyPieceAt cb r c)
    (d : Int × Int) (hd : d.1 ≠ 0 ∨ d.2 ≠ 0) :
    offer cb s (r + d.1) (c + d.2) =
      if inRange (r + d.1) (c + d.2) then some (Target.mk Marker.Move (r + d.1) (c + d.2))
      else none := by
  unfold offer
  by_cases hin : inRange (r + d.1) (c + d.2)
  · rw [if_pos hin, if_pos hin, if_pos (honly _ _ hin (by omega))]
  · rw [if_neg hin, if_neg hin]

theorem singlePaths_only (cb : Chessboard) (s : Side) (r c : Int)
    (honly : OnlyPieceAt cb r c) (offsets : List (Int × Int))
    (hoff : ∀ d ∈ offsets, d.1 ≠ 0 ∨ d.2 ≠ 0) :
    singlePaths cb s r c offsets =
      (offsets.filterMap fun d =>
        if inRange (r + d.1) (c + d.2) then some (Target.mk Marker.Move (r + d.1) (c + d.2))
        else none).map fun t => [t] := by
  unfold singlePaths
  congr 1
  apply List.filterMap_congr
  intro d hd
  exact offer_only cb s r c honly d (hoff d hd)

theorem all_move_of_paths (paths : Paths)
    (h : ∀ p ∈ paths, ∀ t ∈ p, t.kind = Marker.Move) :
    ∀ t : Target, Offered paths t → t.kind = Marker.Move := by
  rintro t ⟨p, hp, ht⟩
  exact h p hp t ht

theorem knightOffsets_nonzero : ∀ d ∈ knightOffsets, d.1 ≠ 0 ∨ d.2 ≠ 0 := by decide

/-- C32: on a board whose only piece is a Knight, `valid_paths` returns exactly 2 targets
from each of the four corners and exactly 8 targets from every square with row and
column both in 2..5, each path holding one target, all of them Move targets. -/
theorem C32_lone_knight (cb : Chessboard) (r c : Int)
    (hb : (cb.board r c).type = CellType.Board)
    (hk : (cb.board r c).piece.rank = Rank.Knight)
    (honly : OnlyPieceAt cb r c) :
    (((r = 0 ∨ r = 7) ∧ (c = 0 ∨ c = 7)) →
      ∃ paths : Paths, cb.valid_paths r c = some paths ∧
        target_count paths = 2 ∧ paths.length = 2 ∧
        ∀ t : Target, Offered paths t → t.kind = Marker.Move) ∧
    ((2 ≤ r ∧ r ≤ 5 ∧ 2 ≤ c ∧ c ≤ 5) →
      ∃ paths : Paths, cb.valid_paths r c = some paths ∧
        target_count paths = 8 ∧ paths.length = 8 ∧
        ∀ t : Target, Offered paths t → t.kind = Marker.Move) := by
  constructor
  · rintro ⟨hr, hc⟩
    have h : inRange r c := by unfold inRange; omega
    refine ⟨_, valid_paths_knight cb h hb hk, ?_⟩
    rw [singlePaths_only cb _ r c honly knightOffsets knightOffsets_nonzero]
    rcases hr with hr | hr <;> rcases hc with hc | hc <;> subst hr <;> subst hc <;>
      exact ⟨by decide, by decide, all_move_of_paths _ (by decide)⟩
  · rintro ⟨h1, h2, h3, h4⟩
    have h : inRange r c := by unfold inRange; omega
    refine ⟨_, valid_paths_knight cb h hb hk, ?_⟩
    rw [singlePaths_only cb _ r c honly knightOffsets knightOffsets_nonzero]
    interval_cases r <;> interval_cases c <;>
      exact ⟨by decide, by decide, all_move_of_paths _ (by decide)⟩

theorem onlyPieceAt_loneBoard (r c : Int) (p : Piece) : OnlyPieceAt (loneBoard r c p) r c := by
  intro i j _ hij
  unfold loneBoard
  rw [place_board_other emptyBoard r c p i j hij]
  rfl

theorem C32_lone_knight_witness :
    ∃ paths : Paths,
      (loneBoard 0 7 { rank := Rank.Knight, side := Side.Black }).valid_paths 0 7 =
        some paths ∧
      target_count paths = 2 ∧ paths.length = 2 ∧
      ∀ t : Target, Offered paths t → t.kind = Marker.Move :=
  (C32_lone_knight (loneBoard 0 7 { rank := Rank.Knight, side := Side.Black }) 0 7
    (by decide) (by decide) (onlyPieceAt_loneBoard 0 7 _)).1 (by decide)

/-! ## A lone rook -/

theorem isRun_only (cb : Chessboard) (s : Side) (r c dr dc : Int) (run : Path)
    (honly : OnlyPieceAt cb r c) (hd : dr ≠ 0 ∨ dc ≠ 0)
    (hrun : IsRun cb s r c dr dc run) :
    ∃ n : Nat, run = runMoves r c dr dc n ∧
      (∀ k : Nat, 1 ≤ k → k ≤ n → inRange (r + (k : Int) * dr) (c + (k : Int) * dc)) ∧
      ¬ inRange (r + ((n : Int) + 1) * dr) (c + ((n : Int) + 1) * dc) := by
  obtain ⟨n, hall, hend⟩ := hrun
  have hne : ¬ (r + ((n : Int) + 1) * dr = r ∧ c + ((n : Int) + 1) * dc = c) := by
    rintro ⟨e1, e2⟩
    have e3 : ((n : Int) + 1) * dr = 0 := by omega
    have e4 : ((n : Int) + 1) * dc = 0 := by omega
    have hn : ((n : Int) + 1) ≠ 0 := by omega
    rcases hd with hd | hd
    · rcases mul_eq_zero.mp e3 with h | h
      · exact hn h
      · exact hd h
    · rcases mul_eq_zero.mp e4 with h | h
      · exact hn h
      · exact hd h
  refine ⟨n, ?_, fun k h1 h2 => (hall k h1 h2).1, ?_⟩
  · rcases hend with ⟨_, h⟩ | ⟨hin, hrank, _⟩ | ⟨hin, hrank, _⟩
    · exact h
    · exact absurd (honly _ _ hin hne) hrank
    · exact absurd (honly _ _ hin hne) hrank
  · rcases hend with ⟨h, _⟩ | ⟨hin, hrank, _⟩ | ⟨hin, hrank, _⟩
    · exact h
    · exact absurd (honly _ _ hin hne) hrank
    · exact absurd (honly _ _ hin hne) hrank

theorem castleOutcome_only (cb : Chessboard) (piece : Piece) (r c : Int) (ts : Path)
    (h : inRange r c) (honly : OnlyPieceAt cb r c)
    (hc : CastleOutcome cb piece r c ts) : ts = [] := by
  have hr := h
  unfold inRange at hr
  rcases hc with ⟨_, k, hk, _⟩ | ⟨_, _, k, hk, _⟩ | ⟨_, hts⟩
  · obtain ⟨k0, kc, hrank, _⟩ := hk
    exact absurd (honly r k (by unfold inRange; omega) (by omega)) hrank
  · obtain ⟨kc, k8, hrank, _⟩ := hk
    exact absurd (honly r k (by unfold inRange; omega) (by omega)) hrank
  · exact hts

/-- On a board whose only piece is a Rook, the result is the non-empty ones of the four
runs to the edges of the board, in the order up, down, right, left. -/
theorem lone_rook_paths (cb : Chessboard) (r c : Int) (h : inRange r c)
    (hb : (cb.board r c).type = CellType.Board)
    (hk : (cb.board r c).piece.rank = Rank.Rook)
    (honly : OnlyPieceAt cb r c) :
    cb.valid_paths r c =
      some (nonEmptyRuns [runMoves r c 1 0 (7 - r).toNat, runMoves r c (-1) 0 r.toNat,
        runMoves r c 0 1 (7 - c).toNat, runMoves r c 0 (-1) c.toNat]) := by
  have hr := h
  unfold inRange at hr
  obtain ⟨up, down, right, left, ts, h1, h2, h3, h4, h5, h6⟩ := calc_rook_moves_eq cb h
  rw [valid_paths_eq_calc cb h hb (by rw [hk]; decide), calc_valid_paths_rook cb h hk, h6,
    castleOutcome_only cb _ r c ts h honly h5]
  obtain ⟨n1, e1, a1, b1⟩ := isRun_only cb _ r c 1 0 up honly (by decide) h1
  obtain ⟨n2, e2, a2, b2⟩ := isRun_only cb _ r c (-1) 0 down honly (by decide) h2
  obtain ⟨n3, e3, a3, b3⟩ := isRun_only cb _ r c 0 1 right honly (by decide) h3
  obtain ⟨n4, e4, a4, b4⟩ := isRun_only cb _ r c 0 (-1) left honly (by decide) h4
  have m1 : n1 = (7 - r).toNat := by
    have := a1 n1
    simp only [inRange, mul_one, mul_zero, add_zero] at this b1
    omega
  have m2 : n2 = r.toNat := by
    have := a2 n2
    simp only [inRange, mul_neg, mul_one, mul_zero, add_zero] at this b2
    omega
  have m3 : n3 = (7 - c).toNat := by
    have := a3 n3
    simp only [inRange, mul_one, mul_zero, add_zero] at this b3
    omega
  have m4 : n4 = c.toNat := by
    have := a4 n4
    simp only [inRange, mul_neg, mul_one, mul_zero, add_zero] at this b4
    omega
  rw [e1, e2, e3, e4, m1, m2, m3, m4]
  simp [nonEmptyRuns]

/-- C33: on a board whose only piece is a Rook, from each of the 64 squares the targets
over all paths returned by `valid_paths` number exactly 14, all of them Move targets. -/
theorem C33_lone_rook_targets (cb : Chessboard) (r c : Int) (h : inRange r c)
    (hb : (cb.board r c).type = CellType.Board)
    (hk : (cb.board r c).piece.rank = Rank.Rook)
    (honly : OnlyPieceAt cb r c) :
    ∃ paths : Paths, cb.valid_paths r c = some paths ∧ target_count paths = 14 ∧
      ∀ t : Target, Offered paths t → t.kind = Marker.Move := by
  refine ⟨_, lone_rook_paths cb r c h hb hk honly, ?_⟩
  unfold inRange at h
  obtain ⟨h1, h2, h3, h4⟩ := h
  interval_cases r <;> interval_cases c <;>
    exact ⟨by decide, all_move_of_paths _ (by decide)⟩

theorem C33_lone_rook_targets_witness :
    ∃ paths : Paths, (loneBoard 3 6 unmovedRook).valid_paths 3 6 = some paths ∧
      target_count paths = 14 ∧ ∀ t : Target, Offered paths t → t.kind = Marker.Move :=
  C33_lone_rook_targets (loneBoard 3 6 unmovedRook) 3 6 (by decide) (by decide) (by decide)
    (onlyPieceAt_loneBoard 3 6 _)

/-- C34 (amended): on a board whose only piece is a Rook, `valid_paths` returns one path
for each of the four directions in which the board has at least one more square, and
nothing else: 4 paths from a square off the edge of the board (rows and columns 1..6),
3 from an edge square that is no corner, 2 from a corner. -/
theorem C34_lone_rook_path_count (cb : Chessboard) (r c : Int) (h : inRange r c)
    (hb : (cb.board r c).type = CellType.Board)
    (hk : (cb.board r c).piece.rank = Rank.Rook)
    (honly : OnlyPieceAt cb r c) :
    ∃ paths : Paths, cb.valid_paths r c = some paths ∧
      paths.length = open_directions r c ∧
      (paths.length = 4 ↔ (1 ≤ r ∧ r ≤ 6 ∧ 1 ≤ c ∧ c ≤ 6)) ∧
      (((r = 0 ∨ r = 7) ∧ (c = 0 ∨ c = 7)) → paths.length = 2) := by
  refine ⟨_, lone_rook_paths cb r c h hb hk honly, ?_⟩
  unfold inRange at h
  obtain ⟨h1, h2, h3, h4⟩ := h
  interval_cases r <;> interval_cases c <;> decide

theorem C34_lone_rook_path_count_witness :
    ∃ paths : Paths, (loneBoard 0 4 unmovedRook).valid_paths 0 4 = some paths ∧
      paths.length = open_directions 0 4 ∧
      (paths.length = 4 ↔ (1 ≤ (0 : Int) ∧ (0 : Int) ≤ 6 ∧ 1 ≤ (4 : Int) ∧ (4 : Int) ≤ 6)) ∧
      ((((0 : Int) = 0 ∨ (0 : Int) = 7) ∧ ((4 : Int) = 0 ∨ (4 : Int) = 7)) →
        paths.length = 2) :=
  C34_lone_rook_path_count (loneBoard 0 4 unmovedRook) 0 4 (by decide) (by decide) (by decide)
    (onlyPieceAt_loneBoard 0 4 _)

/-- C34, as stated, fails: the only piece of `cornerRookBoard` is the Rook on (0,0), and
`valid_paths(0,0)` returns 2 paths, the run up the column and the run along the row,
with 14 targets between them. -/
theorem C34_counterexample :
    OnlyPieceAt cornerRookBoard 0 0 ∧
    (cornerRookBoard.board 0 0).piece.rank = Rank.Rook ∧
    cornerRookBoard.valid_paths 0 0 =
      some [runMoves 0 0 1 0 7, runMoves 0 0 0 1 7] ∧
    (Option.map List.length (cornerRookBoard.valid_paths 0 0)) = some 2 :=
  ⟨onlyPieceAt_loneBoard 0 0 unmovedRook, by decide, by decide, by decide⟩

/-! ## The White pawn on its start row -/

theorem holdsBlack_test (cb : Chessboard) (r c : Int) (guard : Bool)
    (hg : guard = true ↔ inRange r c) :
    (guard && (decide ((cb.board r c).piece.rank ≠ Rank.Empty) &&
      decide ((cb.board r c).piece.side = Side.Black))) = decide (HoldsBlack cb r c) := by
  rw [Bool.eq_iff_iff]
  simp only [Bool.and_eq_true, decide_eq_true_eq, HoldsBlack, hg]

/-- C35: for a White Pawn that has never moved on row 1, column c, with (2,c) and (3,c)
empty, `valid_paths(1,c)` is the two Move targets (2,c) and (3,c), followed by the Attack
target (2,c-1) when that square holds a Black piece and by the Attack target (2,c+1)
when that square holds a Black piece, and nothing else: two Move targets and no Attack
target when neither does, exactly one more target, the Attack target for that square,
when exactly one does. -/
theorem C35_white_pawn_start (cb : Chessboard) (c : Int) (h : inRange 1 c)
    (hb : (cb.board 1 c).type = CellType.Board)
    (hk : (cb.board 1 c).piece.rank = Rank.Pawn)
    (hs : (cb.board 1 c).piece.side = Side.White)
    (hm : (cb.board 1 c).piece.has_moved = false)
    (h2 : (cb.board 2 c).piece.rank = Rank.Empty)
    (h3 : (cb.board 3 c).piece.rank = Rank.Empty) :
    (¬ HoldsBlack cb 2 (c - 1) → ¬ HoldsBlack cb 2 (c + 1) →
      cb.valid_paths 1 c =
        some [[Target.mk Marker.Move 2 c], [Target.mk Marker.Move 3 c]]) ∧
    (HoldsBlack cb 2 (c - 1) → ¬ HoldsBlack cb 2 (c + 1) →
      cb.valid_paths 1 c =
        some [[Target.mk Marker.Move 2 c], [Target.mk Marker.Move 3 c],
          [Target.mk Marker.Attack 2 (c - 1)]]) ∧
    (¬ HoldsBlack cb 2 (c - 1) → HoldsBlack cb 2 (c + 1) →
      cb.valid_paths 1 c =
        some [[Target.mk Marker.Move 2 c], [Target.mk Marker.Move 3 c],
          [Target.mk Marker.Attack 2 (c + 1)]]) ∧
    (HoldsBlack cb 2 (c - 1) → HoldsBlack cb 2 (c + 1) →
      cb.valid_paths 1 c =
        some [[Target.mk Marker.Move 2 c], [Target.mk Marker.Move 3 c],
          [Target.mk Marker.Attack 2 (c - 1)], [Target.mk Marker.Attack 2 (c + 1)]]) := by
  have hr := h
  unfold inRange at hr
  have hval : cb.valid_paths 1 c = some
      (push_single (decide (HoldsBlack cb 2 (c + 1))) (Target.mk Marker.Attack 2 (c + 1))
      (push_single (decide (HoldsBlack cb 2 (c - 1))) (Target.mk Marker.Attack 2 (c - 1))
        [[Target.mk Marker.Move 2 c], [Target.mk Marker.Move 3 c]])) := by
    rw [valid_paths_eq_calc cb h hb (by rw [hk]; decide), calc_valid_paths_pawn cb h hk,
      calc_pawn_moves_white cb h hs (fun _ => rfl)]
    have e2 : (cb.board (1 + 1) c).piece.rank = Rank.Empty := h2
    have e3 : (cb.board (1 + 2) c).piece.rank = Rank.Empty := h3
    have g1 := holdsBlack_test cb (1 + 1) (c - 1) (decide (c > 0) && decide ((1 : Int) < 7))
      (by simp only [Bool.and_eq_true, decide_eq_true_eq, inRange]; omega)
    have g2 := holdsBlack_test cb (1 + 1) (c + 1) (decide (c < 7) && decide ((1 : Int) < 7))
      (by simp only [Bool.and_eq_true, decide_eq_true_eq, inRange]; omega)
    rw [g1, g2, e2, e3, hm]
    rfl
  rw [hval]
  refine ⟨?_, ?_, ?_, ?_⟩ <;> intro hl hrt <;> simp [push_single, hl, hrt]

theorem C35_white_pawn_start_witness :
    HoldsBlack pawnAttackBoard 2 (2 - 1) ∧ ¬ HoldsBlack pawnAttackBoard 2 (2 + 1) ∧
      pawnAttackBoard.valid_paths 1 2 =
        some [[Target.mk Marker.Move 2 2], [Target.mk Marker.Move 3 2],
          [Target.mk Marker.Attack 2 (2 - 1)]] :=
  ⟨by decide, by decide,
    (C35_white_pawn_start pawnAttackBoard 2 (by decide) (by decide) (by decide) (by decide)
      (by decide) (by decide) (by decide)).2.1 (by decide) (by decide)⟩

/-! ## What a commit changes -/

theorem commit_cursor (st : Chessboard) (sr sc row col : Int) (s : Side) :
    (st.commit sr sc row col).cursor s = st.cursor s := rfl

theorem commit_holding (st : Chessboard) (sr sc row col : Int) (s : Side) :
    (st.commit sr sc row col).holding s = st.holding s := rfl

/-- C38: for every successful `move_selected_to(row, col)`: every board cell other than
the selected source cell and the destination cell is as it was; when the destination was
occupied, the holding area of the other side and every holding cell of the side to move
other than the slot at its old cursor are as they were; when the destination was empty
both holding areas and both cursors are as they were. -/
theorem C38_move_frame (cb cb2 : Chessboard) (row col : Int)
    (hmove : cb.move_selected_to row col = some (true, cb2)) :
    inRange row col ∧
    (∀ r c : Int, ¬ (r = cb.selected.1 ∧ c = cb.selected.2) → ¬ (r = row ∧ c = col) →
      cb2.board r c = cb.board r c) ∧
    ((cb.board row col).has_piece = true →
      cb2.holding (opponentOf cb.this_side) = cb.holding (opponentOf cb.this_side) ∧
      cb2.cursor (opponentOf cb.this_side) = cb.cursor (opponentOf cb.this_side) ∧
      ∀ i : Int, i ≠ cb.cursor cb.this_side →
        cb2.holding cb.this_side i = cb.holding cb.this_side i) ∧
    ((cb.board row col).has_piece = false →
      cb2.white_capture = cb.white_capture ∧ cb2.black_capture = cb.black_capture ∧
      cb2.white_capture_index = cb.white_capture_index ∧
      cb2.black_capture_index = cb.black_capture_index) := by
  obtain ⟨_, _, hr, st, hc, he⟩ := move_selected_to_true cb cb2 row col hmove
  obtain ⟨_, _, hother, _, _, hno, hyes⟩ := capture_at_spec cb st row col hc
  subst he
  refine ⟨hr, ?_, ?_, ?_⟩
  · intro r c h1 h2
    rw [commit_board_other st _ _ row col r c h1 h2, hother r c h2]
  · intro hocc
    obtain ⟨_, _, _, h4, h5, _, h7⟩ := hyes hocc
    refine ⟨?_, ?_, ?_⟩
    · rw [commit_holding]; exact h5
    · rw [commit_cursor]; exact h4
    · intro i hi
      rw [commit_holding]; exact h7 i hi
  · intro hfree
    rw [hno hfree]
    exact ⟨rfl, rfl, rfl, rfl⟩

theorem C38_move_frame_witness :
    inRange 2 0 ∧
    (∀ r c : Int, ¬ (r = pawnSelectedBoard.selected.1 ∧ c = pawnSelectedBoard.selected.2) →
      ¬ (r = 2 ∧ c = 0) → pawnMovedBoard.board r c = pawnSelectedBoard.board r c) ∧
    ((pawnSelectedBoard.board 2 0).has_piece = true →
      pawnMovedBoard.holding (opponentOf pawnSelectedBoard.this_side) =
        pawnSelectedBoard.holding (opponentOf pawnSelectedBoard.this_side) ∧
      pawnMovedBoard.cursor (opponentOf pawnSelectedBoard.this_side) =
        pawnSelectedBoard.cursor (opponentOf pawnSelectedBoard.this_side) ∧
      ∀ i : Int, i ≠ pawnSelectedBoard.cursor pawnSelectedBoard.this_side →
        pawnMovedBoard.holding pawnSelectedBoard.this_side i =
          pawnSelectedBoard.holding pawnSelectedBoard.this_side i) ∧
    ((pawnSelectedBoard.board 2 0).has_piece = false →
      pawnMovedBoard.white_capture = pawnSelectedBoard.white_capture ∧
      pawnMovedBoard.black_capture = pawnSelectedBoard.black_capture ∧
      pawnMovedBoard.white_capture_index = pawnSelectedBoard.white_capture_index ∧
      pawnMovedBoard.black_capture_index = pawnSelectedBoard.black_capture_index) :=
  C38_move_frame pawnSelectedBoard pawnMovedBoard 2 0 pawnSelectedBoard_move

theorem cursor_nonneg (cb : Chessboard) (hwf : WellFormed cb) (s : Side) : 0 ≤ cb.cursor s := by
  unfold Chessboard.cursor
  by_cases hw : s = Side.White
  · rw [if_pos hw]; exact hwf.2.1
  · rw [if_neg hw]; exact hwf.2.2

/-- C40: for every state whose selected cell (r,c) holds a piece, the holding cursor of
the side to move being below 16, `move_selected_to(r, c)` returns true, leaves the board
cell (r,c) empty, stores the piece as it was in the holding slot of the side to move at
the old cursor, raises that cursor by 1, leaves the other cursor alone, and flips the
side to move. -/
theorem C40_move_onto_itself (cb : Chessboard) (hwf : WellFormed cb)
    (hs : inRange cb.selected.1 cb.selected.2)
    (hp : (cb.board cb.selected.1 cb.selected.2).has_piece = true)
    (hcur : cb.cursor cb.this_side < 16) :
    ∃ cb2 : Chessboard,
      cb.move_selected_to cb.selected.1 cb.selected.2 = some (true, cb2) ∧
      (cb2.board cb.selected.1 cb.selected.2).has_piece = false ∧
      (cb2.holding cb.this_side (cb.cursor cb.this_side)).piece =
        (cb.board cb.selected.1 cb.selected.2).piece ∧
      cb2.cursor cb.this_side = cb.cursor cb.this_side + 1 ∧
      cb2.cursor (opponentOf cb.this_side) = cb.cursor (opponentOf cb.this_side) ∧
      cb2.this_side = opponentOf cb.this_side ∧
      cb2.local_side ≠ cb.local_side := by
  obtain ⟨st, hst⟩ := capture_at_some cb cb.selected.1 cb.selected.2
    (fun _ => ⟨cursor_nonneg cb hwf _, hcur⟩)
  obtain ⟨_, hside, _, _, _, _, hyes⟩ := capture_at_spec cb st _ _ hst
  obtain ⟨_, _, h3, h4, _, h6, _⟩ := hyes hp
  have hflip : (st.commit cb.selected.1 cb.selected.2 cb.selected.1 cb.selected.2).this_side =
      opponentOf cb.this_side := by
    rw [(commit_fields st _ _ _ _).2.1, hside]
    rfl
  refine ⟨_, move_selected_to_of_capture cb st _ _ hs hp hs hst,
    commit_source_empty st _ _ _ _, ?_, ?_, ?_, hflip, ?_⟩
  · rw [commit_holding]; exact h6
  · rw [commit_cursor]; exact h3
  · rw [commit_cursor]; exact h4
  · unfold Chessboard.local_side
    rw [hflip]
    exact opponentOf_ne_self _

theorem pawnSelectedBoard_wellFormed : WellFormed pawnSelectedBoard :=
  wellFormed_select freshBoard pawnSelectedBoard _ true
    (reachable_wellFormed freshBoard freshBoard_reachable) freshBoard_select_pawn

theorem C40_move_onto_itself_witness :
    ∃ cb2 : Chessboard,
      pawnSelectedBoard.move_selected_to pawnSelectedBoard.selected.1
        pawnSelectedBoard.selected.2 = some (true, cb2) ∧
      (cb2.board pawnSelectedBoard.selected.1 pawnSelectedBoard.selected.2).has_piece = false ∧
      (cb2.holding pawnSelectedBoard.this_side
          (pawnSelectedBoard.cursor pawnSelectedBoard.this_side)).piece =
        (pawnSelectedBoard.board pawnSelectedBoard.selected.1
          pawnSelectedBoard.selected.2).piece ∧
      cb2.cursor pawnSelectedBoard.this_side =
        pawnSelectedBoard.cursor pawnSelectedBoard.this_side + 1 ∧
      cb2.cursor (opponentOf pawnSelectedBoard.this_side) =
        pawnSelectedBoard.cursor (opponentOf pawnSelectedBoard.this_side) ∧
      cb2.this_side = opponentOf pawnSelectedBoard.this_side ∧
      cb2.local_side ≠ pawnSelectedBoard.local_side :=
  C40_move_onto_itself pawnSelectedBoard pawnSelectedBoard_wellFormed (by decide) (by decide)
    (by decide)

/-! ## Counting pieces -/

theorem countP_update {α : Type} (l : List α) (hnd : l.Nodup) (x : α) (hx : x ∈ l)
    (f g : α → Bool) (hfg : ∀ y ∈ l, y ≠ x → g y = f y) :
    l.countP g + (if f x = true then 1 else 0) =
      l.countP f + (if g x = true then 1 else 0) := by
  induction l with
  | nil => exact absurd hx (List.not_mem_nil x)
  | cons a l ih =>
    rw [List.nodup_cons] at hnd
    rw [List.countP_cons, List.countP_cons]
    by_cases hax : a = x
    · subst hax
      have hsame : l.countP g = l.countP f := by
        apply List.countP_congr
        intro y hy
        have hya : y ≠ a := fun e => hnd.1 (e ▸ hy)
        rw [hfg y (List.mem_cons_of_mem a hy) hya]
      rw [hsame]
      omega
    · have hxl : x ∈ l := by
        rcases List.mem_cons.mp hx with e | e
        · exact absurd e.symm hax
        · exact e
      have := ih hnd.2 hxl (fun y hy hyx => hfg y (List.mem_cons_of_mem a hy) hyx)
      rw [hfg a (List.mem_cons_self a l) hax]
      omega

theorem board_positions_nodup : board_positions.Nodup := by decide

theorem one_side_nodup : one_side.Nodup := by decide

/-- The count of the board cells with property `q` after the cell (r, c) has changed to
`cell2`, every other cell being as it was. -/
theorem board_count_update (b1 b2 : Int → Int → Cell) (r c : Int) (h : inRange r c)
    (q : Cell → Bool)
    (hother : ∀ i j : Int, ¬ (i = r ∧ j = c) → b2 i j = b1 i j) :
    (board_positions.countP fun rc => q (b2 rc.1 rc.2)) + (if q (b1 r c) = true then 1 else 0) =
      (board_positions.countP fun rc => q (b1 rc.1 rc.2)) +
        (if q (b2 r c) = true then 1 else 0) := by
  refine countP_update board_positions board_positions_nodup (r, c)
    ((mem_board_positions r c).mpr h) (fun rc => q (b1 rc.1 rc.2))
    (fun rc => q (b2 rc.1 rc.2)) ?_
  rintro ⟨i, j⟩ _ hne
  have hij : ¬ (i = r ∧ j = c) := by
    rintro ⟨e1, e2⟩
    exact hne (by rw [e1, e2])
  show q (b2 i j) = q (b1 i j)
  rw [hother i j hij]

/-- The count after a commit: the board cells with property `q`, the source and the
destination being different squares. -/
theorem board_count_commit (st : Chessboard) (sr sc row col : Int)
    (hs : inRange sr sc) (hr : inRange row col) (hne : ¬ (row = sr ∧ col = sc))
    (q : Cell → Bool) :
    (board_positions.countP fun rc => q ((st.commit sr sc row col).board rc.1 rc.2)) +
        (if q (st.board sr sc) = true then 1 else 0) +
        (if q (st.board row col) = true then 1 else 0) =
      (board_positions.countP fun rc => q (st.board rc.1 rc.2)) +
        (if q ((st.commit sr sc row col).board sr sc) = true then 1 else 0) +
        (if q ((st.commit sr sc row col).board row col) = true then 1 else 0) := by
  have hne2 : ¬ (sr = row ∧ sc = col) := fun hh => hne ⟨hh.1.symm, hh.2.symm⟩
  -- the board with the destination already changed, the source not yet
  have h1 := board_count_update st.board
    (fun i j => if i = row ∧ j = col then (st.commit sr sc row col).board i j else st.board i j)
    row col hr q (by intro i j hij; simp only [hij, if_false])
  have h2 := board_count_update
    (fun i j => if i = row ∧ j = col then (st.commit sr sc row col).board i j else st.board i j)
    (st.commit sr sc row col).board sr sc hs q (by
      intro i j hij
      by_cases hd : i = row ∧ j = col
      · simp only [hd, and_self, if_true]
      · simp only [hd, if_false]
        exact commit_board_other st sr sc row col i j hij hd)
  simp only [and_self, if_true, hne2, if_false] at h1 h2
  omega

theorem holding_count_update (h1 h2 : Int → Cell) (k : Int) (hk : 0 ≤ k ∧ k < 16)
    (hother : ∀ i : Int, i ≠ k → h2 i = h1 i) :
    holding_pieces h2 + (if (h1 k).has_piece = true then 1 else 0) =
      holding_pieces h1 + (if (h2 k).has_piece = true then 1 else 0) := by
  unfold holding_pieces
  refine countP_update one_side one_side_nodup k ((mem_one_side k).mpr hk)
    (fun i => (h1 i).has_piece) (fun i => (h2 i).has_piece) ?_
  intro i _ hne
  show (h2 i).has_piece = (h1 i).has_piece
  rw [hother i hne]

theorem total_pieces_eq (cb : Chessboard) (s : Side) :
    cb.total_pieces =
      cb.board_pieces + holding_pieces (cb.holding s) +
        holding_pieces (cb.holding (opponentOf s)) := by
  cases s with
  | White => rfl
  | Black =>
    show cb.board_pieces + holding_pieces cb.white_capture + holding_pieces cb.black_capture =
      cb.board_pieces + holding_pieces cb.black_capture + holding_pieces cb.white_capture
    omega

theorem has_piece_of_piece (c1 c2 : Cell) (h : c1.piece = c2.piece) :
    c1.has_piece = c2.has_piece := by
  unfold Cell.has_piece
  rw [h]

/-- The capture block keeps the number of pieces: an occupant leaves the board for an
empty holding slot. -/
theorem capture_at_total (cb st : Chessboard) (row col : Int) (hr : inRange row col)
    (hslot : (cb.holding cb.this_side (cb.cursor cb.this_side)).has_piece = false)
    (hc : cb.capture_at row col = some st) : st.total_pieces = cb.total_pieces := by
  obtain ⟨_, hside, hother, _, hempty, hno, hyes⟩ := capture_at_spec cb st row col hc
  by_cases hp : (cb.board row col).has_piece = true
  · obtain ⟨h1, h2, _, _, h5, h6, h7⟩ := hyes hp
    have hb := board_count_update cb.board st.board row col hr (fun cell => cell.has_piece)
      (fun i j hij => hother i j hij)
    have hh := holding_count_update (cb.holding cb.this_side) (st.holding cb.this_side)
      (cb.cursor cb.this_side) ⟨h1, h2⟩ h7
    have hnew : (st.holding cb.this_side (cb.cursor cb.this_side)).has_piece = true := by
      rw [has_piece_of_piece _ _ h6]; exact hp
    rw [total_pieces_eq st cb.this_side, total_pieces_eq cb cb.this_side, h5]
    simp only [hp, hempty, hslot, hnew, if_true, Bool.false_eq_true, if_false] at hb hh
    unfold Chessboard.board_pieces
    omega
  · have hp2 : (cb.board row col).has_piece = false := by simpa using hp
    rw [hno hp2]

theorem commit_total (st : Chessboard) (sr sc row col : Int)
    (hs : inRange sr sc) (hr : inRange row col)
    (hp : (st.board sr sc).has_piece = true ∨ (row = sr ∧ col = sc))
    (hempty : (st.board row col).has_piece = false) :
    (st.commit sr sc row col).total_pieces = st.total_pieces := by
  have hboard : (st.commit sr sc row col).board_pieces = st.board_pieces := by
    by_cases hne : row = sr ∧ col = sc
    · obtain ⟨e1, e2⟩ := hne
      subst e1; subst e2
      have hb := board_count_update st.board (st.commit row col row col).board row col hr
        (fun cell => cell.has_piece)
        (fun i j hij => commit_board_other st row col row col i j hij hij)
      simp only [hempty, commit_source_empty, Bool.false_eq_true, if_false] at hb
      unfold Chessboard.board_pieces
      omega
    · have hp2 : (st.board sr sc).has_piece = true := by
        rcases hp with h | h
        · exact h
        · exact absurd h hne
      have hb := board_count_commit st sr sc row col hs hr hne (fun cell => cell.has_piece)
      have htarget : ((st.commit sr sc row col).board row col).has_piece = true := by
        unfold Cell.has_piece
        rw [commit_target_piece st sr sc row col hne]
        simpa [Cell.has_piece, Piece.is_empty, Piece.move_to] using hp2
      simp only [hp2, hempty, commit_source_empty, htarget, if_true, Bool.false_eq_true,
        if_false] at hb
      unfold Chessboard.board_pieces
      omega
  unfold Chessboard.total_pieces
  rw [hboard, (commit_fields st sr sc row col).2.2.2.2.1,
    (commit_fields st sr sc row col).2.2.2.2.2]

/-- C37: for every state whose selected cell holds a piece, the destination being on the
board, the holding cursor of the side to move being below 16 and its holding slot at the
cursor empty, `move_selected_to` returns true and the number of pieces, counted as
occupied board cells plus occupied holding cells of both sides, is what it was. -/
theorem C37_piece_count (cb : Chessboard) (row col : Int) (hwf : WellFormed cb)
    (hs : inRange cb.selected.1 cb.selected.2)
    (hp : (cb.board cb.selected.1 cb.selected.2).has_piece = true)
    (hr : inRange row col)
    (hcur : cb.cursor cb.this_side < 16)
    (hslot : (cb.holding cb.this_side (cb.cursor cb.this_side)).has_piece = false) :
    ∃ cb2 : Chessboard, cb.move_selected_to row col = some (true, cb2) ∧
      cb2.total_pieces = cb.total_pieces := by
  obtain ⟨st, hst⟩ := capture_at_some cb row col (fun _ => ⟨cursor_nonneg cb hwf _, hcur⟩)
  obtain ⟨_, _, hother, _, hempty, _, _⟩ := capture_at_spec cb st row col hst
  refine ⟨_, move_selected_to_of_capture cb st row col hs hp hr hst, ?_⟩
  rw [commit_total st _ _ row col hs hr ?_ hempty, capture_at_total cb st row col hr hslot hst]
  by_cases hne : row = cb.selected.1 ∧ col = cb.selected.2
  · exact Or.inr hne
  · left
    rw [hother _ _ (fun hh => hne ⟨hh.1.symm, hh.2.symm⟩)]
    exact hp

theorem duelBoard_wellFormed : WellFormed duelBoard := by
  refine ⟨?_, by decide, by decide⟩
  intro r c _
  unfold duelBoard
  simp only [place_type, place_row, place_col]
  exact ⟨rfl, rfl, rfl⟩

theorem C37_piece_count_witness :
    ∃ cb2 : Chessboard, duelBoard.move_selected_to 2 1 = some (true, cb2) ∧
      cb2.total_pieces = duelBoard.total_pieces :=
  C37_piece_count duelBoard 2 1 duelBoard_wellFormed (by decide) (by decide) (by decide)
    (by decide) (by decide)

/-! ## Pieces that have never moved -/

theorem construct_board (white_hold black_hold : Int → Cell) (r c : Int) (h : inRange r c) :
    (Chessboard.construct white_hold black_hold).board r c = freshBoard.board r c := by
  unfold inRange at h
  unfold freshBoard Chessboard.construct
  rw [reset_board _ r c ⟨h.2.2.1, h.2.2.2⟩, reset_board _ r c ⟨h.2.2.1, h.2.2.2⟩]

theorem unmovedAtHome_of_board (cb cb2 : Chessboard)
    (hb : ∀ r c : Int, inRange r c → cb2.board r c = cb.board r c)
    (h : UnmovedAtHome cb) : UnmovedAtHome cb2 := by
  intro r c hr
  rw [hb r c hr]
  exact h r c hr

theorem unmovedAtHome_construct (white_hold black_hold : Int → Cell) :
    UnmovedAtHome (Chessboard.construct white_hold black_hold) := by
  intro r c hr _ _
  rw [construct_board white_hold black_hold r c hr]
  exact ⟨rfl, rfl⟩

theorem select_board (cb cb2 : Chessboard) (cell : Cell) (b : Bool)
    (hs : cb.select cell = some (b, cb2)) : cb2.board = cb.board := by
  unfold Chessboard.select at hs
  cases hc : cb.cell cell.row cell.col with
  | none => rw [hc] at hs; simp at hs
  | some target =>
    rw [hc, Option.some_bind] at hs
    by_cases hp : (!target.has_piece) = true
    · rw [if_pos hp] at hs
      simp only [Option.some.injEq, Prod.mk.injEq] at hs
      rw [← hs.2]
    · rw [if_neg hp] at hs
      simp only [Option.some.injEq, Prod.mk.injEq] at hs
      rw [← hs.2]

theorem select_piece_board (cb : Chessboard) (piece : Piece) :
    (cb.select_piece piece).2.board = cb.board := by
  unfold Chessboard.select_piece
  by_cases hp : piece.is_captured = true
  · rw [if_pos hp]
  · rw [if_neg hp]

/-- The rank and the side `reset` gives a cell of rows 0, 1, 6, 7 do not depend on the
state. -/
theorem reset_home (cb cb2 : Chessboard) (r c : Int) (h : inRange r c)
    (hrow : r = 0 ∨ r = 1 ∨ r = 6 ∨ r = 7) :
    (cb.reset.board r c).piece.rank = (cb2.reset.board r c).piece.rank ∧
      (cb.reset.board r c).piece.side = (cb2.reset.board r c).piece.side := by
  unfold inRange at h
  rw [reset_board cb r c ⟨h.2.2.1, h.2.2.2⟩, reset_board cb2 r c ⟨h.2.2.1, h.2.2.2⟩]
  rcases hrow with e | e | e | e <;> subst e <;> simp

theorem reset_fresh (cb : Chessboard) (r c : Int) (h : inRange r c)
    (hrow : r = 0 ∨ r = 1 ∨ r = 6 ∨ r = 7) :
    (cb.reset.board r c).piece.rank = (freshBoard.board r c).piece.rank ∧
      (cb.reset.board r c).piece.side = (freshBoard.board r c).piece.side := by
  unfold freshBoard Chessboard.construct
  exact reset_home cb _ r c h hrow

theorem unmovedAtHome_reset (cb : Chessboard) (h : UnmovedAtHome cb) :
    UnmovedAtHome cb.reset := by
  intro r c hr hne hm
  have hr2 := hr
  unfold inRange at hr2
  have hc : 0 ≤ c ∧ c < 8 := ⟨hr2.2.2.1, hr2.2.2.2⟩
  by_cases hrow : r = 0 ∨ r = 1 ∨ r = 6 ∨ r = 7
  · exact reset_fresh cb r c hr hrow
  · by_cases h5 : r = 5
    · subst h5
      have hb : cb.reset.board 5 c = cb.board 5 c := by
        rw [reset_board cb 5 c hc]; simp
      rw [hb] at hne hm ⊢
      exact h 5 c hr hne hm
    · have hmid : r = 2 ∨ r = 3 ∨ r = 4 := by omega
      have hclear : (cb.reset.board r c).piece.rank = Rank.Empty := by
        rw [reset_board cb r c hc]
        rcases hmid with e | e | e <;> subst e <;> simp [Piece.clear]
      exact absurd hclear hne

theorem unmovedAtHome_move (cb cb2 : Chessboard) (row col : Int) (b : Bool)
    (h : UnmovedAtHome cb) (hm : cb.move_selected_to row col = some (b, cb2)) :
    UnmovedAtHome cb2 := by
  cases b with
  | false => rw [(move_selected_to_false cb cb2 row col hm).1]; exact h
  | true =>
    obtain ⟨_, _, _, st, hc, he⟩ := move_selected_to_true cb cb2 row col hm
    obtain ⟨_, _, hother, _, _, _, _⟩ := capture_at_spec cb st row col hc
    subst he
    intro r c hr hne hmv
    by_cases h1 : r = cb.selected.1 ∧ c = cb.selected.2
    · obtain ⟨e1, e2⟩ := h1
      subst e1; subst e2
      have := commit_source_empty st cb.selected.1 cb.selected.2 row col
      simp only [Cell.has_piece, Piece.is_empty, Bool.not_eq_false', decide_eq_true_eq] at this
      exact absurd this hne
    · by_cases h2 : r = row ∧ c = col
      · obtain ⟨e1, e2⟩ := h2
        subst e1; subst e2
        rw [commit_target_piece st _ _ r c h1] at hmv
        simp [Piece.has_moved, Piece.move_to] at hmv
      · rw [commit_board_other st _ _ row col r c h1 h2, hother r c h2] at hne hmv ⊢
        exact h r c hr hne hmv

theorem reachableWithReset_unmoved (cb : Chessboard) (h : ReachableWithReset cb) :
    UnmovedAtHome cb := by
  induction h with
  | fresh wh bh => exact unmovedAtHome_construct wh bh
  | select cb cb2 r c b _ _ hs ih =>
    exact unmovedAtHome_of_board cb cb2 (fun _ _ _ => by rw [select_board cb cb2 _ b hs]) ih
  | select_piece cb r c _ _ ih =>
    exact unmovedAtHome_of_board cb _ (fun _ _ _ => by rw [select_piece_board]) ih
  | clear_selection cb _ ih => exact unmovedAtHome_of_board cb _ (fun _ _ _ => rfl) ih
  | reset cb _ ih => exact unmovedAtHome_reset cb ih
  | move_selected_to cb cb2 row col b _ _ hm ih =>
    exact unmovedAtHome_move cb cb2 row col b ih hm

theorem fresh_pawn_rows (r c : Int) (h : inRange r c)
    (hk : (freshBoard.board r c).piece.rank = Rank.Pawn) :
    ((freshBoard.board r c).piece.side = Side.White ∧ r = 1) ∨
      ((freshBoard.board r c).piece.side = Side.Black ∧ r = 6) := by
  unfold inRange at h
  obtain ⟨h1, h2, h3, h4⟩ := h
  interval_cases r <;> interval_cases c <;> revert hk <;> decide

theorem unmovedAtHome_pawns (cb : Chessboard) (h : UnmovedAtHome cb) (r c : Int)
    (hr : inRange r c) (hk : (cb.board r c).piece.rank = Rank.Pawn)
    (hm : (cb.board r c).piece.has_moved = false) :
    ((cb.board r c).piece.side = Side.White ∧ r = 1) ∨
      ((cb.board r c).piece.side = Side.Black ∧ r = 6) := by
  obtain ⟨e1, e2⟩ := h r c hr (by rw [hk]; decide) hm
  rw [e2]
  exact fresh_pawn_rows r c hr (by rw [← e1]; exact hk)

theorem unmovedAtHome_start (cb : Chessboard) (h : UnmovedAtHome cb) : PawnsOnStartRows cb := by
  intro r c hr hk hm
  rcases unmovedAtHome_pawns cb h r c hr hk hm with ⟨hs, e⟩ | ⟨hs, e⟩
  · exact ⟨fun _ => e, fun hb => by rw [hs] at hb; exact absurd hb (by decide)⟩
  · exact ⟨fun hw => by rw [hs] at hw; exact absurd hw (by decide), fun _ => e⟩

theorem valid_paths_some_of_start (cb : Chessboard) (hstart : PawnsOnStartRows cb)
    (r c : Int) (h : inRange r c) : ∃ paths : Paths, cb.valid_paths r c = some paths := by
  by_cases hbe : (cb.board r c).type ≠ CellType.Board ∨ (cb.board r c).piece.rank = Rank.Empty
  · exact ⟨[], by simp [Chessboard.valid_paths, cell_eq_some cb h, hbe]⟩
  · have hb : (cb.board r c).type = CellType.Board := by
      by_contra hne; exact hbe (Or.inl hne)
    have he : (cb.board r c).piece.rank ≠ Rank.Empty := fun hne => hbe (Or.inr hne)
    rw [valid_paths_eq_calc cb h hb he]
    by_cases hp : (cb.board r c).piece.rank = Rank.Pawn
    · rw [calc_valid_paths_pawn cb h hp]
      obtain ⟨paths, hpaths, _⟩ := pawn_valid cb hstart h hp
      exact ⟨paths, hpaths⟩
    · exact calc_valid_paths_some cb h hp

theorem reachable_withReset (cb : Chessboard) (h : Reachable cb) : ReachableWithReset cb := by
  induction h with
  | fresh wh bh => exact ReachableWithReset.fresh wh bh
  | select cb cb2 r c b _ hr hs ih => exact ReachableWithReset.select cb cb2 r c b ih hr hs
  | select_piece cb r c _ hr ih => exact ReachableWithReset.select_piece cb r c ih hr
  | clear_selection cb _ ih => exact ReachableWithReset.clear_selection cb ih
  | move_selected_to cb cb2 row col b _ hr hm ih =>
    exact ReachableWithReset.move_selected_to cb cb2 row col b ih hr hm

/-- C36: in every state reachable from a freshly constructed board by `select`,
`clear_selection`, `reset` and `move_selected_to` with on-board destinations, every Pawn
on the board whose has-moved flag is false is a White pawn on row 1 or a Black pawn on
row 6; and `valid_paths` returns for every square of the board, no read of the pawn
generator leaving rows 0..7. -/
theorem C36_unmoved_pawns (cb : Chessboard) (h : ReachableWithReset cb) :
    (∀ r c : Int, inRange r c → (cb.board r c).piece.rank = Rank.Pawn →
      (cb.board r c).piece.has_moved = false →
      ((cb.board r c).piece.side = Side.White ∧ r = 1) ∨
        ((cb.board r c).piece.side = Side.Black ∧ r = 6)) ∧
    (∀ r c : Int, inRange r c → ∃ paths : Paths, cb.valid_paths r c = some paths) :=
  ⟨unmovedAtHome_pawns cb (reachableWithReset_unmoved cb h),
    valid_paths_some_of_start cb (unmovedAtHome_start cb (reachableWithReset_unmoved cb h))⟩

theorem C36_unmoved_pawns_witness :
    ReachableWithReset steppedBoard.reset ∧
    (∀ r c : Int, inRange r c → (steppedBoard.reset.board r c).piece.rank = Rank.Pawn →
      (steppedBoard.reset.board r c).piece.has_moved = false →
      ((steppedBoard.reset.board r c).piece.side = Side.White ∧ r = 1) ∨
        ((steppedBoard.reset.board r c).piece.side = Side.Black ∧ r = 6)) ∧
    (∀ r c : Int, inRange r c →
      ∃ paths : Paths, steppedBoard.reset.valid_paths r c = some paths) :=
  ⟨ReachableWithReset.reset _
      (reachable_withReset _ (play_getD_reachable stepGame stepGame_plays)),
    C36_unmoved_pawns steppedBoard.reset (ReachableWithReset.reset _
      (reachable_withReset _ (play_getD_reachable stepGame stepGame_plays)))⟩

/-! ## Captures in regular play -/

theorem fresh_rook_king (r c k : Int) (hc : inRange r c) (hk : inRange r k)
    (hrook : (freshBoard.board r c).piece.rank = Rank.Rook)
    (hking : (freshBoard.board r k).piece.rank = Rank.King) :
    ¬ (k = c + 1 ∨ k = c - 1) := by
  unfold inRange at hc hk
  obtain ⟨h1, h2, h3, h4⟩ := hc
  obtain ⟨_, _, h5, h6⟩ := hk
  have hc2 : c = 0 ∨ c = 7 := by
    revert hrook
    interval_cases r <;> interval_cases c <;> decide
  have hk2 : k = 3 ∨ k = 4 := by
    revert hking
    interval_cases r <;> interval_cases k <;> decide
  omega

theorem unmovedAtHome_apart (cb : Chessboard) (h : UnmovedAtHome cb) :
    RooksApartFromKings cb := by
  intro r c k hc hk hrook hmv hadj hking
  obtain ⟨kr, _, km⟩ := hking
  obtain ⟨e1, _⟩ := h r c hc (by rw [hrook]; decide) hmv
  obtain ⟨e2, _⟩ := h r k hk (by rw [kr]; decide) km
  exact fresh_rook_king r c k hc hk (by rw [← e1]; exact hrook) (by rw [← e2]; exact kr) hadj

theorem pieces_of_update (cb1 cb2 : Chessboard) (r c : Int) (h : inRange r c) (s : Side)
    (hother : ∀ i j : Int, ¬ (i = r ∧ j = c) → cb2.board i j = cb1.board i j) :
    cb2.pieces_of s +
        (if ((cb1.board r c).has_piece && decide ((cb1.board r c).piece.side = s)) = true
          then 1 else 0) =
      cb1.pieces_of s +
        (if ((cb2.board r c).has_piece && decide ((cb2.board r c).piece.side = s)) = true
          then 1 else 0) :=
  board_count_update cb1.board cb2.board r c h
    (fun cell => cell.has_piece && decide (cell.piece.side = s)) hother

theorem pieces_of_commit (st : Chessboard) (sr sc row col : Int)
    (hs : inRange sr sc) (hr : inRange row col) (hne : ¬ (row = sr ∧ col = sc))
    (hp : (st.board sr sc).has_piece = true)
    (hempty : (st.board row col).has_piece = false) (s : Side) :
    (st.commit sr sc row col).pieces_of s = st.pieces_of s := by
  have hb := board_count_commit st sr sc row col hs hr hne
    (fun cell => cell.has_piece && decide (cell.piece.side = s))
  have htarget : ((st.commit sr sc row col).board row col).has_piece = true := by
    unfold Cell.has_piece
    rw [commit_target_piece st sr sc row col hne]
    simpa [Cell.has_piece, Piece.is_empty, Piece.move_to] using hp
  have hside : ((st.commit sr sc row col).board row col).piece.side =
      (st.board sr sc).piece.side := by
    rw [commit_target_piece st sr sc row col hne]
    rfl
  simp only [hp, hempty, commit_source_empty, htarget, hside, Bool.true_and,
    Bool.false_and, Bool.false_eq_true, if_false] at hb
  unfold Chessboard.pieces_of
  omega

theorem pieces_of_pos (cb : Chessboard) (r c : Int) (h : inRange r c)
    (hp : (cb.board r c).has_piece = true) : 0 < cb.pieces_of (cb.board r c).piece.side := by
  unfold Chessboard.pieces_of
  rw [List.countP_pos_iff]
  exact ⟨(r, c), (mem_board_positions r c).mpr h, by simp [hp]⟩

theorem opponentOf_opponentOf (s : Side) : opponentOf (opponentOf s) = s := by
  cases s <;> rfl

/-- A commit onto another square than the selected one whose destination, when occupied,
holds a piece of the side that is not to move keeps the bound on the captures. -/
theorem capturesBounded_move (cb cb2 : Chessboard) (row col : Int)
    (hb : CapturesBounded cb)
    (hne : ¬ (row = cb.selected.1 ∧ col = cb.selected.2))
    (hopp : (cb.board row col).has_piece = true →
      (cb.board row col).piece.side = opponentOf cb.this_side)
    (hm : cb.move_selected_to row col = some (true, cb2)) : CapturesBounded cb2 := by
  obtain ⟨hs, hp, hr, st, hc, he⟩ := move_selected_to_true cb cb2 row col hm
  obtain ⟨_, _, hother, _, hempty, hno, hyes⟩ := capture_at_spec cb st row col hc
  have hne2 : ¬ (cb.selected.1 = row ∧ cb.selected.2 = col) :=
    fun hh => hne ⟨hh.1.symm, hh.2.symm⟩
  have hp2 : (st.board cb.selected.1 cb.selected.2).has_piece = true := by
    rw [hother _ _ hne2]; exact hp
  have hcount : ∀ s : Side, cb2.pieces_of s = st.pieces_of s := by
    intro s
    rw [he]
    exact pieces_of_commit st _ _ row col hs hr hne hp2 hempty s
  have hcursor : ∀ s : Side, cb2.cursor s = st.cursor s := by
    intro s; rw [he]; rfl
  intro s
  rw [hcount, hcursor]
  by_cases hocc : (cb.board row col).has_piece = true
  · obtain ⟨_, _, h3, h4, _, _, _⟩ := hyes hocc
    have hso := hopp hocc
    have hup := pieces_of_update cb st row col hr (opponentOf s) (fun i j hij => hother i j hij)
    simp only [hocc, hempty, hso, Bool.true_and, Bool.false_and, Bool.false_eq_true,
      if_false] at hup
    have hbs := hb s
    by_cases hst : s = cb.this_side
    · subst hst
      rw [h3]
      simp only [decide_True, if_true] at hup
      omega
    · have hs2 : s = opponentOf cb.this_side := (eq_opponentOf_iff s cb.this_side).mpr hst
      rw [hs2, h4]
      rw [hs2] at hup hbs
      have hne3 : ¬ (opponentOf cb.this_side = opponentOf (opponentOf cb.this_side)) := by
        rw [opponentOf_opponentOf]
        exact fun e => opponentOf_ne_self _ e
      simp only [hne3, decide_False, Bool.false_eq_true, if_false] at hup
      omega
  · have hfree : (cb.board row col).has_piece = false := by simpa using hocc
    rw [hno hfree]
    exact hb s

theorem select_spec (cb : Chessboard) (hwf : WellFormed cb) (r c : Int) (h : inRange r c)
    (hp : (cb.board r c).has_piece = true) :
    cb.select (cb.board r c) = some (true, { cb with selected := (r, c) }) := by
  obtain ⟨_, h1, h2⟩ := hwf.1 r c h
  simp [Chessboard.select, h1, h2, cell_eq_some cb h, hp]

theorem reset_cursors (cb : Chessboard) :
    cb.reset.white_capture_index = cb.white_capture_index ∧
      cb.reset.black_capture_index = cb.black_capture_index := by
  rw [reset_eq]
  apply for_cells_preserves (fun st =>
    st.white_capture_index = cb.white_capture_index ∧
      st.black_capture_index = cb.black_capture_index)
  · intro row col st hst; exact hst
  · apply for_cells_preserves (fun st =>
      st.white_capture_index = cb.white_capture_index ∧
        st.black_capture_index = cb.black_capture_index)
    · intro row col st hst; exact hst
    · apply for_cells_preserves (fun st =>
        st.white_capture_index = cb.white_capture_index ∧
          st.black_capture_index = cb.black_capture_index)
      · intro row col st hst; exact hst
      · exact ⟨rfl, rfl⟩

theorem pieces_of_congr (cb cb2 : Chessboard) (s : Side)
    (hb : ∀ r c : Int, inRange r c → cb2.board r c = cb.board r c) :
    cb2.pieces_of s = cb.pieces_of s := by
  unfold Chessboard.pieces_of
  apply List.countP_congr
  rintro ⟨r, c⟩ hm
  rw [hb r c ((mem_board_positions r c).mp hm)]

theorem freshBoard_pieces (s : Side) : freshBoard.pieces_of s = 16 := by
  cases s <;> decide

theorem capturesBounded_construct (white_hold black_hold : Int → Cell) :
    CapturesBounded (Chessboard.construct white_hold black_hold) := by
  intro s
  rw [pieces_of_congr freshBoard _ _ (construct_board white_hold black_hold), freshBoard_pieces]
  have hc := reset_cursors
    { board := fun row col => { type := CellType.Board, piece := {}, row := row, col := col }
      white_capture_index := 0
      white_capture := fun i => { white_hold i with piece := {} }
      black_capture_index := 0
      black_capture := fun i => { black_hold i with piece := {} }
      this_side := Side.White
      selected := (0, 0) }
  have h0 : (Chessboard.construct white_hold black_hold).cursor s = 0 := by
    unfold Chessboard.cursor Chessboard.construct
    by_cases hs : s = Side.White
    · rw [if_pos hs]; exact hc.1
    · rw [if_neg hs]; exact hc.2
  rw [h0]
  decide

/-- A target of regular play fits the occupancy and is another square than the one of
the moving piece. -/
theorem regularChoice_valid (cb : Chessboard) (hhome : UnmovedAtHome cb) (r c : Int)
    (t : Target) (hch : RegularChoice cb r c t) :
    ValidTarget cb cb.this_side t ∧ ¬ (t.row = r ∧ t.col = c) ∧
      ((cb.board t.row t.col).has_piece = true →
        (cb.board t.row t.col).piece.side = opponentOf cb.this_side) := by
  obtain ⟨hr, hp, hside, paths, hpaths, hoff⟩ := hch
  obtain ⟨paths2, h1, _, h3⟩ := valid_paths_valid cb (unmovedAtHome_start cb hhome)
    (unmovedAtHome_apart cb hhome) hr
  rw [hpaths] at h1
  simp only [Option.some.injEq] at h1
  subst h1
  have hv := h3 t hoff
  rw [hside] at hv
  have hv2 : ValidTarget cb cb.this_side t := hv
  have hrank : (cb.board r c).piece.rank ≠ Rank.Empty := by
    simpa [Cell.has_piece, Piece.is_empty] using hp
  obtain ⟨_, hmove, hattack⟩ := hv2
  refine ⟨hv, ?_, ?_⟩
  · rintro ⟨e1, e2⟩
    cases hk : t.kind with
    | Move =>
      have := hmove hk
      rw [e1, e2] at this
      exact hrank this
    | Attack =>
      have := (hattack hk).2
      rw [e1, e2] at this
      exact this hside
  · intro hocc
    have hocc2 : (cb.board t.row t.col).piece.rank ≠ Rank.Empty := by
      simpa [Cell.has_piece, Piece.is_empty] using hocc
    cases hk : t.kind with
    | Move => exact absurd (hmove hk) hocc2
    | Attack => exact (eq_opponentOf_iff _ _).mpr (hattack hk).2

theorem regular_invariant (cb : Chessboard) (h : RegularPlay cb) :
    WellFormed cb ∧ UnmovedAtHome cb ∧ CapturesBounded cb := by
  induction h with
  | fresh wh bh =>
    exact ⟨wellFormed_construct wh bh, unmovedAtHome_construct wh bh,
      capturesBounded_construct wh bh⟩
  | move cb cb1 cb2 r c t _ hch hsel hm ih =>
    obtain ⟨hwf, hhome, hb⟩ := ih
    obtain ⟨_, hne, hopp⟩ := regularChoice_valid cb hhome r c t hch
    have hsel2 := select_spec cb hwf r c hch.1 hch.2.1
    rw [hsel] at hsel2
    simp only [Option.some.injEq, Prod.mk.injEq, true_and] at hsel2
    subst hsel2
    have hhome1 : UnmovedAtHome { cb with selected := (r, c) } :=
      unmovedAtHome_of_board cb _ (fun _ _ _ => rfl) hhome
    have hb1 : CapturesBounded { cb with selected := (r, c) } := fun s => hb s
    exact ⟨wellFormed_move_selected_to { cb with selected := (r, c) } cb2 _ _ true
        (wellFormed_select cb _ _ true hwf hsel) hm,
      unmovedAtHome_move { cb with selected := (r, c) } cb2 _ _ true hhome1 hm,
      capturesBounded_move { cb with selected := (r, c) } cb2 t.row t.col hb1 hne hopp hm⟩

/-- C31: in every state reached from a freshly constructed board by committed moves of
regular play both holding cursors are at most 16; and from such a state every move of
regular play that captures finds the cursor of the side to move below 16, so the
selection and the commit both return true, without a write past the sixteen slots, and
lead to such a state again. -/
theorem C31_no_overflow (cb : Chessboard) (h : RegularPlay cb) :
    (cb.white_capture_index ≤ 16 ∧ cb.black_capture_index ≤ 16) ∧
    ∀ (r c : Int) (t : Target), RegularChoice cb r c t →
      ((cb.board t.row t.col).has_piece = true →
        0 ≤ cb.cursor cb.local_side ∧ cb.cursor cb.local_side < 16) ∧
      ∃ cb1 cb2 : Chessboard, cb.select (cb.board r c) = some (true, cb1) ∧
        cb1.move_selected_to t.row t.col = some (true, cb2) ∧ RegularPlay cb2 := by
  obtain ⟨hwf, hhome, hb⟩ := regular_invariant cb h
  constructor
  · have hw := hb Side.White
    have hk := hb Side.Black
    simp only [Chessboard.cursor] at hw hk
    rw [if_neg (by decide)] at hk
    simp only [if_true] at hw
    constructor <;> omega
  · intro r c t hch
    obtain ⟨hv, hne, hopp⟩ := regularChoice_valid cb hhome r c t hch
    have hcur : (cb.board t.row t.col).has_piece = true →
        0 ≤ cb.cursor cb.this_side ∧ cb.cursor cb.this_side < 16 := by
      intro hocc
      have hpos := pieces_of_pos cb t.row t.col hv.1 hocc
      rw [hopp hocc] at hpos
      have := hb cb.this_side
      exact ⟨cursor_nonneg cb hwf _, by omega⟩
    refine ⟨hcur, ?_⟩
    have hsel := select_spec cb hwf r c hch.1 hch.2.1
    obtain ⟨st, hst⟩ := capture_at_some { cb with selected := (r, c) } t.row t.col hcur
    have hm := move_selected_to_of_capture { cb with selected := (r, c) } st t.row t.col
      hch.1 hch.2.1 hv.1 hst
    exact ⟨_, _, hsel, hm, RegularPlay.move cb _ _ r c t h hch hsel hm⟩

theorem freshBoard_regular : RegularPlay freshBoard := by
  unfold freshBoard
  exact RegularPlay.fresh _ _

theorem freshBoard_choice :
    RegularChoice freshBoard 1 4 (Target.mk Marker.Move 3 4) :=
  ⟨by decide, by decide, by decide,
    [[Target.mk Marker.Move 2 4], [Target.mk Marker.Move 3 4]], by decide,
    [Target.mk Marker.Move 3 4], by decide, by decide⟩

theorem C31_no_overflow_witness :
    RegularPlay freshBoard ∧ RegularChoice freshBoard 1 4 (Target.mk Marker.Move 3 4) ∧
    (freshBoard.white_capture_index ≤ 16 ∧ freshBoard.black_capture_index ≤ 16) ∧
    ∃ cb1 cb2 : Chessboard, freshBoard.select (freshBoard.board 1 4) = some (true, cb1) ∧
      cb1.move_selected_to 3 4 = some (true, cb2) ∧ RegularPlay cb2 :=
  ⟨freshBoard_regular, freshBoard_choice, (C31_no_overflow freshBoard freshBoard_regular).1,
    ((C31_no_overflow freshBoard freshBoard_regular).2 1 4 (Target.mk Marker.Move 3 4)
      freshBoard_choice).2⟩

/-! ## Distinct target identifiers -/

theorem move_attack_name_ne (r c : Int) (h : inRange r c) :
    (Target.mk Marker.Move r c).name ≠ (Target.mk Marker.Attack r c).name := by
  unfold inRange at h
  obtain ⟨h1, h2, h3, h4⟩ := h
  interval_cases r <;> interval_cases c <;> decide

/-- On the squares of the board the identifier determines the target. -/
theorem target_name_inj (t1 t2 : Target) (h1 : inRange t1.row t1.col)
    (h2 : inRange t2.row t2.col) (h : t1.name = t2.name) : t1 = t2 := by
  obtain ⟨k1, r1, c1⟩ := t1
  obtain ⟨k2, r2, c2⟩ := t2
  have p1 := parse_target_name k1 r1 c1 h1
  have p2 := parse_target_name k2 r2 c2 h2
  rw [h, p2] at p1
  simp only [Option.some.injEq, Prod.mk.injEq] at p1
  obtain ⟨e1, e2⟩ := p1
  subst e1; subst e2
  cases k1 <;> cases k2
  · rfl
  · exact absurd h (move_attack_name_ne _ _ h1)
  · exact absurd h.symm (move_attack_name_ne _ _ h1)
  · rfl

theorem names_nodup (ts : List Target) (hnd : ts.Nodup)
    (hin : ∀ t ∈ ts, inRange t.row t.col) : (ts.map Target.name).Nodup :=
  List.Nodup.map_on (fun x hx y hy e => target_name_inj x y (hin x hx) (hin y hy) e) hnd

theorem mem_flatten_offered (paths : Paths) (t : Target) :
    t ∈ paths.flatten ↔ Offered paths t := by
  simp [Offered, List.mem_flatten]

theorem flatten_map_single (ts : List Target) : (ts.map fun t => [t]).flatten = ts := by
  induction ts with
  | nil => rfl
  | cons t ts ih => simp [List.flatten, ih]

theorem offer_position (cb : Chessboard) (s : Side) (i j : Int) (t : Target)
    (h : offer cb s i j = some t) : t.row = i ∧ t.col = j := by
  unfold offer at h
  by_cases hin : inRange i j
  · rw [if_pos hin] at h
    by_cases he : (cb.board i j).piece.rank = Rank.Empty
    · rw [if_pos he] at h
      injection h with h
      subst h
      exact ⟨rfl, rfl⟩
    · rw [if_neg he] at h
      by_cases hs : (cb.board i j).piece.side ≠ s
      · rw [if_pos hs] at h
        injection h with h
        subst h
        exact ⟨rfl, rfl⟩
      · rw [if_neg hs] at h
        exact absurd h (by simp)
  · rw [if_neg hin] at h
    exact absurd h (by simp)

theorem singlePaths_nodup (cb : Chessboard) (s : Side) (r c : Int)
    (ds : List (Int × Int)) (hds : ds.Nodup) : (singlePaths cb s r c ds).flatten.Nodup := by
  unfold singlePaths
  rw [flatten_map_single]
  apply List.Nodup.filterMap _ hds
  rintro ⟨a1, a2⟩ ⟨b1, b2⟩ t ha hb
  have e1 := offer_position cb s _ _ t (Option.mem_def.mp ha)
  have e2 := offer_position cb s _ _ t (Option.mem_def.mp hb)
  simp only at e1 e2
  have x1 : a1 = b1 := by omega
  have x2 : a2 = b2 := by omega
  rw [x1, x2]

theorem run_position (cb : Chessboard) (s : Side) (r c dr dc : Int) (run : Path)
    (h : IsRun cb s r c dr dc run) (t : Target) (ht : t ∈ run) :
    ∃ k : Nat, 1 ≤ k ∧ t.row = r + (k : Int) * dr ∧ t.col = c + (k : Int) * dc := by
  obtain ⟨n, _, hend⟩ := h
  have hmoves : ∀ t : Target, t ∈ runMoves r c dr dc n →
      ∃ k : Nat, 1 ≤ k ∧ t.row = r + (k : Int) * dr ∧ t.col = c + (k : Int) * dc := by
    intro t ht
    simp only [runMoves, List.mem_map, List.mem_range] at ht
    obtain ⟨k, _, hkt⟩ := ht
    subst hkt
    exact ⟨k + 1, by omega, by push_cast; rfl, by push_cast; rfl⟩
  rcases hend with ⟨_, e⟩ | ⟨_, _, _, e⟩ | ⟨_, _, _, e⟩
  · rw [e] at ht; exact hmoves t ht
  · rw [e] at ht
    rcases List.mem_append.mp ht with hm | ha
    · exact hmoves t hm
    · have : t = Target.mk Marker.Attack (r + ((n : Int) + 1) * dr) (c + ((n : Int) + 1) * dc) := by
        simpa using ha
      subst this
      exact ⟨n + 1, by omega, by push_cast; rfl, by push_cast; rfl⟩
  · rw [e] at ht; exact hmoves t ht

theorem runMoves_nodup (r c dr dc : Int) (hd : dr ≠ 0 ∨ dc ≠ 0) (n : Nat) :
    (runMoves r c dr dc n).Nodup := by
  unfold runMoves
  apply List.Nodup.map _ (List.nodup_range n)
  intro a b hab
  simp only [Target.mk.injEq, true_and] at hab
  obtain ⟨e1, e2⟩ := hab
  have e3 : ((a : Int) + 1) * dr = ((b : Int) + 1) * dr := by omega
  have e4 : ((a : Int) + 1) * dc = ((b : Int) + 1) * dc := by omega
  rcases hd with hd | hd
  · have := mul_right_cancel₀ hd e3
    omega
  · have := mul_right_cancel₀ hd e4
    omega

theorem run_nodup (cb : Chessboard) (s : Side) (r c dr dc : Int) (run : Path)
    (hd : dr ≠ 0 ∨ dc ≠ 0) (h : IsRun cb s r c dr dc run) : run.Nodup := by
  obtain ⟨n, _, hend⟩ := h
  rcases hend with ⟨_, e⟩ | ⟨_, _, _, e⟩ | ⟨_, _, _, e⟩
  · rw [e]; exact runMoves_nodup r c dr dc hd n
  · rw [e, List.nodup_append]
    refine ⟨runMoves_nodup r c dr dc hd n, List.nodup_singleton _, ?_⟩
    rw [List.disjoint_left]
    intro t ht hta
    have : t = Target.mk Marker.Attack (r + ((n : Int) + 1) * dr) (c + ((n : Int) + 1) * dc) := by
      simpa using hta
    subst this
    simp [runMoves] at ht
  · rw [e]; exact runMoves_nodup r c dr dc hd n

theorem runs_disjoint (cb : Chessboard) (s : Side) (r c dr1 dc1 dr2 dc2 : Int)
    (run1 run2 : Path) (h1 : IsRun cb s r c dr1 dc1 run1) (h2 : IsRun cb s r c dr2 dc2 run2)
    (hd1 : IsDir dr1 dc1) (hd2 : IsDir dr2 dc2) (hne : dr1 ≠ dr2 ∨ dc1 ≠ dc2) :
    List.Disjoint run1 run2 := by
  rw [List.disjoint_left]
  intro t ht1 ht2
  obtain ⟨k1, hk1, a1, b1⟩ := run_position cb s r c dr1 dc1 run1 h1 t ht1
  obtain ⟨k2, hk2, a2, b2⟩ := run_position cb s r c dr2 dc2 run2 h2 t ht2
  obtain ⟨x1, y1, z1⟩ := hd1
  obtain ⟨x2, y2, z2⟩ := hd2
  rcases x1 with e | e | e <;> rcases y1 with f | f | f <;>
    rcases x2 with g | g | g <;> rcases y2 with i | i | i <;>
    subst e <;> subst f <;> subst g <;> subst i <;>
    simp only [mul_one, mul_zero, mul_neg, add_zero] at a1 b1 a2 b2 <;>
    omega

theorem nonEmptyRuns_nodup (runs : List Path) (hnd : ∀ run ∈ runs, run.Nodup)
    (hdis : runs.Pairwise List.Disjoint) : (nonEmptyRuns runs).flatten.Nodup := by
  rw [List.nodup_flatten]
  constructor
  · intro l hl
    exact hnd l ((mem_nonEmptyRuns l runs).mp hl).1
  · exact List.Pairwise.sublist (List.filter_sublist runs) hdis

theorem push_single_sublist (ok : Bool) (t : Target) (paths : Paths) (l : List Target)
    (h : paths.flatten.Sublist l) : (push_single ok t paths).flatten.Sublist (l ++ [t]) := by
  cases ok with
  | false =>
    simp only [push_single, Bool.false_eq_true, if_false]
    exact h.trans (List.sublist_append_left l [t])
  | true =>
    simp only [push_single, if_true, List.flatten_append, List.flatten_cons, List.flatten_nil,
      List.append_nil]
    exact List.Sublist.append h (List.Sublist.refl [t])

theorem pawn_nodup (cb : Chessboard) {r c : Int} (hstart : PawnsOnStartRows cb)
    (h : inRange r c) (hk : (cb.board r c).piece.rank = Rank.Pawn) :
    ∃ paths : Paths, cb.calc_pawn_moves r c = some paths ∧ paths.flatten.Nodup := by
  have hst := hstart r c h hk
  cases hs : (cb.board r c).piece.side with
  | White =>
    refine ⟨_, calc_pawn_moves_white cb h hs (fun hm => (hst hm).1 hs), ?_⟩
    refine List.Nodup.sublist
      (push_single_sublist _ _ _ _ (push_single_sublist _ _ _ _
        (push_single_sublist _ _ _ _ (push_single_sublist _ _ _ []
          (by simp))))) ?_
    simp
    omega
  | Black =>
    refine ⟨_, calc_pawn_moves_black cb h hs (fun hm => (hst hm).2 hs), ?_⟩
    refine List.Nodup.sublist
      (push_single_sublist _ _ _ _ (push_single_sublist _ _ _ _
        (push_single_sublist _ _ _ _ (push_single_sublist _ _ _ []
          (by simp))))) ?_
    simp
    omega

theorem knightOffsets_nodup : knightOffsets.Nodup := by decide

theorem kingOffsets_nodup : kingOffsets.Nodup := by decide

theorem castleOutcome_no_king (cb : Chessboard) (piece : Piece) (r c : Int) (ts : Path)
    (hno : piece.has_moved = true ∨ (¬ KingLeft cb piece.side r c ∧ ¬ KingRight cb piece.side r c))
    (h : CastleOutcome cb piece r c ts) : ts = [] := by
  rcases hno with hm | ⟨n1, n2⟩
  · exact castleOutcome_moved cb piece r c ts hm h
  · rcases h with ⟨_, k, hk1, hk2, _⟩ | ⟨_, _, k, hk1, hk2, _⟩ | ⟨_, hts⟩
    · exact absurd ⟨k, hk1, hk2⟩ n1
    · exact absurd ⟨k, hk1, hk2⟩ n2
    · exact hts

theorem names_of_paths (cb : Chessboard) (s : Side) (paths : Paths)
    (hnd : paths.flatten.Nodup) (hv : ∀ t : Target, Offered paths t → ValidTarget cb s t) :
    (paths.flatten.map Target.name).Nodup :=
  names_nodup paths.flatten hnd
    (fun t ht => (hv t ((mem_flatten_offered paths t).mp ht)).1)

theorem rook_nodup (cb : Chessboard) (s : Side) (r c : Int) (up down right left : Path)
    (h1 : IsRun cb s r c 1 0 up) (h2 : IsRun cb s r c (-1) 0 down)
    (h3 : IsRun cb s r c 0 1 right) (h4 : IsRun cb s r c 0 (-1) left) :
    (nonEmptyRuns [up, down, right, left]).flatten.Nodup := by
  apply nonEmptyRuns_nodup
  · intro run hrun
    simp only [List.mem_cons, List.mem_singleton, List.not_mem_nil, or_false] at hrun
    rcases hrun with e | e | e | e <;> subst e
    · exact run_nodup cb s r c _ _ _ (by decide) h1
    · exact run_nodup cb s r c _ _ _ (by decide) h2
    · exact run_nodup cb s r c _ _ _ (by decide) h3
    · exact run_nodup cb s r c _ _ _ (by decide) h4
  · simp only [List.pairwise_cons, List.mem_cons, List.mem_singleton, List.not_mem_nil,
      or_false, forall_eq_or_imp, forall_eq, IsEmpty.forall_iff, implies_true, and_true,
      List.Pairwise.nil]
    refine ⟨⟨?_, ?_, ?_⟩, ⟨?_, ?_⟩, ?_⟩
    · exact runs_disjoint cb s r c _ _ _ _ _ _ h1 h2 (by unfold IsDir; decide)
        (by unfold IsDir; decide) (by decide)
    · exact runs_disjoint cb s r c _ _ _ _ _ _ h1 h3 (by unfold IsDir; decide)
        (by unfold IsDir; decide) (by decide)
    · exact runs_disjoint cb s r c _ _ _ _ _ _ h1 h4 (by unfold IsDir; decide)
        (by unfold IsDir; decide) (by decide)
    · exact runs_disjoint cb s r c _ _ _ _ _ _ h2 h3 (by unfold IsDir; decide)
        (by unfold IsDir; decide) (by decide)
    · exact runs_disjoint cb s r c _ _ _ _ _ _ h2 h4 (by unfold IsDir; decide)
        (by unfold IsDir; decide) (by decide)
    · exact runs_disjoint cb s r c _ _ _ _ _ _ h3 h4 (by unfold IsDir; decide)
        (by unfold IsDir; decide) (by decide)

theorem bishop_nodup (cb : Chessboard) (s : Side) (r c : Int) (d1 d2 d3 d4 : Path)
    (h1 : IsRun cb s r c 1 1 d1) (h2 : IsRun cb s r c 1 (-1) d2)
    (h3 : IsRun cb s r c (-1) 1 d3) (h4 : IsRun cb s r c (-1) (-1) d4) :
    (nonEmptyRuns [d1, d2, d3, d4]).flatten.Nodup := by
  apply nonEmptyRuns_nodup
  · intro run hrun
    simp only [List.mem_cons, List.mem_singleton, List.not_mem_nil, or_false] at hrun
    rcases hrun with e | e | e | e <;> subst e
    · exact run_nodup cb s r c _ _ _ (by decide) h1
    · exact run_nodup cb s r c _ _ _ (by decide) h2
    · exact run_nodup cb s r c _ _ _ (by decide) h3
    · exact run_nodup cb s r c _ _ _ (by decide) h4
  · simp only [List.pairwise_cons, List.mem_cons, List.mem_singleton, List.not_mem_nil,
      or_false, forall_eq_or_imp, forall_eq, IsEmpty.forall_iff, implies_true, and_true,
      List.Pairwise.nil]
    refine ⟨⟨?_, ?_, ?_⟩, ⟨?_, ?_⟩, ?_⟩
    · exact runs_disjoint cb s r c _ _ _ _ _ _ h1 h2 (by unfold IsDir; decide)
        (by unfold IsDir; decide) (by decide)
    · exact runs_disjoint cb s r c _ _ _ _ _ _ h1 h3 (by unfold IsDir; decide)
        (by unfold IsDir; decide) (by decide)
    · exact runs_disjoint cb s r c _ _ _ _ _ _ h1 h4 (by unfold IsDir; decide)
        (by unfold IsDir; decide) (by decide)
    · exact runs_disjoint cb s r c _ _ _ _ _ _ h2 h3 (by unfold IsDir; decide)
        (by unfold IsDir; decide) (by decide)
    · exact runs_disjoint cb s r c _ _ _ _ _ _ h2 h4 (by unfold IsDir; decide)
        (by unfold IsDir; decide) (by decide)
    · exact runs_disjoint cb s r c _ _ _ _ _ _ h3 h4 (by unfold IsDir; decide)
        (by unfold IsDir; decide) (by decide)

theorem directed_runs_nodup (cb : Chessboard) (s : Side) (r c : Int)
    (drs : List ((Int × Int) × Path))
    (hrun : ∀ x ∈ drs, IsDir x.1.1 x.1.2 ∧ IsRun cb s r c x.1.1 x.1.2 x.2)
    (hdirs : (drs.map Prod.fst).Nodup) :
    (nonEmptyRuns (drs.map Prod.snd)).flatten.Nodup := by
  apply nonEmptyRuns_nodup
  · intro run hm
    obtain ⟨x, hx, e⟩ := List.mem_map.mp hm
    subst e
    obtain ⟨hd, hr⟩ := hrun x hx
    exact run_nodup cb s r c _ _ _ hd.2.2 hr
  · rw [List.pairwise_map]
    unfold List.Nodup at hdirs
    rw [List.pairwise_map] at hdirs
    refine List.Pairwise.imp_of_mem ?_ hdirs
    intro a b ha hb hne
    obtain ⟨hda, hra⟩ := hrun a ha
    obtain ⟨hdb, hrb⟩ := hrun b hb
    refine runs_disjoint cb s r c _ _ _ _ _ _ hra hrb hda hdb ?_
    by_contra hcon
    have e1 : a.1.1 = b.1.1 := by
      by_contra h1; exact hcon (Or.inl h1)
    have e2 : a.1.2 = b.1.2 := by
      by_contra h2; exact hcon (Or.inr h2)
    exact hne (Prod.ext e1 e2)

theorem queen_nodup (cb : Chessboard) (s : Side) (r c : Int)
    (d1 up d2 left right d3 down d4 : Path)
    (h1 : IsRun cb s r c 1 1 d1) (h2 : IsRun cb s r c 1 0 up)
    (h3 : IsRun cb s r c 1 (-1) d2) (h4 : IsRun cb s r c 0 (-1) left)
    (h5 : IsRun cb s r c 0 1 right) (h6 : IsRun cb s r c (-1) 1 d3)
    (h7 : IsRun cb s r c (-1) 0 down) (h8 : IsRun cb s r c (-1) (-1) d4) :
    (nonEmptyRuns [d1, up, d2, left, right, d3, down, d4]).flatten.Nodup := by
  have key := directed_runs_nodup cb s r c
    [((1, 1), d1), ((1, 0), up), ((1, -1), d2), ((0, -1), left), ((0, 1), right),
      ((-1, 1), d3), ((-1, 0), down), ((-1, -1), d4)]
    (by
      intro x hx
      simp only [List.mem_cons, List.mem_singleton, List.not_mem_nil, or_false] at hx
      rcases hx with e | e | e | e | e | e | e | e <;> subst e
      · exact ⟨show IsDir 1 1 by unfold IsDir; decide, h1⟩
      · exact ⟨show IsDir 1 0 by unfold IsDir; decide, h2⟩
      · exact ⟨show IsDir 1 (-1) by unfold IsDir; decide, h3⟩
      · exact ⟨show IsDir 0 (-1) by unfold IsDir; decide, h4⟩
      · exact ⟨show IsDir 0 1 by unfold IsDir; decide, h5⟩
      · exact ⟨show IsDir (-1) 1 by unfold IsDir; decide, h6⟩
      · exact ⟨show IsDir (-1) 0 by unfold IsDir; decide, h7⟩
      · exact ⟨show IsDir (-1) (-1) by unfold IsDir; decide, h8⟩)
    (show ([(1, 1), (1, 0), (1, -1), (0, -1), (0, 1), (-1, 1), (-1, 0), (-1, -1)] :
      List (Int × Int)).Nodup by decide)
  exact key

/-- C39 (amended): for every board state in which every unmoved pawn stands on its start
row and every square of the board, apart from a Rook that has never moved and finds its
own unmoved King as the first piece along its row, no target identifier occurs more
than once in the result of `valid_paths`, neither within one path nor across paths. -/
theorem C39_targets_distinct (cb : Chessboard) (r c : Int) (hstart : PawnsOnStartRows cb)
    (h : inRange r c)
    (hrook : (cb.board r c).piece.rank = Rank.Rook →
      (cb.board r c).piece.has_moved = true ∨
        (¬ KingLeft cb (cb.board r c).piece.side r c ∧
          ¬ KingRight cb (cb.board r c).piece.side r c)) :
    ∃ paths : Paths, cb.valid_paths r c = some paths ∧
      (paths.flatten.map Target.name).Nodup := by
  by_cases hbe : (cb.board r c).type ≠ CellType.Board ∨ (cb.board r c).piece.rank = Rank.Empty
  · exact ⟨[], by simp [Chessboard.valid_paths, cell_eq_some cb h, hbe], by simp⟩
  · have hb : (cb.board r c).type = CellType.Board := by
      by_contra hne; exact hbe (Or.inl hne)
    have he : (cb.board r c).piece.rank ≠ Rank.Empty := fun hne => hbe (Or.inr hne)
    rw [valid_paths_eq_calc cb h hb he]
    cases hrank : (cb.board r c).piece.rank with
    | Empty => exact absurd hrank he
    | Rook =>
      obtain ⟨up, down, right, left, ts, h1, h2, h3, h4, h5, h6⟩ := calc_rook_moves_eq cb h
      rw [calc_valid_paths_rook cb h hrank, h6,
        castleOutcome_no_king cb _ r c ts (hrook hrank) h5]
      refine ⟨_, rfl, ?_⟩
      have hnil : nonEmptyRuns [([] : Path)] = [] := by simp [nonEmptyRuns]
      rw [hnil, List.append_nil]
      refine names_of_paths cb (cb.board r c).piece.side _ (rook_nodup cb _ r c _ _ _ _ h1 h2 h3 h4) ?_
      refine runs_valid cb _ _ ?_
      intro run hrun
      simp only [List.mem_cons, List.mem_singleton, List.not_mem_nil, or_false] at hrun
      rcases hrun with hh | hh | hh | hh <;> subst hh
      · exact isRun_valid cb _ r c _ _ _ h1
      · exact isRun_valid cb _ r c _ _ _ h2
      · exact isRun_valid cb _ r c _ _ _ h3
      · exact isRun_valid cb _ r c _ _ _ h4
    | Knight =>
      simp only [Chessboard.calc_valid_paths, cell_eq_some cb h, Option.some_bind, hrank]
      rw [calc_knight_moves_eq cb h]
      exact ⟨_, rfl, names_of_paths cb (cb.board r c).piece.side _
        (singlePaths_nodup cb _ r c knightOffsets knightOffsets_nodup)
        (singlePaths_valid cb _ r c knightOffsets)⟩
    | Bishop =>
      obtain ⟨d1, d2, d3, d4, h1, h2, h3, h4, h5⟩ := calc_bishop_moves_eq cb h
      rw [calc_valid_paths_bishop cb h hrank, h5]
      refine ⟨_, rfl, names_of_paths cb (cb.board r c).piece.side _
        (bishop_nodup cb _ r c _ _ _ _ h1 h2 h3 h4) ?_⟩
      refine runs_valid cb _ _ ?_
      intro run hrun
      simp only [List.mem_cons, List.mem_singleton, List.not_mem_nil, or_false] at hrun
      rcases hrun with hh | hh | hh | hh <;> subst hh
      · exact isRun_valid cb _ r c _ _ _ h1
      · exact isRun_valid cb _ r c _ _ _ h2
      · exact isRun_valid cb _ r c _ _ _ h3
      · exact isRun_valid cb _ r c _ _ _ h4
    | King =>
      simp only [Chessboard.calc_valid_paths, cell_eq_some cb h, Option.some_bind, hrank,
        Chessboard.calc_king_moves]
      by_cases hc : (cb.board r c).piece.is_checked = true
      · exact ⟨[], by simp [hc], by simp⟩
      · refine ⟨singlePaths cb (cb.board r c).piece.side r c kingOffsets, ?_,
          names_of_paths cb (cb.board r c).piece.side _
            (singlePaths_nodup cb _ r c kingOffsets kingOffsets_nodup)
            (singlePaths_valid cb _ r c kingOffsets)⟩
        simp only [hc, if_false]
        rw [king_squares_eq, king_loop_eq]
        simp
    | Queen =>
      obtain ⟨d1, up, d2, left, right, d3, down, d4, h1, h2, h3, h4, h5, h6, h7, h8, h9⟩ :=
        calc_queen_moves_eq cb h
      rw [calc_valid_paths_queen cb h hrank, h9]
      refine ⟨_, rfl, names_of_paths cb (cb.board r c).piece.side _
        (queen_nodup cb _ r c _ _ _ _ _ _ _ _ h1 h2 h3 h4 h5 h6 h7 h8) ?_⟩
      refine runs_valid cb _ _ ?_
      intro run hrun
      simp only [List.mem_cons, List.mem_singleton, List.not_mem_nil, or_false] at hrun
      rcases hrun with hh | hh | hh | hh | hh | hh | hh | hh <;> subst hh
      · exact isRun_valid cb _ r c _ _ _ h1
      · exact isRun_valid cb _ r c _ _ _ h2
      · exact isRun_valid cb _ r c _ _ _ h3
      · exact isRun_valid cb _ r c _ _ _ h4
      · exact isRun_valid cb _ r c _ _ _ h5
      · exact isRun_valid cb _ r c _ _ _ h6
      · exact isRun_valid cb _ r c _ _ _ h7
      · exact isRun_valid cb _ r c _ _ _ h8
    | Pawn =>
      rw [calc_valid_paths_pawn cb h hrank]
      obtain ⟨paths, hpaths, hnd⟩ := pawn_nodup cb hstart h hrank
      obtain ⟨paths2, hpaths2, hv⟩ := pawn_valid cb hstart h hrank
      rw [hpaths] at hpaths2
      simp only [Option.some.injEq] at hpaths2
      subst hpaths2
      exact ⟨paths, hpaths, names_of_paths cb (cb.board r c).piece.side paths hnd hv⟩

theorem C39_targets_distinct_witness :
    ∃ paths : Paths, castleBoard.valid_paths 0 3 = some paths ∧
      (paths.flatten.map Target.name).Nodup :=
  C39_targets_distinct castleBoard 0 3 castleBoard_start (by decide)
    (fun hk => absurd hk (by decide))

/-- C39, as stated, fails: on `castleBoard` (an unmoved White rook on (0,0), the unmoved
White king on (0,3), no pawn) the result of `valid_paths(0,0)` holds the identifier
Marker.Move.0.2 twice, as the last target of the run along the row and as the target of
the castling path. -/
theorem C39_counterexample :
    PawnsOnStartRows castleBoard ∧ (castleBoard.board 0 0).has_piece = true ∧
    castleBoard.valid_paths 0 0 =
      some [runMoves 0 0 1 0 7, [Target.mk Marker.Move 0 1, Target.mk Marker.Move 0 2],
        [Target.mk Marker.Move 0 2]] ∧
    (Option.map (fun paths : Paths =>
      (paths.flatten.map Target.name).count "Marker.Move.0.2") (castleBoard.valid_paths 0 0)) =
        some 2 :=
  ⟨castleBoard_start, by decide, by decide, by decide⟩

end OSGChess
